import Mathlib

/-!
# Cryptopals set 8: group arithmetic, ladder, kangaroo

A shallow embedding of the algorithms given as pseudocode in
`src/set_8/challenges/challenge_2.c`, `challenge_3.c` and `challenge_4.c`
(and of the table in `src/set_1/challenges/challenge_6.c`), followed by
theorems about them.

Conventions of the embedding.
* Field elements are integers (`Int`); "all computations are in GF(p)" is
  rendered by reducing every assigned value with `% p`.
* Scalars (exponents, loop counters) are natural numbers.
* `while` loops are structural recursions on a fuel argument; every loop
  of the source whose trip count is bounded by its input gets that bound
  as fuel, so the embedded function is total.
-/

namespace Cryptopals

/-! ## Generic group capability and `scale` (challenge_3.c, lines 147-163) -/

/-- Capability of a group as used by the generic `scale`: an identity element
and a `combine` operation. -/
structure GroupOps (α : Type) where
  identity : α
  combine : α → α → α

/-- Body of the `while k > 0` loop of `scale`, with state `(result, x, k)`.
The first argument is fuel; the loop halves `k`, so `k` itself is enough. -/
def scaleLoop {α : Type} (G : GroupOps α) : Nat → α → α → Nat → α
  | 0, result, _, _ => result
  | fuel + 1, result, x, k =>
    if k > 0 then
      scaleLoop G fuel (if k % 2 = 1 then G.combine result x else result)
        (G.combine x x) (k >>> 1)
    else result

/-- The generic `scale(x, k)`: identity-seeded accumulator, combine when `k` is
odd, square `x`, shift `k` right. -/
def scale {α : Type} (G : GroupOps α) (x : α) (k : Nat) : α :=
  scaleLoop G k G.identity x k

/-- The group laws the generic algorithms rely on, stated on a carrier `S`
(the reduced residues for integers mod `p`, the valid points for a curve):
`S` contains the identity and is closed under combine, combine is associative
and the identity is neutral. -/
structure GroupOps.LawfulOn {α : Type} (G : GroupOps α) (S : α → Prop) : Prop where
  id_mem : S G.identity
  closed : ∀ x y, S x → S y → S (G.combine x y)
  assoc : ∀ x y z, S x → S y → S z →
    G.combine (G.combine x y) z = G.combine x (G.combine y z)
  id_left : ∀ x, S x → G.combine G.identity x = x
  id_right : ∀ x, S x → G.combine x G.identity = x

/-- The carrier of a lawful group capability, as a monoid. -/
def GroupOps.LawfulOn.monoid {α : Type} {G : GroupOps α} {S : α → Prop}
    (hG : G.LawfulOn S) : Monoid { x : α // S x } where
  mul := fun a b => ⟨G.combine a.1 b.1, hG.closed a.1 b.1 a.2 b.2⟩
  one := ⟨G.identity, hG.id_mem⟩
  mul_assoc := fun a b c => Subtype.ext (hG.assoc a.1 b.1 c.1 a.2 b.2 c.2)
  one_mul := fun a => Subtype.ext (hG.id_left a.1 a.2)
  mul_one := fun a => Subtype.ext (hG.id_right a.1 a.2)

/-! ## Multiplicative integers mod p -/

/-- The multiplicative integers mod `p`: identity `1`, combine is
multiplication followed by the remainder modulo `p`. -/
def mulGroup (p : Nat) : GroupOps Int where
  identity := 1
  combine := fun x y => (x * y) % (p : Int)

/-- Square-and-multiply `modexp`: the generic `scale` over `mulGroup p`. -/
def modexp (x : Int) (k p : Nat) : Int := scale (mulGroup p) x k

/-- Inversion by Fermat's little theorem, `a^(p-2)` (challenge_4.c, lines 91-96). -/
def modinv (a : Int) (p : Nat) : Int := modexp a (p - 2) p

/-- Error taxonomy of the toolkit. -/
inductive Error where
  | NoInverseError
  | NotASquareError
  | PointNotOnCurveError
  | NonCoprimeModuliError
  | NoCollisionFoundError
  deriving DecidableEq, Repr

deriving instance DecidableEq for Except

/-- Loop of the extended Euclidean algorithm on the remainder pair `(r0, r1)`
with Bezout coefficients `(s0, s1)` and `(t0, t1)`; the first argument is fuel. -/
def xgcdLoop : Nat → Int → Int → Int → Int → Int → Int → Int × Int × Int
  | 0, r0, _, s0, _, t0, _ => (r0, s0, t0)
  | fuel + 1, r0, r1, s0, s1, t0, t1 =>
    if r1 = 0 then (r0, s0, t0)
    else
      let q := r0 / r1
      xgcdLoop fuel r1 (r0 - q * r1) s1 (s0 - q * s1) t1 (t0 - q * t1)

/-- Modelled from the spec: the extended Euclidean algorithm named by section
4.1 and 4.7, absent from the source. Returns `(g, s, t)` with
`g = s * a + t * b`. The remainders decrease from `b`, so `|b| + 1` is enough
fuel. -/
def xgcd (a b : Int) : Int × Int × Int :=
  xgcdLoop (b.natAbs + 1) a b 1 0 0 1

/-- Modelled from the spec: `inverse(a, p)` by the extended Euclidean algorithm
(section 4.1), failing with `NoInverseError` when `gcd(a, p) ≠ 1`; the source
only has the inversion by exponentiation, `modinv`. -/
def inverse (a : Int) (p : Nat) : Except Error Int :=
  let r := xgcd (a % (p : Int)) (p : Int)
  if r.1 = 1 then Except.ok (r.2.1 % (p : Int)) else Except.error Error.NoInverseError

/-! ## Quadratic residues and square roots (spec section 4.1) -/

/-- Modelled from the spec: `is_square(a, p)` by Euler's criterion,
`a^((p-1)/2) ≡ 1 (mod p)` (section 4.1); the source names the notion
(challenge_4.c, lines 191-195) without code. -/
def is_square (a : Int) (p : Nat) : Bool :=
  decide (modexp a ((p - 1) / 2) p % (p : Int) = 1 % (p : Int))

/-- Splits `n = q * 2^s` with `q` odd by repeated halving, from the state
`(q, s)`; the first argument is fuel. -/
def splitLoop : Nat → Nat → Nat → Nat × Nat
  | 0, q, s => (q, s)
  | fuel + 1, q, s => if q ≠ 0 ∧ q % 2 = 0 then splitLoop fuel (q / 2) (s + 1) else (q, s)

/-- Searches upward from `z` for the first `z` that is not a square mod `p`;
the first argument is fuel. -/
def findNonresidue (p : Nat) : Nat → Int → Int
  | 0, z => z
  | fuel + 1, z => if is_square z p then findNonresidue p fuel (z + 1) else z

/-- Counts the squarings of `t` needed to reach `1` mod `p`, starting the count
at `i`; the first argument is fuel. -/
def orderLoop (p : Nat) : Nat → Int → Nat → Nat
  | 0, _, i => i
  | fuel + 1, t, i =>
    if t % (p : Int) = 1 % (p : Int) then i
    else orderLoop p fuel ((t * t) % (p : Int)) (i + 1)

/-- Main loop of Tonelli-Shanks on the state `(m, c, t, r)`; the first argument
is fuel, `m` decreases in every iteration. -/
def tonelliLoop (p : Nat) : Nat → Nat → Int → Int → Int → Except Error Int
  | 0, _, _, _, _ => Except.error Error.NotASquareError
  | fuel + 1, m, c, t, r =>
    if t % (p : Int) = 1 % (p : Int) then Except.ok r
    else
      let i := orderLoop p m t 0
      let b := modexp c (2 ^ (m - i - 1)) p
      tonelliLoop p fuel i ((b * b) % (p : Int)) ((t * b * b) % (p : Int))
        ((r * b) % (p : Int))

/-- Modelled from the spec: `sqrt(a, p)` by Tonelli-Shanks (section 4.1), absent
from the source (challenge_3.c, lines 271-274 only names the algorithm). Fails
with `NotASquareError` when `is_square` is false, uses the direct exponentiation
`a^((p+1)/4)` when `p ≡ 3 (mod 4)`, and the general algorithm otherwise. -/
def sqrt (a : Int) (p : Nat) : Except Error Int :=
  if is_square a p = false then Except.error Error.NotASquareError
  else if p % 4 = 3 then Except.ok (modexp a ((p + 1) / 4) p)
  else
    let qs := splitLoop p (p - 1) 0
    let z := findNonresidue p p 2
    tonelliLoop p (qs.2 + 1) qs.2 (modexp z qs.1 p) (modexp a qs.1 p)
      (modexp a ((qs.1 + 1) / 2) p)

/-! ## CRT combiner (spec section 4.7) -/

/-- One recovered congruence `x ≡ residue (mod modulus)`. -/
structure ResidueConstraint where
  modulus : Int
  residue : Int
  deriving DecidableEq, Repr

/-- Modelled from the spec: merging of two constraints with the extended
Euclidean algorithm (section 4.7), absent from the source. With
`s * m1 + t * m2 = 1` the merged residue is `r1 * t * m2 + r2 * s * m1` reduced
mod `m1 * m2`; moduli with a common factor fail with `NonCoprimeModuliError`. -/
def crt_merge (c1 c2 : ResidueConstraint) : Except Error ResidueConstraint :=
  let r := xgcd c1.modulus c2.modulus
  if r.1 = 1 then
    Except.ok ⟨c1.modulus * c2.modulus,
      (c1.residue * r.2.2 * c2.modulus + c2.residue * r.2.1 * c1.modulus)
        % (c1.modulus * c2.modulus)⟩
  else Except.error Error.NonCoprimeModuliError

/-- Loop of the combiner: folds the remaining constraints into the accumulator,
two constraints at a time. -/
def crt_fold : ResidueConstraint → List ResidueConstraint → Except Error ResidueConstraint
  | acc, [] => Except.ok acc
  | acc, c :: cs =>
    match crt_merge acc c with
    | Except.ok acc2 => crt_fold acc2 cs
    | Except.error e => Except.error e

/-- Modelled from the spec: the CRT combiner (section 4.7), absent from the
source: iterative merging of an ordered sequence of constraints, started from
the trivial constraint `x ≡ 0 (mod 1)`. -/
def crt_combine (cs : List ResidueConstraint) : Except Error ResidueConstraint :=
  crt_fold ⟨1, 0⟩ cs

/-! ## Pollard's kangaroo (challenge_2.c) -/

/-- The tame kangaroo loop (challenge_2.c, lines 53-55): `N` leaps from
`(xT, yT)`, each adding `f(yT)` to `xT` and moving `yT` to `yT * g^f(yT)`. -/
def tameLoop {α : Type} (G : GroupOps α) (g : α) (f : α → Nat) : Nat → Nat × α → Nat × α
  | 0, s => s
  | n + 1, (xT, yT) => tameLoop G g f n (xT + f yT, G.combine yT (scale G g (f yT)))

/-- The wild kangaroo loop (challenge_2.c, lines 74-79) from state `(xW, yW)`.
The first argument is fuel; `none` means the fuel ran out with the loop
condition still true, `NoCollisionFoundError` that the loop condition became
false. Arithmetic on the bounds is over the integers. -/
def wildLoop {α : Type} [DecidableEq α] (G : GroupOps α) (g : α) (f : α → Nat)
    (a b xT : Nat) (yT : α) : Nat → Nat → α → Option (Except Error Int)
  | 0, xW, _ =>
    if (xW : Int) < (b : Int) - (a : Int) + (xT : Int) then none
    else some (Except.error Error.NoCollisionFoundError)
  | fuel + 1, xW, yW =>
    if (xW : Int) < (b : Int) - (a : Int) + (xT : Int) then
      let xW2 := xW + f yW
      let yW2 := G.combine yW (scale G g (f yW))
      if yW2 = yT then some (Except.ok ((b : Int) + (xT : Int) - (xW2 : Int)))
      else wildLoop G g f a b xT yT fuel xW2 yW2
    else some (Except.error Error.NoCollisionFoundError)

/-- Pollard's kangaroo for the index of `y` to the base `g` in `[a, b]`: the
tame run of `N` leaps from `g^b`, then the wild run from `y`. -/
def kangaroo {α : Type} [DecidableEq α] (G : GroupOps α) (g : α) (f : α → Nat)
    (N a b : Nat) (y : α) (fuel : Nat) : Option (Except Error Int) :=
  let t := tameLoop G g f N (0, scale G g b)
  wildLoop G g f a b t.1 t.2 fuel 0 y

/-! ## Short Weierstrass curves (challenge_3.c) -/

/-- Parameters `a`, `b`, `p` of `y^2 = x^3 + a*x + b` over GF(p). -/
structure Curve where
  a : Int
  b : Int
  p : Nat

/-- A point: the abstract identity `O` or a coordinate pair. -/
inductive Point where
  | Identity : Point
  | Affine (x y : Int) : Point
  deriving DecidableEq, Repr

/-- Membership test `y^2 = x^3 + a*x + b` in GF(p). -/
def on_curve (E : Curve) (x y : Int) : Bool :=
  decide ((y ^ 2) % (E.p : Int) = (x ^ 3 + E.a * x + E.b) % (E.p : Int))

/-- A valid point: the identity, or reduced coordinates satisfying the curve
equation. -/
def Point.valid (E : Curve) : Point → Prop
  | Point.Identity => True
  | Point.Affine x y =>
    0 ≤ x ∧ x < (E.p : Int) ∧ 0 ≤ y ∧ y < (E.p : Int) ∧ on_curve E x y = true

instance (E : Curve) (P : Point) : Decidable (P.valid E) := by
  cases P <;> unfold Point.valid <;> infer_instance

/-- The inversion `invert((x, y)) = (x, -y) = (x, p - y)`, computed in GF(p): the
second coordinate is reduced mod `p` like every computed value, so that the
opposite of `y = 0` is `0`. The identity is its own inverse. -/
def invert (E : Curve) : Point → Point
  | Point.Identity => Point.Identity
  | Point.Affine x y => Point.Affine x (((E.p : Int) - y) % (E.p : Int))

/-- The addition `add(P1, P2)` of challenge_3.c, lines 96-117. Division is
multiplication by `modinv`; each assigned value is reduced mod `p`. -/
def add (E : Curve) (P1 P2 : Point) : Point :=
  if P1 = Point.Identity then P2
  else if P2 = Point.Identity then P1
  else if P1 = invert E P2 then Point.Identity
  else
    match P1, P2 with
    | Point.Affine x1 y1, Point.Affine x2 y2 =>
      let m : Int :=
        if P1 = P2 then ((3 * x1 ^ 2 + E.a) * modinv (2 * y1) E.p) % (E.p : Int)
        else ((y2 - y1) * modinv (x2 - x1) E.p) % (E.p : Int)
      let x3 : Int := (m ^ 2 - x1 - x2) % (E.p : Int)
      let y3 : Int := (m * (x1 - x3) - y1) % (E.p : Int)
      Point.Affine x3 y3
    | _, _ => Point.Identity

/-- The curve group: identity `O`, combine is `add`. -/
def curveGroup (E : Curve) : GroupOps Point where
  identity := Point.Identity
  combine := add E

/-- The function `compute_secret(peer_public, self_secret)` of the generic
Diffie-Hellman (challenge_3.c, lines 172-173). -/
def compute_secret {α : Type} (G : GroupOps α) (peer_public : α) (self_secret : Nat) : α :=
  scale G peer_public self_secret

/-- The curve `y^2 = x^3 - 95051*x + 11279326` over
GF(233970423115425145524320034830162017933). -/
def E59 : Curve := ⟨-95051, 11279326, 233970423115425145524320034830162017933⟩

/-- The base point `(182, 85518893674295321206118380980485522083)`. -/
def G59 : Point := Point.Affine 182 85518893674295321206118380980485522083

/-- The order of the base point. -/
def n59 : Nat := 29246302889428143187362802287225875743

/-! ## Montgomery ladder (challenge_4.c) -/

/-- Parameters of `B*v^2 = u^3 + A*u^2 + u` over GF(p). -/
structure MontCurve where
  A : Int
  B : Int
  p : Nat

/-- Loop counting the bits of `n` by repeated halving; the first argument is fuel. -/
def bitlenLoop : Nat → Nat → Nat
  | 0, _ => 0
  | fuel + 1, n => if n = 0 then 0 else bitlenLoop fuel (n / 2) + 1

/-- Number of bits of `n` (`bitlen(0) = 0`). -/
def bitlen (n : Nat) : Nat := bitlenLoop n n

/-- The conditional swap: swaps its first two arguments when the third is one. -/
def cswap (x y : Int) (b : Nat) : Int × Int := if b = 1 then (y, x) else (x, y)

/-- State of the ladder: `(u2, w2, u3, w3)`. -/
structure LadderState where
  u2 : Int
  w2 : Int
  u3 : Int
  w3 : Int
  deriving DecidableEq, Repr

/-- One iteration of the ladder loop for bit `b` (challenge_4.c, lines 43-51). -/
def ladderStep (M : MontCurve) (u : Int) (b : Nat) (s : LadderState) : LadderState :=
  let p : Int := (M.p : Int)
  let (u2, u3) := cswap s.u2 s.u3 b
  let (w2, w3) := cswap s.w2 s.w3 b
  let u3n : Int := ((u2 * u3 - w2 * w3) ^ 2) % p
  let w3n : Int := (u * (u2 * w3 - w2 * u3) ^ 2) % p
  let u2n : Int := ((u2 ^ 2 - w2 ^ 2) ^ 2) % p
  let w2n : Int := (4 * u2 * w2 * (u2 ^ 2 + M.A * u2 * w2 + w2 ^ 2)) % p
  let (u2f, u3f) := cswap u2n u3n b
  let (w2f, w3f) := cswap w2n w3n b
  ⟨u2f, w2f, u3f, w3f⟩

/-- The loop `for i in reverse(range(n))`: the first argument counts the bits
still to process, so bit `n - 1` is handled first and bit `0` last. -/
def ladderLoop (M : MontCurve) (u : Int) (k : Nat) : Nat → LadderState → LadderState
  | 0, s => s
  | i + 1, s => ladderLoop M u k i (ladderStep M u (1 &&& (k >>> i)) s)

/-- The Montgomery ladder `ladder(u, k)` (challenge_4.c, lines 39-52). -/
def ladder (M : MontCurve) (u : Int) (k : Nat) : Int :=
  let s := ladderLoop M u k (bitlen M.p) ⟨1, 0, u, 1⟩
  (s.u2 * modexp s.w2 (M.p - 2) M.p) % (M.p : Int)

/-- The curve `v^2 = u^3 + 534*u^2 + u` over
GF(233970423115425145524320034830162017933). -/
def M60 : MontCurve := ⟨534, 1, 233970423115425145524320034830162017933⟩

/-- Membership test `B*v^2 = u^3 + A*u^2 + u` in GF(p). -/
def on_mont (M : MontCurve) (u v : Int) : Bool :=
  decide ((M.B * v ^ 2) % (M.p : Int) = (u ^ 3 + M.A * u ^ 2 + u) % (M.p : Int))

/-- The map `u = x - 178`, `v = y` from the Weierstrass to the Montgomery form
(challenge_4.c, lines 134-135), coordinates reduced mod `p`. -/
def to_montgomery (p : Nat) (P : Int × Int) : Int × Int :=
  ((P.1 - 178) % (p : Int), P.2)

/-- The inverse map `x = u + 178`, `y = v`, coordinates reduced mod `p`. -/
def to_weierstrass (p : Nat) (Q : Int × Int) : Int × Int :=
  ((Q.1 + 178) % (p : Int), Q.2)

/-! ## Link with the group law of the curve over `ZMod p` -/

/-- The curve as a Weierstrass curve over `ZMod p`. -/
def Curve.toW (E : Curve) : WeierstrassCurve.Affine (ZMod E.p) :=
  { a₁ := 0, a₂ := 0, a₃ := 0, a₄ := (E.a : ZMod E.p), a₆ := (E.b : ZMod E.p) }

/-- The coordinates of a nonsingular point of `E.toW`, as reduced integers. -/
def ofPoint (E : Curve) : E.toW.Point → Point
  | WeierstrassCurve.Affine.Point.zero => Point.Identity
  | @WeierstrassCurve.Affine.Point.some _ _ _ x y _ => Point.Affine (x.val : Int) (y.val : Int)

/-! ## Projective representation used by the ladder -/

/-- Projective `(U : W)` representation of the Montgomery `u`-coordinate
`x - s` of a point: the zero point is `(U : 0)` with `U ≠ 0`. -/
def MRep (E : Curve) (s U W : ZMod E.p) : E.toW.Point → Prop
  | WeierstrassCurve.Affine.Point.zero => W = 0 ∧ U ≠ 0
  | @WeierstrassCurve.Affine.Point.some _ _ _ x _ _ => W ≠ 0 ∧ U = (x - s) * W

/-- Invariant of the ladder after the bits of the prefix `m` of the scalar:
`(u2 : w2)` represents `m • G` and, while `m + 1 < n`, `(u3 : w3)` represents
`(m + 1) • G`. -/
def LadderInv (E : Curve) [Fact (Nat.Prime E.p)] (s : ZMod E.p) (G : E.toW.Point) (n m : Nat)
    (st : LadderState) : Prop :=
  MRep E s st.u2 st.w2 (m • G) ∧ (m + 1 < n → MRep E s st.u3 st.w3 ((m + 1) • G))

/-! ## Scalar multiplication as repeated combine -/

/-- The `k`-fold combine of `x` with itself, `x + x + ... + x`, the meaning of
scalar multiplication as repeated addition (challenge_3.c, lines 135-138). -/
def kfold {α : Type} (G : GroupOps α) (x : α) : Nat → α
  | 0 => G.identity
  | k + 1 => G.combine (kfold G x k) x

/-! ## Hamming distance -/

/-- Modelled from the spec: `text_to_bytes` of challenge_6.c, line 41, declared
in the absent `set_1.h`: the character codes of a text. -/
def text_to_bytes (s : String) : List Nat := s.toList.map Char.toNat

/-- Counts the one bits of `x` by repeated halving; the first argument is fuel. -/
def popcountLoop : Nat → Nat → Nat
  | 0, _ => 0
  | fuel + 1, x => if x = 0 then 0 else x % 2 + popcountLoop fuel (x / 2)

/-- The number of one bits of `x`. -/
def popcount (x : Nat) : Nat := popcountLoop x x

/-- Modelled from the spec: `hamming_distance(bytes_1, bytes_2, len)` of
challenge_6.c, line 44, declared in the absent `set_1.h`: the number of
differing bits, computed as the sum over the first `len` positions of the
popcount of the XOR of the two bytes. -/
def hamming_distance (bytes_1 bytes_2 : List Nat) (len : Nat) : Nat :=
  ((List.range len).map (fun i => popcount (bytes_1.getD i 0 ^^^ bytes_2.getD i 0))).sum

/-! ## Confinement attack: order, brute-force search, and the retry loop -/

/-- The element `x` has order exactly `q`: `scale(x, q)` is the identity and
no smaller positive multiple is. -/
def has_order {α : Type} (G : GroupOps α) (x : α) (q : Nat) : Prop :=
  scale G x q = G.identity ∧ ∀ k < q, 0 < k → scale G x k ≠ G.identity

instance {α : Type} [DecidableEq α] (G : GroupOps α) (x : α) (q : Nat) :
    Decidable (has_order G x q) := by
  unfold has_order
  infer_instance

/-- The search loop of `brute_force`: tries `r`, `r + 1`, ... for at most
`fuel` candidates and returns the first with `scale(h, r) = target`. -/
def bruteLoop {α : Type} [DecidableEq α] (G : GroupOps α) (h target : α) : Nat → Nat → Option Nat
  | 0, _ => none
  | fuel + 1, r => if scale G h r = target then some r else bruteLoop G h target fuel (r + 1)

/-- Modelled from the spec: the brute-force search of section 4.6, step 3, for a
`residue in [0, q)` such that `scale(malicious_element, residue) =
victim_shared_result`; `none` when no residue below `q` matches. -/
def brute_force {α : Type} [DecidableEq α] (G : GroupOps α) (h target : α) (q : Nat) :
    Option Nat :=
  bruteLoop G h target q 0

/-- The retry loop of challenge_3.c, lines 265-269: "pick some random point
and multiply by q/r; if you land on the identity, start over". The random
picks are the list of candidates; the result is `none` when every pick was
rejected. Here the group order is `n` and the prime is `q`. -/
def find_order_q {α : Type} [DecidableEq α] (G : GroupOps α) (n q : Nat) : List α → Option α
  | [] => none
  | h :: rest =>
    if scale G h (n / q) = G.identity then find_order_q G n q rest
    else some (scale G h (n / q))

/-! ## The base64 index table (challenge_6.c) -/

/-- The initialisers of the table `indexbase` of challenge_6.c, lines 28-34, in
the order of the source. -/
def indexbase_init : List Int :=
  [0, 0, 0, 0, 0, 0, 0, 0, 0, 0, 0, 0,
   0, 0, 0, 0, 0, 0, 0, 0, 0, 0, 0, 0, 0, 0, 0, 0, 0, 0, 0, 0,
   0, 0, 0, 0, 0, 0, 0, 0, 0, 0, 0, 62, 63, 62, 62, 63, 52, 53, 54, 55,
   56, 57, 58, 59, 60, 61, 0, 0, 0, 0, 0, 0, 0, 0, 1, 2, 3, 4, 5, 6,
   7, 8, 9, 10, 11, 12, 13, 14, 15, 16, 17, 18, 19, 20, 21, 22, 23, 24, 25, 0,
   0, 0, 0, 63, 0, 26, 27, 28, 29, 30, 31, 32, 33, 34, 35, 36, 37, 38, 39, 40,
   41, 42, 43, 44, 45, 46, 47, 48, 49, 50, 51]

/-- The table `const int indexbase[256]`: entry `c` is the `c`-th initialiser;
the entries after the last initialiser are zero, as C initialises them. -/
def indexbase (c : Nat) : Int := indexbase_init.getD c 0

/-- The standard base64 alphabet, in the order of its 64 values. -/
def base64_alphabet : List Char :=
  "ABCDEFGHIJKLMNOPQRSTUVWXYZabcdefghijklmnopqrstuvwxyz0123456789+/".toList

/-! ## The inversions asked for by the addition -/

/-- The value whose inverse `add` asks for (challenge_3.c, lines 96-117): `2*y1`
for the tangent slope when `P1 = P2`, `x2 - x1` for the chord slope otherwise;
`none` when `add` returns by one of its three guards and computes no slope. -/
def add_denominator (E : Curve) (P1 P2 : Point) : Option Int :=
  if P1 = Point.Identity then none
  else if P2 = Point.Identity then none
  else if P1 = invert E P2 then none
  else
    match P1, P2 with
    | Point.Affine x1 y1, Point.Affine x2 _ =>
      if P1 = P2 then some (2 * y1) else some (x2 - x1)
    | _, _ => none

/-- The addition of challenge_3.c, lines 96-117, with the division performed by
the failing `inverse` of spec section 4.1 in place of `modinv`: a
`NoInverseError` of the inversion is passed on. -/
def add_checked (E : Curve) (P1 P2 : Point) : Except Error Point :=
  if P1 = Point.Identity then Except.ok P2
  else if P2 = Point.Identity then Except.ok P1
  else if P1 = invert E P2 then Except.ok Point.Identity
  else
    match P1, P2 with
    | Point.Affine x1 y1, Point.Affine x2 y2 =>
      match (if P1 = P2 then inverse (2 * y1) E.p else inverse (x2 - x1) E.p) with
      | Except.error e => Except.error e
      | Except.ok i =>
        let m : Int :=
          if P1 = P2 then ((3 * x1 ^ 2 + E.a) * i) % (E.p : Int)
          else ((y2 - y1) * i) % (E.p : Int)
        let x3 : Int := (m ^ 2 - x1 - x2) % (E.p : Int)
        let y3 : Int := (m * (x1 - x3) - y1) % (E.p : Int)
        Except.ok (Point.Affine x3 y3)
    | _, _ => Except.ok Point.Identity

/-! ## The generic `scale` computes powers -/

/-- Transfer lemma for the loop of `scale`: if a relation `R` between group
elements and a monoid `M` respects identity and combine, the loop started from
related values returns a related value. -/
theorem scaleLoop_rel {α M : Type} [Monoid M] (G : GroupOps α) (R : α → M → Prop)
    (hc : ∀ x y a b, R x a → R y b → R (G.combine x y) (a * b)) :
    ∀ (fuel k : Nat) (r x : α) (c a : M), k ≤ fuel → R r c → R x a →
      R (scaleLoop G fuel r x k) (c * a ^ k) := by
  intro fuel
  induction fuel with
  | zero =>
    intro k r x c a hk hr _
    have hk0 : k = 0 := Nat.le_zero.mp hk
    subst hk0
    simpa [scaleLoop] using hr
  | succ fuel ih =>
    intro k r x c a hk hr hx
    unfold scaleLoop
    by_cases hpos : k > 0
    · rw [if_pos hpos]
      have hhalf : k >>> 1 = k / 2 := by simp [Nat.shiftRight_eq_div_pow]
      rw [hhalf]
      have hle : k / 2 ≤ fuel := by omega
      have hsplit : k = 2 * (k / 2) + k % 2 := (Nat.div_add_mod k 2).symm
      by_cases hodd : k % 2 = 1
      · rw [if_pos hodd]
        have hpow : c * a ^ k = (c * a) * (a * a) ^ (k / 2) := by
          conv_lhs => rw [hsplit, hodd]
          rw [pow_add, pow_mul, pow_one, pow_two, mul_assoc]
          congr 1
          exact (((Commute.refl a).mul_right (Commute.refl a)).pow_right (k / 2)).eq.symm
        rw [hpow]
        exact ih (k / 2) _ _ _ _ hle (hc _ _ _ _ hr hx) (hc _ _ _ _ hx hx)
      · rw [if_neg hodd]
        have hev : k % 2 = 0 := by omega
        have hpow : c * a ^ k = c * (a * a) ^ (k / 2) := by
          conv_lhs => rw [hsplit, hev]
          rw [Nat.add_zero, pow_mul, pow_two]
        rw [hpow]
        exact ih (k / 2) _ _ _ _ hle hr (hc _ _ _ _ hx hx)
    · rw [if_neg hpos]
      have hk0 : k = 0 := by omega
      subst hk0
      simpa using hr

/-- Transfer lemma for `scale`: the result is related to the `k`-th power. -/
theorem scale_rel {α M : Type} [Monoid M] (G : GroupOps α) (R : α → M → Prop)
    (h1 : R G.identity 1)
    (hc : ∀ x y a b, R x a → R y b → R (G.combine x y) (a * b))
    (x : α) (a : M) (hx : R x a) (k : Nat) : R (scale G x k) (a ^ k) := by
  have h := scaleLoop_rel G R hc k k G.identity x 1 a le_rfl h1 hx
  simpa [scale] using h

/-- In `ZMod p`, `modexp x k p` is the `k`-th power of `x`. -/
theorem modexp_cast (x : Int) (k p : Nat) :
    ((modexp x k p : Int) : ZMod p) = (x : ZMod p) ^ k := by
  apply scale_rel (mulGroup p) (fun (y : Int) (a : ZMod p) => (y : ZMod p) = a)
  · simp [mulGroup]
  · intro y z a b hy hz
    simp only [mulGroup]
    rw [← hy, ← hz]
    simp
  · rfl

/-! ## Laws of `scale` in a lawful group -/

/-- In a lawful group, `scale` stays in the carrier and is the power of the
carrier monoid. -/
theorem scale_eq_npow {α : Type} {G : GroupOps α} {S : α → Prop} (hG : G.LawfulOn S)
    (x : α) (hx : S x) (k : Nat) :
    scale G x k = (hG.monoid.npow k ⟨x, hx⟩).1 := by
  letI : Monoid { x : α // S x } := hG.monoid
  have h := scale_rel G (fun (y : α) (a : { x : α // S x }) => y = a.1) rfl
    (fun y z a b hy hz => by subst hy; subst hz; rfl) x ⟨x, hx⟩ rfl k
  rw [h]
  rfl

/-- In a lawful group, `scale` maps the carrier to itself. -/
theorem scale_mem {α : Type} {G : GroupOps α} {S : α → Prop} (hG : G.LawfulOn S)
    (x : α) (hx : S x) (k : Nat) : S (scale G x k) := by
  rw [scale_eq_npow hG x hx k]
  exact Subtype.property _

/-- In a lawful group, `scale(x, i + j) = combine(scale(x, i), scale(x, j))`. -/
theorem scale_add {α : Type} {G : GroupOps α} {S : α → Prop} (hG : G.LawfulOn S)
    (x : α) (hx : S x) (i j : Nat) :
    scale G x (i + j) = G.combine (scale G x i) (scale G x j) := by
  letI : Monoid { x : α // S x } := hG.monoid
  rw [scale_eq_npow hG x hx, scale_eq_npow hG x hx, scale_eq_npow hG x hx]
  have h : (⟨x, hx⟩ : { x : α // S x }) ^ (i + j) = ⟨x, hx⟩ ^ i * ⟨x, hx⟩ ^ j := pow_add _ i j
  exact congrArg Subtype.val h

/-- The reduced residues mod `p > 1` with multiplication mod `p` are lawful. -/
theorem mulGroup_lawful (p : Nat) (hp : 1 < p) :
    (mulGroup p).LawfulOn (fun x : Int => 0 ≤ x ∧ x < (p : Int)) := by
  have hp0 : (0 : Int) < (p : Int) := by exact_mod_cast (by omega : 0 < p)
  have hp1 : (1 : Int) < (p : Int) := by exact_mod_cast hp
  refine ⟨⟨by simp [mulGroup], hp1⟩, ?_, ?_, ?_, ?_⟩
  · intro x y _ _
    exact ⟨Int.emod_nonneg _ hp0.ne', Int.emod_lt_of_pos _ hp0⟩
  · intro x y z _ _ _
    simp only [mulGroup]
    rw [Int.mul_emod (x * y % p), Int.emod_emod, ← Int.mul_emod, Int.mul_emod x (y * z % p),
      Int.emod_emod, ← Int.mul_emod, mul_assoc]
  · intro x hx
    simp only [mulGroup, one_mul]
    exact Int.emod_eq_of_lt hx.1 hx.2
  · intro x hx
    simp only [mulGroup, mul_one]
    exact Int.emod_eq_of_lt hx.1 hx.2

/-! ## Kangaroo invariants -/

/-- Tame invariant: from a state with `yT = scale(g, b + xT)` every number of
leaps ends in a state with the same relation. -/
theorem tameLoop_inv {α : Type} {G : GroupOps α} {S : α → Prop} (hG : G.LawfulOn S)
    (g : α) (hg : S g) (f : α → Nat) (b : Nat) :
    ∀ (n : Nat) (st : Nat × α), st.2 = scale G g (b + st.1) →
      (tameLoop G g f n st).2 = scale G g (b + (tameLoop G g f n st).1) := by
  intro n
  induction n with
  | zero => intro st h; simpa [tameLoop] using h
  | succ n ih =>
    intro st h
    obtain ⟨xT, yT⟩ := st
    simp only [tameLoop]
    apply ih
    simp only at h ⊢
    rw [← Nat.add_assoc, scale_add hG g hg, ← h]

/-- Wild invariant: if the wild loop, started with `yW = scale(g, x + xW)`,
returns a value `v`, then `v = b + xT - xW'` for a distance `xW'` with
`scale(g, x + xW') = yT`. -/
theorem wildLoop_inv {α : Type} [DecidableEq α] {G : GroupOps α} {S : α → Prop}
    (hG : G.LawfulOn S) (g : α) (hg : S g) (f : α → Nat) (a b xT x : Nat) (yT : α) (v : Int) :
    ∀ (fuel xW : Nat) (yW : α), yW = scale G g (x + xW) →
      wildLoop G g f a b xT yT fuel xW yW = some (Except.ok v) →
      ∃ xW2 : Nat, v = (b : Int) + (xT : Int) - (xW2 : Int) ∧ scale G g (x + xW2) = yT := by
  intro fuel
  induction fuel with
  | zero =>
    intro xW yW _ hret
    simp only [wildLoop] at hret
    split at hret <;> simp at hret
  | succ fuel ih =>
    intro xW yW hy hret
    simp only [wildLoop] at hret
    have hstep : G.combine yW (scale G g (f yW)) = scale G g (x + (xW + f yW)) := by
      rw [← Nat.add_assoc, scale_add hG g hg, ← hy]
    split at hret
    · split at hret
      · rename_i hcol
        simp only [Option.some.injEq, Except.ok.injEq] at hret
        exact ⟨xW + f yW, hret.symm, by rw [← hstep]; exact hcol⟩
      · exact ih _ _ hstep hret
    · simp at hret

/-- In the multiplicative integers mod 7 the element 2 has order 3: two of its
powers agree exactly when the exponents are congruent mod 3. -/
theorem scale_two_mod_seven (i j : Nat) :
    scale (mulGroup 7) 2 i = scale (mulGroup 7) 2 j ↔ i ≡ j [MOD 3] := by
  have hG := mulGroup_lawful 7 (by norm_num)
  have hg : (fun x : Int => 0 ≤ x ∧ x < ((7 : Nat) : Int)) 2 := by norm_num
  have hper : ∀ k r : Nat, scale (mulGroup 7) 2 (3 * k + r) = scale (mulGroup 7) 2 r := by
    intro k
    induction k with
    | zero => intro r; simp
    | succ k ih =>
      intro r
      have e : 3 * (k + 1) + r = (3 * k + r) + 3 := by ring
      rw [e, scale_add hG 2 hg, ih r]
      have h3 : scale (mulGroup 7) 2 3 = (mulGroup 7).identity := by decide
      rw [h3]
      exact hG.id_right _ (scale_mem hG 2 hg r)
  have hred : ∀ n : Nat, scale (mulGroup 7) 2 n = scale (mulGroup 7) 2 (n % 3) := by
    intro n
    conv_lhs => rw [← Nat.div_add_mod n 3]
    exact hper _ _
  have h0 : scale (mulGroup 7) 2 0 = 1 := by decide
  have h1 : scale (mulGroup 7) 2 1 = 2 := by decide
  have h2 : scale (mulGroup 7) 2 2 = 4 := by decide
  unfold Nat.ModEq
  rw [hred i, hred j]
  have hi : i % 3 < 3 := Nat.mod_lt _ (by norm_num)
  have hj : j % 3 < 3 := Nat.mod_lt _ (by norm_num)
  generalize i % 3 = r at hi ⊢
  generalize j % 3 = t at hj ⊢
  interval_cases r <;> interval_cases t <;> simp [h0, h1, h2]

/-! ## Modular inverse -/

/-- Loop invariant of the extended Euclidean algorithm: the returned `g` is a
nonnegative common divisor of the current remainders and a combination
`s * a + t * b`. -/
theorem xgcdLoop_spec (a b : Int) :
    ∀ (fuel : Nat) (r0 r1 s0 s1 t0 t1 : Int), 0 ≤ r0 → 0 ≤ r1 → r1 < (fuel : Int) →
      r0 = s0 * a + t0 * b → r1 = s1 * a + t1 * b →
      (xgcdLoop fuel r0 r1 s0 s1 t0 t1).1 ∣ r0 ∧
      (xgcdLoop fuel r0 r1 s0 s1 t0 t1).1 ∣ r1 ∧
      0 ≤ (xgcdLoop fuel r0 r1 s0 s1 t0 t1).1 ∧
      (xgcdLoop fuel r0 r1 s0 s1 t0 t1).1 =
        (xgcdLoop fuel r0 r1 s0 s1 t0 t1).2.1 * a + (xgcdLoop fuel r0 r1 s0 s1 t0 t1).2.2 * b := by
  intro fuel
  induction fuel with
  | zero =>
    intro r0 r1 s0 s1 t0 t1 _ h1 hlt
    exact absurd hlt (by simpa using h1)
  | succ fuel ih =>
    intro r0 r1 s0 s1 t0 t1 h0 h1 hlt e0 e1
    unfold xgcdLoop
    by_cases hz : r1 = 0
    · rw [if_pos hz]
      subst hz
      exact ⟨dvd_rfl, dvd_zero _, h0, e0⟩
    · rw [if_neg hz]
      have hpos : 0 < r1 := lt_of_le_of_ne h1 (Ne.symm hz)
      have hmod : r0 - r0 / r1 * r1 = r0 % r1 := by
        rw [Int.emod_def, mul_comm]
      have hlt2 : r0 % r1 < (fuel : Int) := by
        have := Int.emod_lt_of_pos r0 hpos
        push_cast at hlt
        omega
      have e2 : r0 - r0 / r1 * r1 = (s0 - r0 / r1 * s1) * a + (t0 - r0 / r1 * t1) * b := by
        linear_combination e0 - (r0 / r1) * e1
      have key := ih r1 (r0 - r0 / r1 * r1) s1 (s0 - r0 / r1 * s1) t1 (t0 - r0 / r1 * t1)
        h1 (by rw [hmod]; exact Int.emod_nonneg _ hz) (by rw [hmod]; exact hlt2) e1 e2
      obtain ⟨d1, d2, d3, d4⟩ := key
      refine ⟨?_, d1, d3, d4⟩
      have h5 : r0 = (r0 - r0 / r1 * r1) + r0 / r1 * r1 := by ring
      have h6 := dvd_add d2 (Dvd.dvd.mul_left d1 (r0 / r1))
      rw [← h5] at h6
      exact h6

/-- The extended Euclidean algorithm on nonnegative inputs returns a common
divisor `g ≥ 0` of `a` and `b` together with `g = s * a + t * b`. -/
theorem xgcd_spec (a b : Int) (ha : 0 ≤ a) (hb : 0 ≤ b) :
    (xgcd a b).1 ∣ a ∧ (xgcd a b).1 ∣ b ∧ 0 ≤ (xgcd a b).1 ∧
      (xgcd a b).1 = (xgcd a b).2.1 * a + (xgcd a b).2.2 * b := by
  unfold xgcd
  apply xgcdLoop_spec a b (b.natAbs + 1) a b 1 0 0 1 ha hb
  · have h : ((b.natAbs : Nat) : Int) = b := Int.natAbs_of_nonneg hb
    rw [Nat.cast_add, h]
    simp
  · ring
  · ring

/-! ## CRT combiner -/

/-- Merging two constraints with positive coprime moduli succeeds; the merged
residue is reduced mod `m1 * m2` and agrees with both inputs. -/
theorem crt_merge_spec (c1 c2 : ResidueConstraint) (h1 : 0 < c1.modulus)
    (h2 : 0 < c2.modulus) (hc : Int.gcd c1.modulus c2.modulus = 1) :
    ∃ x : Int, crt_merge c1 c2 = Except.ok ⟨c1.modulus * c2.modulus, x⟩ ∧
      0 ≤ x ∧ x < c1.modulus * c2.modulus ∧
      x % c1.modulus = c1.residue % c1.modulus ∧
      x % c2.modulus = c2.residue % c2.modulus := by
  obtain ⟨d1, d2, d3, d4⟩ := xgcd_spec c1.modulus c2.modulus h1.le h2.le
  have hg1 : (xgcd c1.modulus c2.modulus).1 = 1 := by
    have h := Int.dvd_gcd d1 d2
    rw [hc] at h
    exact Int.eq_one_of_dvd_one d3 (by simpa using h)
  rw [hg1] at d4
  have hpos : 0 < c1.modulus * c2.modulus := mul_pos h1 h2
  refine ⟨(c1.residue * (xgcd c1.modulus c2.modulus).2.2 * c2.modulus
      + c2.residue * (xgcd c1.modulus c2.modulus).2.1 * c1.modulus)
        % (c1.modulus * c2.modulus), ?_, ?_, ?_, ?_, ?_⟩
  · simp [crt_merge, hg1]
  · exact Int.emod_nonneg _ hpos.ne'
  · exact Int.emod_lt_of_pos _ hpos
  · rw [Int.emod_emod_of_dvd _ (Dvd.intro _ rfl)]
    have e : c1.residue * (xgcd c1.modulus c2.modulus).2.2 * c2.modulus
        + c2.residue * (xgcd c1.modulus c2.modulus).2.1 * c1.modulus
        = c1.residue + (c2.residue * (xgcd c1.modulus c2.modulus).2.1
          - c1.residue * (xgcd c1.modulus c2.modulus).2.1) * c1.modulus := by
      linear_combination (-c1.residue) * d4
    rw [e, Int.add_mul_emod_self]
  · rw [Int.emod_emod_of_dvd _ (Dvd.intro_left _ rfl)]
    have e : c1.residue * (xgcd c1.modulus c2.modulus).2.2 * c2.modulus
        + c2.residue * (xgcd c1.modulus c2.modulus).2.1 * c1.modulus
        = c2.residue + (c1.residue * (xgcd c1.modulus c2.modulus).2.2
          - c2.residue * (xgcd c1.modulus c2.modulus).2.2) * c2.modulus := by
      linear_combination (-c2.residue) * d4
    rw [e, Int.add_mul_emod_self]

/-! ## Primality of the field size and of the base point order -/

/-- Lucas primality test phrased with `modexp`: if `a^(p-1) = 1` and
`a^((p-1)/q) ≠ 1` mod `p` for every `q` of a list of primes that contains all
prime factors of `p - 1`, then `p` is prime. -/
theorem prime_of_certificate (p : Nat) (a : Int) (fs : List Nat) (e : Nat)
    (hfs : ∀ q ∈ fs, Nat.Prime q) (hdvd : (p - 1) ∣ fs.prod ^ e)
    (h1 : modexp a (p - 1) p % (p : Int) = 1 % (p : Int))
    (hq : ∀ q ∈ fs, modexp a ((p - 1) / q) p % (p : Int) ≠ 1 % (p : Int)) :
    Nat.Prime p := by
  apply lucas_primality p ((a : Int) : ZMod p)
  · rw [← modexp_cast]
    have h : ((modexp a (p - 1) p : Int) : ZMod p) = ((1 : Int) : ZMod p) :=
      (ZMod.intCast_eq_intCast_iff _ _ _).mpr h1
    simpa using h
  · intro q hqp hqd
    have hq1 : q ∣ fs.prod := hqp.dvd_of_dvd_pow (hqd.trans hdvd)
    obtain ⟨r, hr, hqr⟩ := (Prime.dvd_prod_iff hqp.prime).mp hq1
    have hqr2 : q = r := (Nat.prime_dvd_prime_iff_eq hqp (hfs r hr)).mp hqr
    subst hqr2
    rw [← modexp_cast]
    intro hcon
    apply hq q hr
    have h : ((modexp a ((p - 1) / q) p : Int) : ZMod p) = ((1 : Int) : ZMod p) := by
      simpa using hcon
    exact (ZMod.intCast_eq_intCast_iff _ _ _).mp h

/-- Lucas certificate: `362508457` is prime, with witness `5`. -/
theorem prime_362508457 : Nat.Prime 362508457 := by
  refine prime_of_certificate 362508457 5 [2, 3, 823, 18353] 3 ?_ (by decide!) (by decide!) (by decide!)
  intro q hq
  simp only [List.mem_cons, List.mem_singleton, List.mem_nil_iff, or_false] at hq
  rcases hq with rfl | rfl | rfl | rfl
  · norm_num
  · norm_num
  · norm_num
  · norm_num

/-- Lucas certificate: `460116599` is prime, with witness `13`. -/
theorem prime_460116599 : Nat.Prime 460116599 := by
  refine prime_of_certificate 460116599 13 [2, 43, 5350193] 1 ?_ (by decide!) (by decide!) (by decide!)
  intro q hq
  simp only [List.mem_cons, List.mem_singleton, List.mem_nil_iff, or_false] at hq
  rcases hq with rfl | rfl | rfl
  · norm_num
  · norm_num
  · norm_num

/-- Lucas certificate: `6441632387` is prime, with witness `5`. -/
theorem prime_6441632387 : Nat.Prime 6441632387 := by
  refine prime_of_certificate 6441632387 5 [2, 7, 460116599] 1 ?_ (by decide!) (by decide!) (by decide!)
  intro q hq
  simp only [List.mem_cons, List.mem_singleton, List.mem_nil_iff, or_false] at hq
  rcases hq with rfl | rfl | rfl
  · norm_num
  · norm_num
  · exact prime_460116599

/-- Lucas certificate: `244025561787739511197397812601` is prime, with witness `3`. -/
theorem prime_244025561787739511197397812601 : Nat.Prime 244025561787739511197397812601 := by
  refine prime_of_certificate 244025561787739511197397812601 3 [2, 5, 1063, 491539, 362508457, 6441632387] 3 ?_ (by decide!) (by decide!) (by decide!)
  intro q hq
  simp only [List.mem_cons, List.mem_singleton, List.mem_nil_iff, or_false] at hq
  rcases hq with rfl | rfl | rfl | rfl | rfl | rfl
  · norm_num
  · norm_num
  · norm_num
  · norm_num
  · exact prime_362508457
  · exact prime_6441632387

/-- Lucas certificate: `233970423115425145524320034830162017933` is prime, with witness `2`. -/
theorem prime_233970423115425145524320034830162017933 : Nat.Prime 233970423115425145524320034830162017933 := by
  refine prime_of_certificate 233970423115425145524320034830162017933 2 [2, 3, 7, 422749, 244025561787739511197397812601] 4 ?_ (by decide!) (by decide!) (by decide!)
  intro q hq
  simp only [List.mem_cons, List.mem_singleton, List.mem_nil_iff, or_false] at hq
  rcases hq with rfl | rfl | rfl | rfl | rfl
  · norm_num
  · norm_num
  · norm_num
  · norm_num
  · exact prime_244025561787739511197397812601

/-- Lucas certificate: `454442507` is prime, with witness `2`. -/
theorem prime_454442507 : Nat.Prime 454442507 := by
  refine prime_of_certificate 454442507 2 [2, 7, 3917, 8287] 1 ?_ (by decide!) (by decide!) (by decide!)
  intro q hq
  simp only [List.mem_cons, List.mem_singleton, List.mem_nil_iff, or_false] at hq
  rcases hq with rfl | rfl | rfl | rfl
  · norm_num
  · norm_num
  · norm_num
  · norm_num

/-- Lucas certificate: `10906620169` is prime, with witness `23`. -/
theorem prime_10906620169 : Nat.Prime 10906620169 := by
  refine prime_of_certificate 10906620169 23 [2, 3, 454442507] 3 ?_ (by decide!) (by decide!) (by decide!)
  intro q hq
  simp only [List.mem_cons, List.mem_singleton, List.mem_nil_iff, or_false] at hq
  rcases hq with rfl | rfl | rfl
  · norm_num
  · norm_num
  · exact prime_454442507

/-- Lucas certificate: `23885671` is prime, with witness `6`. -/
theorem prime_23885671 : Nat.Prime 23885671 := by
  refine prime_of_certificate 23885671 6 [2, 3, 5, 796189] 1 ?_ (by decide!) (by decide!) (by decide!)
  intro q hq
  simp only [List.mem_cons, List.mem_singleton, List.mem_nil_iff, or_false] at hq
  rcases hq with rfl | rfl | rfl | rfl
  · norm_num
  · norm_num
  · norm_num
  · norm_num

/-- Lucas certificate: `27013313` is prime, with witness `3`. -/
theorem prime_27013313 : Nat.Prime 27013313 := by
  refine prime_of_certificate 27013313 3 [2, 422083] 6 ?_ (by decide!) (by decide!) (by decide!)
  intro q hq
  simp only [List.mem_cons, List.mem_singleton, List.mem_nil_iff, or_false] at hq
  rcases hq with rfl | rfl
  · norm_num
  · norm_num

/-- Lucas certificate: `9033235497132323` is prime, with witness `2`. -/
theorem prime_9033235497132323 : Nat.Prime 9033235497132323 := by
  refine prime_of_certificate 9033235497132323 2 [2, 7, 23885671, 27013313] 1 ?_ (by decide!) (by decide!) (by decide!)
  intro q hq
  simp only [List.mem_cons, List.mem_singleton, List.mem_nil_iff, or_false] at hq
  rcases hq with rfl | rfl | rfl | rfl
  · norm_num
  · norm_num
  · exact prime_23885671
  · exact prime_27013313

/-- Lucas certificate: `25760547395418096379897` is prime, with witness `10`. -/
theorem prime_25760547395418096379897 : Nat.Prime 25760547395418096379897 := by
  refine prime_of_certificate 25760547395418096379897 10 [2, 3, 31, 3833, 9033235497132323] 3 ?_ (by decide!) (by decide!) (by decide!)
  intro q hq
  simp only [List.mem_cons, List.mem_singleton, List.mem_nil_iff, or_false] at hq
  rcases hq with rfl | rfl | rfl | rfl | rfl
  · norm_num
  · norm_num
  · norm_num
  · norm_num
  · exact prime_9033235497132323

/-- Lucas certificate: `29246302889428143187362802287225875743` is prime, with witness `3`. -/
theorem prime_29246302889428143187362802287225875743 : Nat.Prime 29246302889428143187362802287225875743 := by
  refine prime_of_certificate 29246302889428143187362802287225875743 3 [2, 3, 5783, 10906620169, 25760547395418096379897] 2 ?_ (by decide!) (by decide!) (by decide!)
  intro q hq
  simp only [List.mem_cons, List.mem_singleton, List.mem_nil_iff, or_false] at hq
  rcases hq with rfl | rfl | rfl | rfl | rfl
  · norm_num
  · norm_num
  · norm_num
  · exact prime_10906620169
  · exact prime_25760547395418096379897

/-! ## Group primitives, inversion, CRT and kangaroo: the claims -/

/-- C1: for every curve `(a, b, p)` with `p` prime and every valid point `P`
(the identity, or reduced coordinates on the curve), `add(P, invert(P))` is the
identity and `add(P, Identity) = P`. -/
theorem add_invert_and_identity (E : Curve) (_hp : Nat.Prime E.p) (P : Point)
    (hP : P.valid E) :
    add E P (invert E P) = Point.Identity ∧ add E P Point.Identity = P := by
  cases P with
  | Identity => simp [add, invert]
  | Affine x y =>
    obtain ⟨-, -, hy0, hy1, -⟩ := hP
    have hinv : ((E.p : Int) - ((E.p : Int) - y) % (E.p : Int)) % (E.p : Int) = y := by
      rw [Int.sub_emod, Int.emod_emod, ← Int.sub_emod, sub_sub_cancel,
        Int.emod_eq_of_lt hy0 hy1]
    simp [add, invert, hinv]

/-- Witness of C1 at the base point of the specified curve. -/
theorem add_invert_and_identity_witness :
    Nat.Prime E59.p ∧ G59.valid E59 ∧
      add E59 G59 (invert E59 G59) = Point.Identity ∧ add E59 G59 Point.Identity = G59 :=
  ⟨prime_233970423115425145524320034830162017933, by decide!,
    add_invert_and_identity E59 prime_233970423115425145524320034830162017933 G59
      (by decide!)⟩

/-- C2: on the specified curve, scaling the base point by its order with the
generic double-and-add `scale` gives the identity. -/
theorem scale_base_order : scale (curveGroup E59) G59 n59 = Point.Identity := by
  decide!

/-- C3: on the specified Montgomery curve, `ladder(4, n) = 0` for the order `n`
of the base point, the ladder iterating over `bitlen(p)` bits. -/
theorem ladder_base_order : ladder M60 4 n59 = 0 := by
  decide!

/-- C10: with shift 178 and coordinates reduced mod `p`, the two maps between
the Weierstrass and the Montgomery form are inverse to each other on points of
the respective source curve. -/
theorem map_round_trip (x y u v : Int)
    (hW : (Point.Affine x y).valid E59)
    (hM : 0 ≤ u ∧ u < (M60.p : Int) ∧ 0 ≤ v ∧ v < (M60.p : Int) ∧ on_mont M60 u v = true) :
    to_weierstrass E59.p (to_montgomery E59.p (x, y)) = (x, y) ∧
      to_montgomery M60.p (to_weierstrass M60.p (u, v)) = (u, v) := by
  obtain ⟨hx0, hxp, -⟩ := hW
  obtain ⟨hu0, hup, -⟩ := hM
  constructor
  · simp only [to_weierstrass, to_montgomery]
    rw [Int.emod_add_emod, Int.sub_add_cancel, Int.emod_eq_of_lt hx0 hxp]
  · simp only [to_weierstrass, to_montgomery]
    rw [Int.sub_eq_add_neg, Int.emod_add_emod, ← Int.sub_eq_add_neg, Int.add_sub_cancel,
      Int.emod_eq_of_lt hu0 hup]

/-- Witness of C10 at the base point in both forms. -/
theorem map_round_trip_witness :
    (Point.Affine 182 85518893674295321206118380980485522083).valid E59 ∧
    (0 ≤ (4 : Int) ∧ (4 : Int) < (M60.p : Int) ∧
      0 ≤ (85518893674295321206118380980485522083 : Int) ∧
      (85518893674295321206118380980485522083 : Int) < (M60.p : Int) ∧
      on_mont M60 4 85518893674295321206118380980485522083 = true) ∧
    to_weierstrass E59.p (to_montgomery E59.p (182, 85518893674295321206118380980485522083))
      = (182, 85518893674295321206118380980485522083) ∧
    to_montgomery M60.p (to_weierstrass M60.p (4, 85518893674295321206118380980485522083))
      = (4, 85518893674295321206118380980485522083) :=
  ⟨by decide!, by decide!,
    map_round_trip 182 85518893674295321206118380980485522083 4
      85518893674295321206118380980485522083 (by decide!) (by decide!)⟩

/-- C6: for every prime `p` and every `a` coprime to `p`, the inverse computed
as `a^(p-2) mod p` (`modinv`) and the inverse computed by the extended Euclidean
algorithm (`inverse`) both satisfy `(a * inverse(a, p)) mod p = 1`. -/
theorem inverse_mul_mod_eq_one (p : Nat) (hp : Nat.Prime p) (a : Int)
    (ha : Int.gcd a (p : Int) = 1) :
    (a * modinv a p) % (p : Int) = 1 ∧
      ∃ r : Int, inverse a p = Except.ok r ∧ (a * r) % (p : Int) = 1 := by
  haveI : Fact (Nat.Prime p) := ⟨hp⟩
  have hp1 : (1 : Int) < (p : Int) := by exact_mod_cast hp.one_lt
  have hone : (1 : Int) % (p : Int) = 1 := Int.emod_eq_of_lt (by norm_num) hp1
  have hmod : ∀ z : Int, ((z : Int) : ZMod p) = 1 → z % (p : Int) = 1 := by
    intro z hz
    have h : ((z : Int) : ZMod p) = ((1 : Int) : ZMod p) := by simpa using hz
    have h2 := (ZMod.intCast_eq_intCast_iff _ _ _).mp h
    rw [← hone]
    exact h2
  constructor
  · apply hmod
    have hne : ((a : Int) : ZMod p) ≠ 0 := by
      intro h0
      have hdvd : (p : Int) ∣ a := (ZMod.intCast_zmod_eq_zero_iff_dvd a p).mp h0
      have h1 : (p : Int) ∣ ((Int.gcd a (p : Int) : Nat) : Int) := Int.dvd_gcd hdvd dvd_rfl
      rw [ha] at h1
      have h2 : (p : Int) ≤ 1 := Int.le_of_dvd (by norm_num) (by simpa using h1)
      omega
    have hpow := ZMod.pow_card_sub_one_eq_one hne
    have hsplit : p - 1 = (p - 2) + 1 := by have := hp.two_le; omega
    rw [Int.cast_mul]
    unfold modinv
    rw [modexp_cast, ← pow_succ', ← hsplit]
    exact hpow
  · obtain ⟨d1, d2, d3, d4⟩ :=
      xgcd_spec (a % (p : Int)) (p : Int) (Int.emod_nonneg _ (by omega)) (by omega)
    have hda : (xgcd (a % (p : Int)) (p : Int)).1 ∣ a := by
      have h := dvd_add d1 (Dvd.dvd.mul_right d2 (a / (p : Int)))
      rwa [Int.emod_add_ediv] at h
    have hg1 : (xgcd (a % (p : Int)) (p : Int)).1 = 1 := by
      have h := Int.dvd_gcd hda d2
      rw [ha] at h
      exact Int.eq_one_of_dvd_one d3 (by simpa using h)
    refine ⟨(xgcd (a % (p : Int)) (p : Int)).2.1 % (p : Int), ?_, ?_⟩
    · simp [inverse, hg1]
    · apply hmod
      have h := congrArg (fun z : Int => ((z : Int) : ZMod p)) d4
      simp only [hg1] at h
      push_cast at h
      rw [ZMod.natCast_self, mul_zero, add_zero] at h
      push_cast
      rw [mul_comm]
      exact h.symm

/-- Witness of C6: `3` is coprime to the prime field size of the specified curve. -/
theorem inverse_mul_mod_eq_one_witness :
    Nat.Prime E59.p ∧ Int.gcd 3 (E59.p : Int) = 1 ∧
      ((3 * modinv 3 E59.p) % (E59.p : Int) = 1 ∧
        ∃ r : Int, inverse 3 E59.p = Except.ok r ∧ (3 * r) % (E59.p : Int) = 1) :=
  ⟨prime_233970423115425145524320034830162017933, by decide!,
    inverse_mul_mod_eq_one E59.p prime_233970423115425145524320034830162017933 3 (by decide!)⟩

/-- C8: for coprime moduli `m1`, `m2` and residues `r1` in `[0, m1)`, `r2` in
`[0, m2)`, the CRT combiner returns the modulus `m1 * m2` and a residue `x` in
`[0, m1 * m2)` with `x mod m1 = r1` and `x mod m2 = r2`; every integer `y`
satisfying both congruences is congruent to `x` modulo `m1 * m2`. -/
theorem crt_round_trip (m1 m2 r1 r2 : Int) (h1 : 0 ≤ r1 ∧ r1 < m1) (h2 : 0 ≤ r2 ∧ r2 < m2)
    (hc : Int.gcd m1 m2 = 1) :
    ∃ x : Int, crt_combine [⟨m1, r1⟩, ⟨m2, r2⟩] = Except.ok ⟨m1 * m2, x⟩ ∧
      0 ≤ x ∧ x < m1 * m2 ∧ x % m1 = r1 ∧ x % m2 = r2 ∧
      ∀ y : Int, y % m1 = r1 → y % m2 = r2 → y % (m1 * m2) = x % (m1 * m2) := by
  have hm1 : 0 < m1 := lt_of_le_of_lt h1.1 h1.2
  have hm2 : 0 < m2 := lt_of_le_of_lt h2.1 h2.2
  obtain ⟨x1, e1, -, -, -, a2⟩ :=
    crt_merge_spec ⟨1, 0⟩ ⟨m1, r1⟩ (by norm_num) hm1 (by simp)
  simp only [one_mul] at e1 a2
  obtain ⟨x, e2, b0, b1, b2, b3⟩ :=
    crt_merge_spec ⟨m1, x1⟩ ⟨m2, r2⟩ hm1 hm2 hc
  simp only at e2 b0 b1 b2 b3
  have hx1 : x % m1 = r1 := by
    rw [b2, a2, Int.emod_eq_of_lt h1.1 h1.2]
  have hx2 : x % m2 = r2 := by
    rw [b3, Int.emod_eq_of_lt h2.1 h2.2]
  refine ⟨x, ?_, b0, b1, hx1, hx2, ?_⟩
  · simp [crt_combine, crt_fold, e1, e2]
  · intro y hy1 hy2
    have d1 : m1 ∣ y - x := Int.ModEq.dvd (show x ≡ y [ZMOD m1] from by
      unfold Int.ModEq; rw [hx1, hy1])
    have d2 : m2 ∣ y - x := Int.ModEq.dvd (show x ≡ y [ZMOD m2] from by
      unfold Int.ModEq; rw [hx2, hy2])
    have hco : IsCoprime m1 m2 := Int.isCoprime_iff_gcd_eq_one.mpr hc
    have d : m1 * m2 ∣ y - x := hco.mul_dvd d1 d2
    exact ((Int.modEq_iff_dvd.mpr d : x ≡ y [ZMOD m1 * m2])).symm

/-- Witness of C8 at the moduli 3 and 5 with residues 2 and 3. -/
theorem crt_round_trip_witness :
    ((0 : Int) ≤ 2 ∧ (2 : Int) < 3) ∧ ((0 : Int) ≤ 3 ∧ (3 : Int) < 5) ∧ Int.gcd 3 5 = 1 ∧
    ∃ x : Int, crt_combine [⟨3, 2⟩, ⟨5, 3⟩] = Except.ok ⟨3 * 5, x⟩ ∧
      0 ≤ x ∧ x < 3 * 5 ∧ x % 3 = 2 ∧ x % 5 = 3 ∧
      ∀ y : Int, y % 3 = 2 → y % 5 = 3 → y % (3 * 5) = x % (3 * 5) :=
  ⟨by decide, by decide, by decide, crt_round_trip 3 5 2 3 (by decide) (by decide) (by decide)⟩

/-- C9, counterexample: in the multiplicative integers mod 7 with `g = 2` (of
order 3), `f = 1`, `N = 1` and the range `[0, 5]`, the target `y = scale(g, 1)`
makes the wild kangaroo land on `yT` and the solver return `5 + 1 - 2 = 4`,
which is not the planted index `1`. -/
theorem kangaroo_value_ne_index :
    (0 ≤ 1 ∧ 1 ≤ 5) ∧
    kangaroo (mulGroup 7) 2 (fun _ => 1) 1 0 5 (scale (mulGroup 7) 2 1) 6
      = some (Except.ok 4) ∧ (4 : Int) ≠ ((1 : Nat) : Int) := by
  decide

/-- C9, amended: in a lawful group, for `g` of order `q` (equal multiples of `g`
are exactly those with indices congruent mod `q`) and a target
`y = scale(g, x)`: if the wild kangaroo lands on `yT` and the solver returns the
value `v = b + xT - xW`, then `v` is congruent to `x` modulo `q`; when `v` is
nonnegative it is an index of `y`, `scale(g, v) = y`; and `v = x` as soon as
`|v - x| < q`. -/
theorem kangaroo_value_index_mod_order {α : Type} [DecidableEq α] (G : GroupOps α)
    (S : α → Prop) (hG : G.LawfulOn S) (g : α) (hg : S g) (f : α → Nat)
    (N a b x fuel q : Nat) (_hx : a ≤ x ∧ x ≤ b)
    (hq : ∀ i j : Nat, scale G g i = scale G g j ↔ i ≡ j [MOD q]) (v : Int)
    (hret : kangaroo G g f N a b (scale G g x) fuel = some (Except.ok v)) :
    v ≡ (x : Int) [ZMOD (q : Int)] ∧
      (0 ≤ v → scale G g v.toNat = scale G g x) ∧
      ((v - (x : Int)).natAbs < q → v = (x : Int)) := by
  have htame := tameLoop_inv hG g hg f b N (0, scale G g b) rfl
  obtain ⟨xW, hv, hcol⟩ := wildLoop_inv hG g hg f a b _ x _ v fuel 0 (scale G g x) rfl hret
  rw [htame] at hcol
  have hmod : x + xW ≡ b + (tameLoop G g f N (0, scale G g b)).1 [MOD q] := (hq _ _).mp hcol
  have hmodZ : ((x + xW : Nat) : Int) ≡
      ((b + (tameLoop G g f N (0, scale G g b)).1 : Nat) : Int) [ZMOD (q : Int)] :=
    Int.natCast_modEq_iff.mpr hmod
  have hv2 : v ≡ (x : Int) [ZMOD (q : Int)] := by
    have h3 := hmodZ.symm.sub_right (xW : Int)
    push_cast at h3
    rw [hv]
    simpa [add_sub_cancel_right] using h3
  refine ⟨hv2, ?_, ?_⟩
  · intro h0
    apply (hq _ _).mpr
    apply Int.natCast_modEq_iff.mp
    rw [Int.toNat_of_nonneg h0]
    exact hv2
  · intro hlt
    have hd : (q : Int) ∣ v - (x : Int) := (Int.modEq_iff_dvd.mp hv2.symm)
    have h0 : v - (x : Int) = 0 :=
      Int.eq_zero_of_dvd_of_natAbs_lt_natAbs hd (by simpa using hlt)
    omega

/-- Witness of C9 (amended) at the input of the counterexample: the solver
returns 4, congruent to the planted index 1 modulo the order 3 of `g = 2`. -/
theorem kangaroo_value_index_mod_order_witness :
    (0 ≤ 1 ∧ 1 ≤ 5) ∧
    kangaroo (mulGroup 7) 2 (fun _ => 1) 1 0 5 (scale (mulGroup 7) 2 1) 6
      = some (Except.ok 4) ∧
    ((4 : Int) ≡ ((1 : Nat) : Int) [ZMOD ((3 : Nat) : Int)] ∧
      (0 ≤ (4 : Int) → scale (mulGroup 7) 2 (4 : Int).toNat = scale (mulGroup 7) 2 1) ∧
      (((4 : Int) - ((1 : Nat) : Int)).natAbs < 3 → (4 : Int) = ((1 : Nat) : Int))) :=
  ⟨by decide, by decide,
    kangaroo_value_index_mod_order (mulGroup 7) (fun x : Int => 0 ≤ x ∧ x < ((7 : Nat) : Int))
      (mulGroup_lawful 7 (by norm_num)) 2 (by norm_num) (fun _ => 1) 1 0 5 1 6 3
      (by decide) scale_two_mod_seven 4 (by decide)⟩

/-! ## Square roots by Tonelli-Shanks -/

/-- Reduction mod `p` equal to that of `1`, read in `ZMod p`. -/
theorem emod_eq_one_iff (p : Nat) (z : Int) :
    z % (p : Int) = 1 % (p : Int) ↔ ((z : Int) : ZMod p) = 1 := by
  have h := ZMod.intCast_eq_intCast_iff z 1 p
  rw [Int.cast_one] at h
  exact h.symm

/-- Euler's criterion as computed by `is_square`, read in `ZMod p`. -/
theorem is_square_iff (a : Int) (p : Nat) :
    is_square a p = true ↔ ((a : Int) : ZMod p) ^ ((p - 1) / 2) = 1 := by
  unfold is_square
  rw [decide_eq_true_iff, emod_eq_one_iff, modexp_cast]

/-- The halving loop keeps `q * 2^s` and stops at an odd `q`. -/
theorem splitLoop_spec :
    ∀ (fuel q s : Nat), q ≤ fuel → q ≠ 0 →
      (splitLoop fuel q s).1 * 2 ^ (splitLoop fuel q s).2 = q * 2 ^ s ∧
      (splitLoop fuel q s).1 % 2 = 1 ∧ s ≤ (splitLoop fuel q s).2 := by
  intro fuel
  induction fuel with
  | zero => intro q s h1 h2; omega
  | succ fuel ih =>
    intro q s h1 h2
    unfold splitLoop
    by_cases h : q ≠ 0 ∧ q % 2 = 0
    · rw [if_pos h]
      obtain ⟨e1, e2, e3⟩ := ih (q / 2) (s + 1) (by omega) (by omega)
      refine ⟨?_, e2, by omega⟩
      rw [e1, pow_succ]
      have : q = 2 * (q / 2) := by omega
      conv_rhs => rw [this]
      ring
    · rw [if_neg h]
      refine ⟨rfl, by omega, le_rfl⟩

/-- The upward search returns a non-square not above any non-square in range. -/
theorem findNonresidue_spec (p : Nat) :
    ∀ (fuel : Nat) (z w : Int), z ≤ w → w < z + (fuel : Int) → is_square w p = false →
      is_square (findNonresidue p fuel z) p = false ∧ z ≤ findNonresidue p fuel z ∧
        findNonresidue p fuel z ≤ w := by
  intro fuel
  induction fuel with
  | zero => intro z w h1 h2 _; simp at h2; omega
  | succ fuel ih =>
    intro z w h1 h2 h3
    unfold findNonresidue
    by_cases h : is_square z p = true
    · rw [if_pos h]
      have hne : z ≠ w := by
        intro e
        rw [e, h3] at h
        exact Bool.false_ne_true h
      obtain ⟨e1, e2, e3⟩ := ih (z + 1) w (by omega) (by push_cast at h2; omega) h3
      exact ⟨e1, by omega, e3⟩
    · rw [if_neg h]
      exact ⟨by simpa using h, le_rfl, h1⟩

/-- The squaring count: started at `i` on `t`, the loop returns `i + j` for the
least `j` with `t^(2^j) = 1` in `ZMod p`, provided some such `j ≤ fuel` exists. -/
theorem orderLoop_spec (p : Nat) :
    ∀ (fuel : Nat) (t : Int) (i k : Nat), k ≤ fuel → ((t : Int) : ZMod p) ^ (2 ^ k) = 1 →
      ∃ j : Nat, orderLoop p fuel t i = i + j ∧ j ≤ k ∧ ((t : Int) : ZMod p) ^ (2 ^ j) = 1 ∧
        ∀ l : Nat, l < j → ((t : Int) : ZMod p) ^ (2 ^ l) ≠ 1 := by
  intro fuel
  induction fuel with
  | zero =>
    intro t i k hk h
    have hk0 : k = 0 := by omega
    subst hk0
    exact ⟨0, by simp [orderLoop], le_rfl, h, fun l hl => absurd hl (by omega)⟩
  | succ fuel ih =>
    intro t i k hk h
    unfold orderLoop
    by_cases h1 : t % (p : Int) = 1 % (p : Int)
    · rw [if_pos h1]
      refine ⟨0, rfl, Nat.zero_le _, ?_, fun l hl => absurd hl (by omega)⟩
      simpa using (emod_eq_one_iff p t).mp h1
    · rw [if_neg h1]
      have hne : ((t : Int) : ZMod p) ≠ 1 := fun e => h1 ((emod_eq_one_iff p t).mpr e)
      have hk1 : k ≠ 0 := by
        intro e
        subst e
        exact hne (by simpa using h)
      obtain ⟨k', rfl⟩ := Nat.exists_eq_succ_of_ne_zero hk1
      have hsq : ∀ n : Nat, (((t * t) % (p : Int) : Int) : ZMod p) ^ (2 ^ n)
          = ((t : Int) : ZMod p) ^ (2 ^ (n + 1)) := by
        intro n
        rw [ZMod.intCast_mod, Int.cast_mul, ← pow_two, ← pow_mul, pow_succ']
      obtain ⟨j, e1, e2, e3, e4⟩ := ih ((t * t) % (p : Int)) (i + 1) k' (by omega)
        (by rw [hsq]; exact h)
      refine ⟨j + 1, by rw [e1]; ring, by omega, by rw [← hsq]; exact e3, ?_⟩
      intro l hl
      cases l with
      | zero => simpa using hne
      | succ l =>
        rw [← hsq]
        exact e4 l (by omega)

/-- Invariant of the Tonelli-Shanks loop: from a state with `r^2 = a * t`,
`c^(2^(m-1)) = -1` and `t^(2^(m-1)) = 1` in `ZMod p`, and fuel at least `m ≥ 1`,
the loop returns a square root of `a`. -/
theorem tonelliLoop_spec (p : Nat) [Fact (Nat.Prime p)] (a : Int) :
    ∀ (fuel m : Nat) (c t r : Int), 1 ≤ m → m ≤ fuel →
      ((r : Int) : ZMod p) ^ 2 = ((a : Int) : ZMod p) * ((t : Int) : ZMod p) →
      ((c : Int) : ZMod p) ^ (2 ^ (m - 1)) = -1 →
      ((t : Int) : ZMod p) ^ (2 ^ (m - 1)) = 1 →
      ∃ root : Int, tonelliLoop p fuel m c t r = Except.ok root ∧
        ((root : Int) : ZMod p) ^ 2 = ((a : Int) : ZMod p) := by
  intro fuel
  induction fuel with
  | zero => intro m c t r h1 h2; omega
  | succ fuel ih =>
    intro m c t r hm1 hm2 hR hC hT
    unfold tonelliLoop
    by_cases h1 : t % (p : Int) = 1 % (p : Int)
    · rw [if_pos h1]
      refine ⟨r, rfl, ?_⟩
      rw [hR, (emod_eq_one_iff p t).mp h1, mul_one]
    · rw [if_neg h1]
      have hne : ((t : Int) : ZMod p) ≠ 1 := fun e => h1 ((emod_eq_one_iff p t).mpr e)
      obtain ⟨j, e1, e2, e3, e4⟩ := orderLoop_spec p m t 0 (m - 1) (by omega) hT
      rw [Nat.zero_add] at e1
      have hj0 : j ≠ 0 := by
        intro e
        subst e
        exact hne (by simpa using e3)
      obtain ⟨j', rfl⟩ := Nat.exists_eq_succ_of_ne_zero hj0
      have hTj : ((t : Int) : ZMod p) ^ (2 ^ j') = -1 := by
        have hsq : ((t : Int) : ZMod p) ^ (2 ^ j') * ((t : Int) : ZMod p) ^ (2 ^ j') = 1 := by
          rw [← pow_add, ← two_mul, ← pow_succ']
          exact e3
        rcases mul_self_eq_one_iff.mp hsq with h | h
        · exact absurd h (e4 j' (by omega))
        · exact h
      simp only [e1]
      have hB : ((modexp c (2 ^ (m - (j' + 1) - 1)) p : Int) : ZMod p)
          = ((c : Int) : ZMod p) ^ (2 ^ (m - (j' + 1) - 1)) := modexp_cast _ _ _
      have hexp : 2 ^ (m - (j' + 1) - 1) * 2 * 2 ^ j' = 2 ^ (m - 1) := by
        rw [mul_assoc, ← pow_succ', ← pow_add]
        congr 1
        omega
      have hB2 : (((c : Int) : ZMod p) ^ (2 ^ (m - (j' + 1) - 1))) ^ (2 * 2 ^ j') = -1 := by
        rw [← pow_mul, ← mul_assoc, hexp]
        exact hC
      apply ih (j' + 1) _ _ _ (by omega) (by omega)
      · rw [ZMod.intCast_mod, ZMod.intCast_mod, Int.cast_mul, Int.cast_mul, Int.cast_mul, mul_pow,
          hR, hB]
        ring
      · rw [ZMod.intCast_mod, Int.cast_mul, hB, Nat.add_sub_cancel, ← pow_two, ← pow_mul]
        exact hB2
      · rw [ZMod.intCast_mod, Int.cast_mul, Int.cast_mul, hB, Nat.add_sub_cancel, mul_assoc,
          ← pow_two, mul_pow, hTj, ← pow_mul, hB2]
        norm_num

/-- For an odd prime `p` the search from 2 finds `z` with `z^((p-1)/2) = -1`. -/
theorem findNonresidue_pow (p : Nat) [Fact (Nat.Prime p)] (hp2 : p ≠ 2) :
    ((findNonresidue p p 2 : Int) : ZMod p) ^ ((p - 1) / 2) = -1 := by
  have hp : Nat.Prime p := Fact.out
  have hodd : p % 2 = 1 := hp.eq_two_or_odd.resolve_left hp2
  have hhalf : (p - 1) / 2 = p / 2 := by omega
  obtain ⟨x, hx⟩ := FiniteField.exists_nonsquare (F := ZMod p)
    (by rw [ZMod.ringChar_zmod_n]; exact hp2)
  have hx0 : x ≠ 0 := by
    rintro rfl
    exact hx isSquare_zero
  have hx1 : x ≠ 1 := by
    rintro rfl
    exact hx isSquare_one
  have hval : ((x.val : Int) : ZMod p) = x := by
    rw [Int.cast_natCast, ZMod.natCast_zmod_val]
  have hv0 : x.val ≠ 0 := fun e => hx0 ((ZMod.val_eq_zero x).mp e)
  have hv1 : x.val ≠ 1 := by
    intro e
    apply hx1
    have h := ZMod.natCast_zmod_val x
    rw [e, Nat.cast_one] at h
    exact h.symm
  have hvlt : x.val < p := ZMod.val_lt x
  have hw : is_square (x.val : Int) p = false := by
    rw [← Bool.not_eq_true, is_square_iff, hval, hhalf, ← ZMod.euler_criterion p hx0]
    exact hx
  obtain ⟨e1, e2, e3⟩ := findNonresidue_spec p p 2 (x.val : Int) (by omega) (by omega) hw
  have hz0 : ((findNonresidue p p 2 : Int) : ZMod p) ≠ 0 := by
    intro h0
    have hd := (ZMod.intCast_zmod_eq_zero_iff_dvd _ p).mp h0
    have hle := Int.le_of_dvd (by omega) hd
    omega
  rw [← Bool.not_eq_true, is_square_iff, hhalf] at e1
  rw [hhalf]
  exact (ZMod.pow_div_two_eq_neg_one_or_one p hz0).resolve_left e1

/-- C7: for every odd prime `p` and every `a` in `[0, p)`: if `is_square(a, p)`
is true then `sqrt(a, p)` returns `r` with `r^2 mod p = a`, on the
`p ≡ 3 (mod 4)` shortcut and on the general Tonelli-Shanks path alike; if
`is_square(a, p)` is false then `sqrt(a, p)` fails with `NotASquareError`. -/
theorem sqrt_correct (p : Nat) (hp : Nat.Prime p) (hp2 : p ≠ 2) (a : Int)
    (ha : 0 ≤ a ∧ a < (p : Int)) :
    (is_square a p = true → ∃ r : Int, sqrt a p = Except.ok r ∧ r ^ 2 % (p : Int) = a) ∧
      (is_square a p = false → sqrt a p = Except.error Error.NotASquareError) := by
  haveI : Fact (Nat.Prime p) := ⟨hp⟩
  have hodd : p % 2 = 1 := hp.eq_two_or_odd.resolve_left hp2
  constructor
  swap
  · intro h
    simp [sqrt, h]
  intro hsq
  have hA : ((a : Int) : ZMod p) ^ ((p - 1) / 2) = 1 := (is_square_iff a p).mp hsq
  have hfin : ∀ r : Int, ((r : Int) : ZMod p) ^ 2 = ((a : Int) : ZMod p) →
      r ^ 2 % (p : Int) = a := by
    intro r hr
    have h : (((r ^ 2 : Int)) : ZMod p) = ((a : Int) : ZMod p) := by
      rw [Int.cast_pow]
      exact hr
    have h2 := (ZMod.intCast_eq_intCast_iff _ _ _).mp h
    unfold Int.ModEq at h2
    rw [h2]
    exact Int.emod_eq_of_lt ha.1 ha.2
  unfold sqrt
  rw [if_neg (by simp [hsq])]
  by_cases h43 : p % 4 = 3
  · rw [if_pos h43]
    refine ⟨_, rfl, hfin _ ?_⟩
    rw [modexp_cast, ← pow_mul]
    have e : (p + 1) / 4 * 2 = (p - 1) / 2 + 1 := by omega
    rw [e, pow_succ, hA, one_mul]
  · rw [if_neg h43]
    dsimp only
    obtain ⟨s1, s2, s3⟩ := splitLoop_spec p (p - 1) 0 (by omega)
      (by have := hp.two_le; omega)
    rw [pow_zero, mul_one] at s1
    generalize (splitLoop p (p - 1) 0).1 = q at s1 s2 ⊢
    generalize (splitLoop p (p - 1) 0).2 = s at s1 s3 ⊢
    have hs : 1 ≤ s := by
      rcases Nat.eq_zero_or_pos s with h0 | h0
      · subst h0
        rw [pow_zero, mul_one] at s1
        omega
      · exact h0
    have hhalf : q * 2 ^ (s - 1) = (p - 1) / 2 := by
      have e : q * 2 ^ s = q * 2 ^ (s - 1) * 2 := by
        rw [mul_assoc, ← pow_succ]
        congr 2
        omega
      omega
    obtain ⟨root, e1, e2⟩ := tonelliLoop_spec p a (s + 1) s
      (modexp (findNonresidue p p 2) q p) (modexp a q p) (modexp a ((q + 1) / 2) p)
      hs (by omega)
      (by
        rw [modexp_cast, modexp_cast, ← pow_mul, ← pow_succ']
        congr 1
        omega)
      (by rw [modexp_cast, ← pow_mul, hhalf]; exact findNonresidue_pow p hp2)
      (by rw [modexp_cast, ← pow_mul, hhalf]; exact hA)
    exact ⟨root, e1, hfin root e2⟩

/-- Witness of C7: 13 is an odd prime with `13 ≡ 1 (mod 4)`, and 3 lies in
`[0, 13)`. -/
theorem sqrt_correct_witness :
    Nat.Prime 13 ∧ 13 ≠ 2 ∧ ((0 : Int) ≤ 3 ∧ (3 : Int) < ((13 : Nat) : Int)) ∧
    ((is_square 3 13 = true → ∃ r : Int, sqrt 3 13 = Except.ok r ∧
        r ^ 2 % ((13 : Nat) : Int) = 3) ∧
      (is_square 3 13 = false → sqrt 3 13 = Except.error Error.NotASquareError)) :=
  ⟨by norm_num, by decide, by decide, sqrt_correct 13 (by norm_num) (by decide) 3 (by decide)⟩

/-! ## The source addition and the group law -/

section GroupLaw

open WeierstrassCurve.Affine

/-- For an odd prime `p`, `modinv` is the field inverse of `ZMod p` (with the
field convention `0⁻¹ = 0`). -/
theorem modinv_cast (p : Nat) [Fact (Nat.Prime p)] (hp2 : p ≠ 2) (z : Int) :
    ((modinv z p : Int) : ZMod p) = (((z : Int) : ZMod p))⁻¹ := by
  have hp : Nat.Prime p := Fact.out
  have h2 : 2 ≤ p := hp.two_le
  unfold modinv
  rw [modexp_cast]
  by_cases hz : ((z : Int) : ZMod p) = 0
  · rw [hz, inv_zero, zero_pow (by omega)]
  · apply eq_inv_of_mul_eq_one_left
    rw [← pow_succ]
    have e : p - 2 + 1 = p - 1 := by omega
    rw [e]
    exact ZMod.pow_card_sub_one_eq_one hz

/-- Reduced integer read back from `ZMod p`. -/
theorem val_cast_emod (p : Nat) [NeZero p] (z : Int) :
    (((z : Int) : ZMod p).val : Int) = z % (p : Int) := ZMod.val_intCast z

/-- A reduced integer and its class in `ZMod p`. -/
theorem cast_val_int (p : Nat) [NeZero p] (x : ZMod p) :
    (((x.val : Nat) : Int) : ZMod p) = x := by
  rw [Int.cast_natCast, ZMod.natCast_zmod_val]

/-- Two affine points of the curve over `ZMod p` that are opposite to each other:
the source addition returns the identity. -/
theorem add_of_opposite (E : Curve) [Fact (Nat.Prime E.p)] (x1 y1 x2 y2 : ZMod E.p)
    (hx : x1 = x2) (hy : y1 = E.toW.negY x2 y2) :
    add E (Point.Affine (x1.val : Int) (y1.val : Int))
      (Point.Affine (x2.val : Int) (y2.val : Int)) = Point.Identity := by
  have hp : Nat.Prime E.p := Fact.out
  haveI : NeZero E.p := ⟨hp.ne_zero⟩
  have hy2lt : y2.val < E.p := ZMod.val_lt y2
  have hneg : y1 = -y2 := by simpa [Curve.toW] using hy
  have hval : (y1.val : Int) = ((E.p : Int) - (y2.val : Int)) % (E.p : Int) := by
    rw [hneg, ZMod.neg_val']
    push_cast [Nat.cast_sub hy2lt.le]
    rfl
  simp only [add, invert]
  rw [if_neg (by simp), if_neg (by simp), if_pos (by rw [hx, hval])]

/-- Two affine points satisfying the equation of the curve over `ZMod p` that
are not opposite to each other: the source addition returns the point given by
the chord-or-tangent formulas of the group law. -/
theorem add_of_generic (E : Curve) [Fact (Nat.Prime E.p)] (hp2 : E.p ≠ 2)
    {x1 y1 x2 y2 : ZMod E.p} (h1 : E.toW.Equation x1 y1) (h2 : E.toW.Equation x2 y2)
    (hA : ¬ (x1 = x2 ∧ y1 = E.toW.negY x2 y2)) :
    add E (Point.Affine (x1.val : Int) (y1.val : Int))
      (Point.Affine (x2.val : Int) (y2.val : Int))
      = Point.Affine ((E.toW.addX x1 x2 (E.toW.slope x1 x2 y1 y2)).val : Int)
          ((E.toW.addY x1 x2 y1 (E.toW.slope x1 x2 y1 y2)).val : Int) := by
  have hp : Nat.Prime E.p := Fact.out
  haveI : NeZero E.p := ⟨hp.ne_zero⟩
  have hvx : ((x1.val : Int) = (x2.val : Int)) ↔ x1 = x2 := by
    rw [Int.natCast_inj]
    exact (ZMod.val_injective E.p).eq_iff
  have hguard : ¬ (Point.Affine (x1.val : Int) (y1.val : Int)
      = invert E (Point.Affine (x2.val : Int) (y2.val : Int))) := by
    simp only [invert, Point.Affine.injEq, not_and]
    intro hx hy
    apply hA
    refine ⟨hvx.mp hx, ?_⟩
    have hc := congrArg (fun z : Int => ((z : Int) : ZMod E.p)) hy
    simp only [cast_val_int, ZMod.intCast_mod, Int.cast_sub, Int.cast_natCast,
      ZMod.natCast_self, zero_sub, ZMod.natCast_zmod_val] at hc
    simpa [Curve.toW] using hc
  simp only [add]
  rw [if_neg (by simp), if_neg (by simp), if_neg hguard]
  -- the slope
  have hslope : (((if Point.Affine (x1.val : Int) (y1.val : Int)
        = Point.Affine (x2.val : Int) (y2.val : Int) then
        ((3 * (x1.val : Int) ^ 2 + E.a) * modinv (2 * (y1.val : Int)) E.p) % (E.p : Int)
      else (((y2.val : Int) - (y1.val : Int))
        * modinv ((x2.val : Int) - (x1.val : Int)) E.p) % (E.p : Int) : Int)) : ZMod E.p)
      = E.toW.slope x1 x2 y1 y2 := by
    by_cases hx : x1 = x2
    · have hy : y1 ≠ E.toW.negY x2 y2 := fun hy => hA ⟨hx, hy⟩
      have hyy : y1 = y2 := Y_eq_of_Y_ne h1 h2 hx hy
      rw [if_pos (by rw [hx, hyy]), slope_of_Y_ne hx hy, ZMod.intCast_mod]
      push_cast
      rw [modinv_cast E.p hp2]
      push_cast
      simp only [cast_val_int, ZMod.natCast_zmod_val, Curve.toW, negY]
      rw [div_eq_mul_inv]
      congr 2
      · ring
      · ring
    · rw [if_neg (by simp only [Point.Affine.injEq, not_and]; intro hx'; exact absurd (hvx.mp hx') hx),
        slope_of_X_ne hx, ZMod.intCast_mod]
      push_cast
      rw [modinv_cast E.p hp2]
      push_cast
      simp only [ZMod.natCast_zmod_val]
      rw [div_eq_mul_inv, ← neg_sub y2 y1, ← neg_sub x2 x1, inv_neg, neg_mul_neg]
  generalize (if Point.Affine (x1.val : Int) (y1.val : Int)
        = Point.Affine (x2.val : Int) (y2.val : Int) then
        ((3 * (x1.val : Int) ^ 2 + E.a) * modinv (2 * (y1.val : Int)) E.p) % (E.p : Int)
      else (((y2.val : Int) - (y1.val : Int))
        * modinv ((x2.val : Int) - (x1.val : Int)) E.p) % (E.p : Int) : Int) = m at hslope ⊢
  have hX : ((((m ^ 2 - (x1.val : Int) - (x2.val : Int)) : Int)) : ZMod E.p)
      = E.toW.addX x1 x2 (E.toW.slope x1 x2 y1 y2) := by
    push_cast
    simp only [ZMod.natCast_zmod_val, hslope, Curve.toW, addX]
    ring
  congr 1
  · rw [← val_cast_emod, hX]
  · rw [← val_cast_emod]
    congr 2
    rw [Int.cast_sub, Int.cast_mul, Int.cast_sub, ZMod.intCast_mod, hX, hslope]
    push_cast
    simp only [ZMod.natCast_zmod_val, Curve.toW, addY, negAddY, negY, addX]
    ring

/-- The addition of the source is the group law of the curve over `ZMod p`. -/
theorem ofPoint_add (E : Curve) [Fact (Nat.Prime E.p)] (hp2 : E.p ≠ 2)
    (P Q : E.toW.Point) :
    ofPoint E (P + Q) = add E (ofPoint E P) (ofPoint E Q) := by
  rcases P with _ | @⟨x1, y1, h1⟩
  · change ofPoint E (0 + Q) = _
    rw [zero_add]
    simp [ofPoint, add]
  rcases Q with _ | @⟨x2, y2, h2⟩
  · change ofPoint E (Point.some h1 + 0) = _
    rw [add_zero]
    simp [ofPoint, add]
  by_cases hA : x1 = x2 ∧ y1 = E.toW.negY x2 y2
  · rw [Point.add_of_Y_eq hA.1 hA.2]
    exact (add_of_opposite E x1 y1 x2 y2 hA.1 hA.2).symm
  · rw [Point.add_of_imp (fun hx hy => hA ⟨hx, hy⟩)]
    exact (add_of_generic E hp2 h1.1 h2.1 hA).symm

/-- The generic `scale` over the curve group computes multiples in the group of
the curve over `ZMod p`. -/
theorem scale_eq_nsmul (E : Curve) [Fact (Nat.Prime E.p)] (hp2 : E.p ≠ 2)
    (Q : E.toW.Point) (k : Nat) :
    scale (curveGroup E) (ofPoint E Q) k = ofPoint E (k • Q) := by
  have h := scale_rel (curveGroup E)
    (fun (P : Point) (m : Multiplicative E.toW.Point) => P = ofPoint E (Multiplicative.toAdd m))
    (show Point.Identity = ofPoint E (0 : E.toW.Point) from rfl)
    (fun x y a b hx hy => by
      subst hx
      subst hy
      exact (ofPoint_add E hp2 _ _).symm)
    (ofPoint E Q) (Multiplicative.ofAdd Q) rfl k
  exact h

/-- Integer coordinates passing `on_curve`, with `2 * y` nonzero mod `p`, give a
nonsingular point of the curve over `ZMod p`. -/
theorem nonsingular_of_on_curve (E : Curve) (x y : Int) (h : on_curve E x y = true)
    (hy : (2 * y) % (E.p : Int) ≠ 0) :
    E.toW.Nonsingular ((x : Int) : ZMod E.p) ((y : Int) : ZMod E.p) := by
  rw [nonsingular_iff, equation_iff]
  simp only [Curve.toW, zero_mul, add_zero, mul_zero, sub_zero, zero_add]
  constructor
  · unfold on_curve at h
    rw [decide_eq_true_iff] at h
    have h2 := (ZMod.intCast_eq_intCast_iff _ _ _).mpr h
    push_cast at h2
    rw [h2]
  · right
    intro hneg
    apply hy
    have h2 : (((2 * y : Int)) : ZMod E.p) = 0 := by
      push_cast
      linear_combination hneg
    have hd := (ZMod.intCast_zmod_eq_zero_iff_dvd _ _).mp h2
    exact Int.emod_eq_zero_of_dvd hd

/-- A valid point with `2 * y` nonzero mod `p` is the image of a point of the
curve over `ZMod p`. -/
theorem exists_ofPoint (E : Curve) [Fact (Nat.Prime E.p)] (x y : Int)
    (hv : (Point.Affine x y).valid E) (hy : (2 * y) % (E.p : Int) ≠ 0) :
    ∃ Q : E.toW.Point, ofPoint E Q = Point.Affine x y := by
  have hp : Nat.Prime E.p := Fact.out
  haveI : NeZero E.p := ⟨hp.ne_zero⟩
  obtain ⟨hx0, hx1, hy0, hy1, hc⟩ := hv
  refine ⟨WeierstrassCurve.Affine.Point.some (nonsingular_of_on_curve E x y hc hy), ?_⟩
  simp only [ofPoint]
  rw [val_cast_emod, val_cast_emod, Int.emod_eq_of_lt hx0 hx1, Int.emod_eq_of_lt hy0 hy1]

/-- Only the zero point is sent to the identity. -/
theorem ofPoint_eq_identity (E : Curve) (Q : E.toW.Point) (h : ofPoint E Q = Point.Identity) :
    Q = 0 := by
  rcases Q with _ | _
  · rfl
  · simp [ofPoint] at h

/-- The base point of the specified curve generates a subgroup of order
`n59` of the curve over `ZMod p`: it is the image of a point `Q` with
`n59 • Q = 0`. -/
theorem exists_base_point [Fact (Nat.Prime E59.p)] :
    ∃ Q : E59.toW.Point, ofPoint E59 Q = G59 ∧ n59 • Q = 0 := by
  obtain ⟨Q, hQ⟩ := exists_ofPoint E59 182 85518893674295321206118380980485522083
    (by decide!) (by decide!)
  refine ⟨Q, hQ, ?_⟩
  apply ofPoint_eq_identity
  rw [← scale_eq_nsmul E59 (by decide!) Q n59, hQ]
  decide!

/-- C5: Diffie-Hellman agreement on the specified curve. For all secrets `sa`,
`sb` in `[1, order)` with public keys `A = scale(G, sa)` and `B = scale(G, sb)`,
`compute_secret(B, sa) = compute_secret(A, sb)`. -/
theorem dh_agreement (sa sb : Nat) (_ha : 1 ≤ sa ∧ sa < n59) (_hb : 1 ≤ sb ∧ sb < n59) :
    compute_secret (curveGroup E59) (scale (curveGroup E59) G59 sb) sa
      = compute_secret (curveGroup E59) (scale (curveGroup E59) G59 sa) sb := by
  haveI : Fact (Nat.Prime E59.p) := ⟨prime_233970423115425145524320034830162017933⟩
  have hp2 : E59.p ≠ 2 := by decide!
  obtain ⟨Q, hQ, -⟩ := exists_base_point
  unfold compute_secret
  rw [← hQ, scale_eq_nsmul E59 hp2 Q sb, scale_eq_nsmul E59 hp2 Q sa,
    scale_eq_nsmul E59 hp2 _ sa, scale_eq_nsmul E59 hp2 _ sb, smul_comm]

/-- Witness of C5 at the secrets 2 and 3. -/
theorem dh_agreement_witness :
    (1 ≤ 2 ∧ 2 < n59) ∧ (1 ≤ 3 ∧ 3 < n59) ∧
    compute_secret (curveGroup E59) (scale (curveGroup E59) G59 3) 2
      = compute_secret (curveGroup E59) (scale (curveGroup E59) G59 2) 3 :=
  ⟨by decide!, by decide!, dh_agreement 2 3 (by decide!) (by decide!)⟩

/-! ## Correctness of the Montgomery ladder -/

/-- The equation of the curve in the shifted coordinate `u = x - s`, for a
curve with `a = 1 - 3 s^2` and `b = 2 s^3 - s`: `y^2 = u^3 + 3 s u^2 + u`. -/
theorem mont_equation (E : Curve) (s : ZMod E.p)
    (ha : ((E.a : Int) : ZMod E.p) = 1 - 3 * s ^ 2)
    (hb : ((E.b : Int) : ZMod E.p) = 2 * s ^ 3 - s)
    {x y : ZMod E.p} (h : E.toW.Equation x y) :
    y ^ 2 = (x - s) ^ 3 + 3 * s * (x - s) ^ 2 + (x - s) := by
  rw [equation_iff] at h
  simp only [Curve.toW, zero_mul, add_zero, mul_zero] at h
  linear_combination h + x * ha + hb

/-- In `ZMod p` with `p` an odd prime, `2` is nonzero. -/
theorem two_ne_zero_zmod (p : Nat) [Fact (Nat.Prime p)] (hp2 : p ≠ 2) : (2 : ZMod p) ≠ 0 := by
  have hp : Nat.Prime p := Fact.out
  intro h0
  have hd : p ∣ 2 := (ZMod.natCast_zmod_eq_zero_iff_dvd 2 p).mp (by exact_mod_cast h0)
  have hle := Nat.le_of_dvd (by norm_num) hd
  have := hp.two_le
  omega

/-- Doubling step of the ladder: from a representation of `P`, not of order
two, the formulas `((U^2 - W^2)^2, 4 U W (U^2 + A U W + W^2))` with `A = 3 s`
represent `P + P`. -/
theorem mont_double (E : Curve) [Fact (Nat.Prime E.p)] (hp2 : E.p ≠ 2) (s : ZMod E.p)
    (ha : ((E.a : Int) : ZMod E.p) = 1 - 3 * s ^ 2)
    (hb : ((E.b : Int) : ZMod E.p) = 2 * s ^ 3 - s)
    (P : E.toW.Point) (hP : P + P = 0 → P = 0) (U W : ZMod E.p) (h : MRep E s U W P) :
    MRep E s ((U ^ 2 - W ^ 2) ^ 2) (4 * U * W * (U ^ 2 + 3 * s * U * W + W ^ 2)) (P + P) := by
  have h2 := two_ne_zero_zmod E.p hp2
  rcases P with _ | @⟨x, y, h1⟩
  · obtain ⟨hW, hU⟩ := h
    change MRep E s _ _ (0 + 0)
    rw [zero_add]
    refine ⟨by rw [hW]; ring, ?_⟩
    rw [hW]
    simpa using hU
  · obtain ⟨hW, hU⟩ := h
    have hy : y ≠ E.toW.negY x y := by
      intro hy
      exact Point.some_ne_zero h1 (hP (Point.add_self_of_Y_eq hy))
    have hy0 : y ≠ 0 := by
      intro h0
      apply hy
      simp [Curve.toW, h0]
    rw [Point.add_self_of_Y_ne hy]
    have heq := mont_equation E s ha hb h1.1
    have hL : E.toW.slope x x y y * (2 * y) = 3 * x ^ 2 + ((E.a : Int) : ZMod E.p) := by
      rw [slope_of_Y_ne rfl hy]
      simp only [Curve.toW, negY, zero_mul, sub_zero, mul_zero, add_zero]
      have e : y - -y = 2 * y := by ring
      rw [e, div_mul_cancel₀ _ (mul_ne_zero h2 hy0)]
    have hW' : 4 * U * W * (U ^ 2 + 3 * s * U * W + W ^ 2) = 4 * W ^ 4 * y ^ 2 := by
      rw [hU, heq]
      ring
    show _ ≠ 0 ∧ _ = (E.toW.addX x x (E.toW.slope x x y y) - s) * _
    generalize E.toW.slope x x y y = L at hL
    refine ⟨?_, ?_⟩
    · rw [hW']
      have h4 : (4 : ZMod E.p) ≠ 0 := by
        have : (4 : ZMod E.p) = 2 * 2 := by norm_num
        rw [this]
        exact mul_ne_zero h2 h2
      exact mul_ne_zero (mul_ne_zero h4 (pow_ne_zero _ hW)) (pow_ne_zero _ hy0)
    · rw [hW']
      simp only [Curve.toW, addX, zero_mul, add_zero, sub_zero]
      rw [hU]
      have hL2 : L ^ 2 * (4 * y ^ 2) = (3 * x ^ 2 + ((E.a : Int) : ZMod E.p)) ^ 2 := by
        rw [← hL]
        ring
      rw [ha] at hL2
      linear_combination (-(W ^ 4)) * hL2 + (4 * W ^ 4 * (2 * x + s)) * heq

/-- Differential addition step of the ladder: from representations of `P` and
`Q` whose difference `Q - P` is an affine point with `u`-coordinate `ud ≠ 0`,
the formulas `((U2 U3 - W2 W3)^2, ud (U2 W3 - W2 U3)^2)` represent `P + Q`,
provided `Q` and `P + Q` are not zero. -/
theorem mont_diff_add (E : Curve) [Fact (Nat.Prime E.p)] (s : ZMod E.p)
    (ha : ((E.a : Int) : ZMod E.p) = 1 - 3 * s ^ 2)
    (hb : ((E.b : Int) : ZMod E.p) = 2 * s ^ 3 - s)
    (P Q : E.toW.Point) {xd yd : ZMod E.p} (hd : E.toW.Nonsingular xd yd)
    (hD : Q + -P = Point.some hd) (hud : xd - s ≠ 0) (hQ : Q ≠ 0) (hsum : P + Q ≠ 0)
    (U2 W2 U3 W3 : ZMod E.p) (h2 : MRep E s U2 W2 P) (h3 : MRep E s U3 W3 Q) :
    MRep E s ((U2 * U3 - W2 * W3) ^ 2) ((xd - s) * (U2 * W3 - W2 * U3) ^ 2) (P + Q) := by
  rcases Q with _ | @⟨x2, y2, hq⟩
  · exact absurd rfl hQ
  rcases P with _ | @⟨x1, y1, hp⟩
  · -- `P = 0`, so `Q` is the difference point
    obtain ⟨hW2, hU2⟩ := h2
    obtain ⟨hW3, hU3⟩ := h3
    change Point.some hq + -0 = Point.some hd at hD
    rw [neg_zero, add_zero] at hD
    have hx : x2 = xd := by
      injection hD
    change MRep E s _ _ (0 + Point.some hq)
    rw [zero_add]
    show _ ≠ 0 ∧ _ = (x2 - s) * _
    rw [hW2, hU3, hx]
    refine ⟨?_, by ring⟩
    rw [zero_mul, sub_zero]
    exact mul_ne_zero hud (pow_ne_zero _ (mul_ne_zero hU2 hW3))
  · obtain ⟨hW2, hU2⟩ := h2
    obtain ⟨hW3, hU3⟩ := h3
    have hx : x1 ≠ x2 := by
      intro hx
      rcases Y_eq_of_X_eq hp.1 hq.1 hx with hy | hy
      · subst hx
        subst hy
        rw [add_neg_cancel] at hD
        exact Point.some_ne_zero hd hD.symm
      · exact hsum (Point.add_of_Y_eq hx hy)
    have hne : x1 - x2 ≠ 0 := sub_ne_zero.mpr hx
    have hne' : x2 - x1 ≠ 0 := sub_ne_zero.mpr (Ne.symm hx)
    -- the difference point
    rw [Point.neg_some, Point.add_of_X_ne (Ne.symm hx)] at hD
    have hxd : xd = E.toW.addX x2 x1 (E.toW.slope x2 x1 y2 (E.toW.negY x1 y1)) := by
      injection hD with e1 e2
      exact e1.symm
    rw [slope_of_X_ne (Ne.symm hx)] at hxd
    simp only [Curve.toW, addX, negY, zero_mul, add_zero, sub_zero, mul_zero] at hxd
    have hxd2 : (xd - s) * (x1 - x2) ^ 2
        = y1 ^ 2 + y2 ^ 2 - ((x1 - s) + (x2 - s) + 3 * s) * (x1 - x2) ^ 2 + 2 * (y1 * y2) := by
      rw [hxd]
      field_simp
      ring
    -- the sum
    rw [Point.add_of_X_ne hx]
    show _ ≠ 0 ∧ _ = (E.toW.addX x1 x2 (E.toW.slope x1 x2 y1 y2) - s) * _
    rw [slope_of_X_ne hx]
    simp only [Curve.toW, addX, zero_mul, add_zero, sub_zero]
    have hx3 : (((y1 - y2) / (x1 - x2)) ^ 2 - x1 - x2 - s) * (x1 - x2) ^ 2
        = y1 ^ 2 + y2 ^ 2 - ((x1 - s) + (x2 - s) + 3 * s) * (x1 - x2) ^ 2 - 2 * (y1 * y2) := by
      field_simp
      ring
    generalize ((y1 - y2) / (x1 - x2)) ^ 2 - x1 - x2 - s = u3 at hx3
    have hy1 := mont_equation E s ha hb hp.1
    have hy2 := mont_equation E s ha hb hq.1
    have hprod : (u3 * (x1 - x2) ^ 2) * ((xd - s) * (x1 - x2) ^ 2)
        = (((x1 - s) * (x2 - s) - 1) ^ 2) * (x1 - x2) ^ 2 := by
      rw [hx3, hxd2]
      have e : (y1 ^ 2 + y2 ^ 2 - ((x1 - s) + (x2 - s) + 3 * s) * (x1 - x2) ^ 2 - 2 * (y1 * y2))
          * (y1 ^ 2 + y2 ^ 2 - ((x1 - s) + (x2 - s) + 3 * s) * (x1 - x2) ^ 2 + 2 * (y1 * y2))
          = (y1 ^ 2 + y2 ^ 2 - ((x1 - s) + (x2 - s) + 3 * s) * (x1 - x2) ^ 2) ^ 2
            - 4 * y1 ^ 2 * y2 ^ 2 := by ring
      rw [e, hy1, hy2]
      ring
    have hkey : u3 * ((xd - s) * (x1 - x2) ^ 2) = ((x1 - s) * (x2 - s) - 1) ^ 2 := by
      have h4 : (u3 * ((xd - s) * (x1 - x2) ^ 2)) * (x1 - x2) ^ 2
          = (((x1 - s) * (x2 - s) - 1) ^ 2) * (x1 - x2) ^ 2 := by
        rw [← hprod]
        ring
      exact mul_right_cancel₀ (pow_ne_zero 2 hne) h4
    refine ⟨?_, ?_⟩
    · rw [hU2, hU3]
      have e : (x1 - s) * W2 * W3 - W2 * ((x2 - s) * W3) = (x1 - x2) * (W2 * W3) := by ring
      rw [e]
      exact mul_ne_zero hud (pow_ne_zero _ (mul_ne_zero hne (mul_ne_zero hW2 hW3)))
    · rw [hU2, hU3]
      linear_combination (-(W2 ^ 2 * W3 ^ 2)) * hkey

/-- A subgroup generated by a point `G` with `n • G = 0`, `n` an odd prime, has
no point of order two. -/
theorem no_two_torsion (E : Curve) [Fact (Nat.Prime E.p)] (G : E.toW.Point) (n : Nat)
    (hn : Nat.Prime n) (hn2 : n ≠ 2) (hG : n • G = 0) (j : Nat) :
    j • G + j • G = 0 → j • G = 0 := by
  intro h2
  have hnP : n • (j • G) = 0 := by
    rw [smul_comm, hG]
    exact nsmul_zero j
  have h2P : 2 • (j • G) = 0 := by rw [two_nsmul]; exact h2
  have hco : Nat.Coprime n 2 := (Nat.coprime_primes hn Nat.prime_two).mpr hn2
  have hd1 : addOrderOf (j • G) ∣ n := addOrderOf_dvd_of_nsmul_eq_zero hnP
  have hd2 : addOrderOf (j • G) ∣ 2 := addOrderOf_dvd_of_nsmul_eq_zero h2P
  have h1 : addOrderOf (j • G) = 1 := Nat.eq_one_of_dvd_coprimes hco hd1 hd2
  exact AddMonoid.addOrderOf_eq_one_iff.mp h1

/-- A nonzero point `G` with `n • G = 0`, `n` prime, has no vanishing multiple
`j • G` with `0 < j < n`. -/
theorem nsmul_ne_zero_of_lt (E : Curve) [Fact (Nat.Prime E.p)] (G : E.toW.Point) (n : Nat)
    (hn : Nat.Prime n) (hG : n • G = 0) (hG0 : G ≠ 0) (j : Nat) (hj0 : 0 < j) (hjn : j < n) :
    j • G ≠ 0 := by
  haveI : Fact (Nat.Prime n) := ⟨hn⟩
  have hord : addOrderOf G = n := addOrderOf_eq_prime hG hG0
  intro h0
  have hd : addOrderOf G ∣ j := addOrderOf_dvd_of_nsmul_eq_zero h0
  rw [hord] at hd
  have := Nat.le_of_dvd hj0 hd
  omega

/-- The ladder state after one iteration for the bit `0`, read in `ZMod p`. -/
theorem ladderStep_zero_cast (A B : Int) (p : Nat) (u : Int) (st : LadderState) :
    (((ladderStep ⟨A, B, p⟩ u 0 st).u2 : Int) : ZMod p)
        = ((st.u2 : ZMod p) ^ 2 - (st.w2 : ZMod p) ^ 2) ^ 2 ∧
    (((ladderStep ⟨A, B, p⟩ u 0 st).w2 : Int) : ZMod p)
        = 4 * st.u2 * st.w2 * ((st.u2 : ZMod p) ^ 2 + A * st.u2 * st.w2 + (st.w2 : ZMod p) ^ 2) ∧
    (((ladderStep ⟨A, B, p⟩ u 0 st).u3 : Int) : ZMod p)
        = ((st.u2 : ZMod p) * st.u3 - st.w2 * st.w3) ^ 2 ∧
    (((ladderStep ⟨A, B, p⟩ u 0 st).w3 : Int) : ZMod p)
        = u * ((st.u2 : ZMod p) * st.w3 - st.w2 * st.u3) ^ 2 := by
  simp only [ladderStep, cswap, if_neg (by decide : ¬ ((0 : Nat) = 1))]
  refine ⟨?_, ?_, ?_, ?_⟩ <;> rw [ZMod.intCast_mod] <;> push_cast <;> rfl

/-- The ladder state after one iteration for the bit `1`, read in `ZMod p`. -/
theorem ladderStep_one_cast (A B : Int) (p : Nat) (u : Int) (st : LadderState) :
    (((ladderStep ⟨A, B, p⟩ u 1 st).u3 : Int) : ZMod p)
        = ((st.u3 : ZMod p) ^ 2 - (st.w3 : ZMod p) ^ 2) ^ 2 ∧
    (((ladderStep ⟨A, B, p⟩ u 1 st).w3 : Int) : ZMod p)
        = 4 * st.u3 * st.w3 * ((st.u3 : ZMod p) ^ 2 + A * st.u3 * st.w3 + (st.w3 : ZMod p) ^ 2) ∧
    (((ladderStep ⟨A, B, p⟩ u 1 st).u2 : Int) : ZMod p)
        = ((st.u3 : ZMod p) * st.u2 - st.w3 * st.w2) ^ 2 ∧
    (((ladderStep ⟨A, B, p⟩ u 1 st).w2 : Int) : ZMod p)
        = u * ((st.u3 : ZMod p) * st.w2 - st.w3 * st.u2) ^ 2 := by
  simp only [ladderStep, cswap, if_pos]
  refine ⟨?_, ?_, ?_, ?_⟩ <;> rw [ZMod.intCast_mod] <;> push_cast <;> rfl

/-- One iteration of the ladder for the bit `b` moves the invariant from the
prefix `m` to the prefix `2 m + b`, as long as `2 m + b < n`. -/
theorem ladderStep_inv (E : Curve) [Fact (Nat.Prime E.p)] (hp2 : E.p ≠ 2) (s : ZMod E.p)
    (ha : ((E.a : Int) : ZMod E.p) = 1 - 3 * s ^ 2)
    (hb : ((E.b : Int) : ZMod E.p) = 2 * s ^ 3 - s)
    (A B : Int) (hA : ((A : Int) : ZMod E.p) = 3 * s)
    {xg yg : ZMod E.p} (hg : E.toW.Nonsingular xg yg) (u : Int)
    (hu : ((u : Int) : ZMod E.p) = xg - s) (hu0 : xg - s ≠ 0)
    (n : Nat) (hn : Nat.Prime n) (hn2 : n ≠ 2) (hnG : n • Point.some hg = 0)
    (m b : Nat) (hb01 : b = 0 ∨ b = 1) (hm : 2 * m + b < n) (st : LadderState)
    (hinv : LadderInv E s (Point.some hg) n m st) :
    LadderInv E s (Point.some hg) n (2 * m + b) (ladderStep ⟨A, B, E.p⟩ u b st) := by
  have hn2le : 2 ≤ n := hn.two_le
  have hm1 : m + 1 < n := by
    rcases hb01 with rfl | rfl <;> omega
  obtain ⟨h2, h3⟩ := hinv
  have h3 := h3 hm1
  have hG0 : Point.some hg ≠ 0 := Point.some_ne_zero hg
  have hdiff : (m + 1) • Point.some hg + -(m • Point.some hg) = Point.some hg := by
    rw [succ_nsmul]
    abel
  have hsum : m • Point.some hg + (m + 1) • Point.some hg = (2 * m + 1) • Point.some hg := by
    rw [← add_nsmul]
    congr 1
    omega
  have hQ : (m + 1) • Point.some hg ≠ 0 :=
    nsmul_ne_zero_of_lt E _ n hn hnG hG0 (m + 1) (by omega) hm1
  have hdadd : 2 * m + 1 < n →
      MRep E s ((st.u2 * st.u3 - st.w2 * st.w3 : ZMod E.p) ^ 2)
        ((xg - s) * ((st.u2 : ZMod E.p) * st.w3 - st.w2 * st.u3) ^ 2)
        ((2 * m + 1) • Point.some hg) := by
    intro hlt
    rw [← hsum]
    refine mont_diff_add E s ha hb _ _ hg hdiff hu0 hQ ?_ _ _ _ _ h2 h3
    rw [hsum]
    exact nsmul_ne_zero_of_lt E _ n hn hnG hG0 (2 * m + 1) (by omega) hlt
  rcases hb01 with rfl | rfl
  · obtain ⟨e1, e2, e3, e4⟩ := ladderStep_zero_cast A B E.p u st
    refine ⟨?_, ?_⟩
    · rw [e1, e2, hA]
      have hd := mont_double E hp2 s ha hb (m • Point.some hg)
        (no_two_torsion E _ n hn hn2 hnG m) _ _ h2
      rw [← add_nsmul] at hd
      have e : 2 * m + 0 = m + m := by omega
      rw [e]
      exact hd
    · intro hlt
      rw [e3, e4, hu]
      exact hdadd hlt
  · obtain ⟨e1, e2, e3, e4⟩ := ladderStep_one_cast A B E.p u st
    refine ⟨?_, ?_⟩
    · rw [e3, e4, hu]
      have h := hdadd hm
      have c1 : ((st.u3 : ZMod E.p) * st.u2 - st.w3 * st.w2) ^ 2
          = ((st.u2 : ZMod E.p) * st.u3 - st.w2 * st.w3) ^ 2 := by ring
      have c2 : ((st.u3 : ZMod E.p) * st.w2 - st.w3 * st.u2) ^ 2
          = ((st.u2 : ZMod E.p) * st.w3 - st.w2 * st.u3) ^ 2 := by ring
      rw [c1, c2]
      exact h
    · intro _
      rw [e1, e2, hA]
      have hd := mont_double E hp2 s ha hb ((m + 1) • Point.some hg)
        (no_two_torsion E _ n hn hn2 hnG (m + 1)) _ _ h3
      rw [← add_nsmul] at hd
      have e : 2 * m + 1 + 1 = m + 1 + (m + 1) := by omega
      rw [e]
      exact hd

/-- The ladder loop over the `j` low bits of `k < n` moves the invariant from
the prefix `k >>> j` to `k`. -/
theorem ladderLoop_inv (E : Curve) [Fact (Nat.Prime E.p)] (hp2 : E.p ≠ 2) (s : ZMod E.p)
    (ha : ((E.a : Int) : ZMod E.p) = 1 - 3 * s ^ 2)
    (hb : ((E.b : Int) : ZMod E.p) = 2 * s ^ 3 - s)
    (A B : Int) (hA : ((A : Int) : ZMod E.p) = 3 * s)
    {xg yg : ZMod E.p} (hg : E.toW.Nonsingular xg yg) (u : Int)
    (hu : ((u : Int) : ZMod E.p) = xg - s) (hu0 : xg - s ≠ 0)
    (n : Nat) (hn : Nat.Prime n) (hn2 : n ≠ 2) (hnG : n • Point.some hg = 0)
    (k : Nat) (hk : k < n) :
    ∀ (j : Nat) (st : LadderState), LadderInv E s (Point.some hg) n (k >>> j) st →
      LadderInv E s (Point.some hg) n k (ladderLoop ⟨A, B, E.p⟩ u k j st) := by
  intro j
  induction j with
  | zero =>
    intro st h
    simpa [ladderLoop] using h
  | succ j ih =>
    intro st h
    simp only [ladderLoop]
    apply ih
    have hbit : 1 &&& (k >>> j) = (k >>> j) % 2 := Nat.one_and_eq_mod_two _
    have hsplit : k >>> j = 2 * (k >>> (j + 1)) + (k >>> j) % 2 := by
      rw [Nat.shiftRight_succ]
      omega
    have hle : k >>> j ≤ k := by
      rw [Nat.shiftRight_eq_div_pow]
      exact Nat.div_le_self _ _
    rw [hbit]
    have hstep := ladderStep_inv E hp2 s ha hb A B hA hg u hu hu0 n hn hn2 hnG
      (k >>> (j + 1)) ((k >>> j) % 2) (by omega) (by omega) st h
    rw [← hsplit] at hstep
    exact hstep

/-- C4: on the specified curve, for every `k` in `[0, order)` the ladder output
`ladder(4, k)` is the Montgomery image of the Weierstrass result `scale(G, k)`:
if `scale(G, k) = (x, y)` then `ladder(4, k) = (x - 178) mod p`, the first
coordinate of `to_montgomery(x, y)`, and if `scale(G, k)` is the identity then
`ladder(4, k) = 0`. -/
theorem ladder_refines_scale (k : Nat) (hk : k < n59) :
    (∀ x y : Int, scale (curveGroup E59) G59 k = Point.Affine x y →
        ladder M60 4 k = (to_montgomery E59.p (x, y)).1) ∧
      (scale (curveGroup E59) G59 k = Point.Identity → ladder M60 4 k = 0) := by
  haveI : Fact (Nat.Prime E59.p) := ⟨prime_233970423115425145524320034830162017933⟩
  haveI : NeZero E59.p := ⟨prime_233970423115425145524320034830162017933.ne_zero⟩
  have hp2 : E59.p ≠ 2 := by decide!
  have h2 := two_ne_zero_zmod E59.p hp2
  obtain ⟨Q, hQ, hnQ⟩ := exists_base_point
  rcases Q with _ | @⟨xg, yg, hg⟩
  · exact absurd hQ (by simp [ofPoint, G59])
  have hxg : xg = ((182 : Int) : ZMod E59.p) := by
    have h := hQ
    simp only [ofPoint, G59, Point.Affine.injEq] at h
    rw [← cast_val_int E59.p xg, h.1]
  have ha : ((E59.a : Int) : ZMod E59.p) = 1 - 3 * (178 : ZMod E59.p) ^ 2 := by
    show (((-95051 : Int)) : ZMod E59.p) = _
    push_cast
    norm_num
  have hb : ((E59.b : Int) : ZMod E59.p) = 2 * (178 : ZMod E59.p) ^ 3 - 178 := by
    show (((11279326 : Int)) : ZMod E59.p) = _
    push_cast
    norm_num
  have hA : (((534 : Int)) : ZMod E59.p) = 3 * (178 : ZMod E59.p) := by
    push_cast
    norm_num
  have hu : (((4 : Int)) : ZMod E59.p) = xg - 178 := by
    rw [hxg]
    push_cast
    norm_num
  have hu0 : xg - (178 : ZMod E59.p) ≠ 0 := by
    rw [← hu]
    have : (((4 : Int)) : ZMod E59.p) = 2 * 2 := by push_cast; norm_num
    rw [this]
    exact mul_ne_zero h2 h2
  have hn := prime_29246302889428143187362802287225875743
  have hn2 : n59 ≠ 2 := by decide!
  -- the invariant at the start of the loop
  have hshift : k >>> bitlen E59.p = 0 := by
    have hb128 : bitlen E59.p = 128 := by decide!
    rw [hb128, Nat.shiftRight_eq_div_pow]
    apply Nat.div_eq_of_lt
    have : n59 < 2 ^ 128 := by decide!
    omega
  have hinit : LadderInv E59 178 (Point.some hg) n59 (k >>> bitlen E59.p) ⟨1, 0, 4, 1⟩ := by
    rw [hshift]
    constructor
    · rw [zero_nsmul]
      exact ⟨by simp, by simp⟩
    · intro _
      rw [zero_add, one_nsmul]
      refine ⟨by simp, ?_⟩
      show (((4 : Int)) : ZMod E59.p) = (xg - 178) * (((1 : Int)) : ZMod E59.p)
      rw [Int.cast_one, mul_one]
      exact hu
  have hfin := (ladderLoop_inv E59 hp2 178 ha hb 534 1 hA hg 4 hu hu0 n59 hn hn2 hnQ k hk
    (bitlen E59.p) ⟨1, 0, 4, 1⟩ hinit).1
  have hscale : scale (curveGroup E59) G59 k = ofPoint E59 (k • Point.some hg) := by
    rw [← hQ]
    exact scale_eq_nsmul E59 hp2 _ k
  have hladder : ladder M60 4 k
      = ((ladderLoop ⟨534, 1, E59.p⟩ 4 k (bitlen E59.p) ⟨1, 0, 4, 1⟩).u2
          * modinv (ladderLoop ⟨534, 1, E59.p⟩ 4 k (bitlen E59.p) ⟨1, 0, 4, 1⟩).w2 E59.p)
        % (E59.p : Int) := rfl
  generalize ladderLoop ⟨534, 1, E59.p⟩ 4 k (bitlen E59.p) ⟨1, 0, 4, 1⟩ = st at hfin hladder
  generalize k • Point.some hg = R at hfin hscale
  rcases R with _ | @⟨x', y', hr⟩
  · obtain ⟨hW, -⟩ := hfin
    refine ⟨fun x y hxy => ?_, fun _ => ?_⟩
    · rw [hscale] at hxy
      simp [ofPoint] at hxy
    · rw [hladder]
      apply Int.emod_eq_zero_of_dvd
      apply (ZMod.intCast_zmod_eq_zero_iff_dvd _ _).mp
      rw [Int.cast_mul, modinv_cast E59.p hp2, hW, inv_zero, mul_zero]
  · obtain ⟨hW, hU⟩ := hfin
    refine ⟨fun x y hxy => ?_, fun hid => ?_⟩
    · rw [hscale] at hxy
      simp only [ofPoint, Point.Affine.injEq] at hxy
      rw [hladder]
      show _ = (x - 178) % (E59.p : Int)
      apply (ZMod.intCast_eq_intCast_iff _ _ _).mp
      rw [Int.cast_mul, modinv_cast E59.p hp2, hU, ← hxy.1]
      push_cast
      rw [ZMod.natCast_zmod_val, mul_assoc, mul_inv_cancel₀ hW, mul_one]
    · rw [hscale] at hid
      simp [ofPoint] at hid

/-- Witness of C4 at `k = 2`. -/
theorem ladder_refines_scale_witness :
    2 < n59 ∧
    ((∀ x y : Int, scale (curveGroup E59) G59 2 = Point.Affine x y →
        ladder M60 4 2 = (to_montgomery E59.p (x, y)).1) ∧
      (scale (curveGroup E59) G59 2 = Point.Identity → ladder M60 4 2 = 0)) :=
  ⟨by decide!, ladder_refines_scale 2 (by decide!)⟩

/-! ## Failure of inversion, degenerate ladder output, and scale as a fold -/

/-- The loop of `modexp` returns a reduced residue as soon as one multiplication
happens or the accumulator is reduced. -/
theorem scaleLoop_mulGroup_reduced (p : Nat) (hp : 0 < p) (x : Int) :
    ∀ (fuel k : Nat) (r : Int), k ≤ fuel → (0 < k ∨ (0 ≤ r ∧ r < (p : Int))) →
      0 ≤ scaleLoop (mulGroup p) fuel r x k ∧ scaleLoop (mulGroup p) fuel r x k < (p : Int) := by
  have hp0 : (0 : Int) < (p : Int) := by exact_mod_cast hp
  intro fuel
  induction fuel generalizing x with
  | zero =>
    intro k r hk h
    have hk0 : k = 0 := Nat.le_zero.mp hk
    subst hk0
    rcases h with h | h
    · omega
    · simpa [scaleLoop] using h
  | succ fuel ih =>
    intro k r hk h
    unfold scaleLoop
    by_cases hpos : k > 0
    · rw [if_pos hpos]
      have hhalf : k >>> 1 = k / 2 := by simp [Nat.shiftRight_eq_div_pow]
      rw [hhalf]
      by_cases hodd : k % 2 = 1
      · rw [if_pos hodd]
        exact ih _ (k / 2) _ (by omega)
          (Or.inr ⟨Int.emod_nonneg _ hp0.ne', Int.emod_lt_of_pos _ hp0⟩)
      · rw [if_neg hodd]
        exact ih _ (k / 2) _ (by omega) (Or.inl (by omega))
    · rw [if_neg hpos]
      rcases h with h | h
      · omega
      · exact h

/-- For a positive exponent and a positive modulus `modexp` is reduced. -/
theorem modexp_reduced (x : Int) (k p : Nat) (hk : 0 < k) (hp : 0 < p) :
    0 ≤ modexp x k p ∧ modexp x k p < (p : Int) :=
  scaleLoop_mulGroup_reduced p hp x k k 1 le_rfl (Or.inl hk)

/-- The generic `scale` returns the identity for the scalar `0`. -/
theorem scale_zero {α : Type} (G : GroupOps α) (x : α) : scale G x 0 = G.identity := by
  simp [scale, scaleLoop]

/-- For a modulus `p > 1`, `modexp x k p` is `x^k mod p`. -/
theorem modexp_eq_pow_emod (x : Int) (k p : Nat) (hp : 1 < p) :
    modexp x k p = x ^ k % (p : Int) := by
  have hp1 : (1 : Int) < (p : Int) := by exact_mod_cast hp
  have hcong : modexp x k p % (p : Int) = x ^ k % (p : Int) := by
    apply (ZMod.intCast_eq_intCast_iff _ _ _).mp
    rw [modexp_cast, Int.cast_pow]
  rcases Nat.eq_zero_or_pos k with hk | hk
  · subst hk
    have h1 : modexp x 0 p = 1 := scale_zero (mulGroup p) x
    rw [h1, pow_zero, Int.emod_eq_of_lt (by norm_num) hp1]
  · obtain ⟨h0, h1⟩ := modexp_reduced x k p hk (by omega)
    rw [← hcong, Int.emod_eq_of_lt h0 h1]

/-- Bezout relation of the extended Euclidean loop, for every fuel. -/
theorem xgcdLoop_bezout (a b : Int) :
    ∀ (fuel : Nat) (r0 r1 s0 s1 t0 t1 : Int),
      r0 = s0 * a + t0 * b → r1 = s1 * a + t1 * b →
      (xgcdLoop fuel r0 r1 s0 s1 t0 t1).1 =
        (xgcdLoop fuel r0 r1 s0 s1 t0 t1).2.1 * a + (xgcdLoop fuel r0 r1 s0 s1 t0 t1).2.2 * b := by
  intro fuel
  induction fuel with
  | zero =>
    intro r0 r1 s0 s1 t0 t1 e0 _
    simpa [xgcdLoop] using e0
  | succ fuel ih =>
    intro r0 r1 s0 s1 t0 t1 e0 e1
    unfold xgcdLoop
    by_cases hz : r1 = 0
    · rw [if_pos hz]
      exact e0
    · rw [if_neg hz]
      exact ih _ _ _ _ _ _ e1 (by linear_combination e0 - (r0 / r1) * e1)

/-- C11, counterexample: `gcd(0, 7) ≠ 1`, yet the inversion by exponentiation of
the source returns the value `0` for `a = 0`, `p = 7`; it has no failure. -/
theorem modinv_zero_returns_value : Int.gcd 0 ((7 : Nat) : Int) ≠ 1 ∧ modinv 0 7 = 0 := by
  decide

/-- C11, amended: the inverse by the extended Euclidean algorithm fails with
`NoInverseError` for every modulus `p` and every `a` with `gcd(a, p) ≠ 1`; the
inversion by exponentiation `a^(p-2) mod p` has no failure, and for a modulus
`p > 2` and `a ≡ 0 (mod p)` it returns `0`. -/
theorem inverse_fails_modinv_returns_zero (p : Nat) (a : Int) :
    (Int.gcd a (p : Int) ≠ 1 → inverse a p = Except.error Error.NoInverseError) ∧
      (2 < p → a % (p : Int) = 0 → modinv a p = 0) := by
  constructor
  · intro hg
    have hb := xgcdLoop_bezout (a % (p : Int)) (p : Int) ((p : Int).natAbs + 1)
      (a % (p : Int)) (p : Int) 1 0 0 1 (by ring) (by ring)
    have hne : (xgcd (a % (p : Int)) (p : Int)).1 ≠ 1 := by
      intro h1
      apply hg
      apply Int.isCoprime_iff_gcd_eq_one.mp
      unfold xgcd at h1
      generalize xgcdLoop ((p : Int).natAbs + 1) (a % (p : Int)) (p : Int) 1 0 0 1 = res
        at hb h1
      rw [h1] at hb
      refine ⟨res.2.1, res.2.2 - res.2.1 * (a / (p : Int)), ?_⟩
      have hdm : a % (p : Int) = a - (p : Int) * (a / (p : Int)) := Int.emod_def a p
      linear_combination (-1) * hb - res.2.1 * hdm
    simp [inverse, hne]
  · intro hp ha
    obtain ⟨h0, h1⟩ := modexp_reduced a (p - 2) p (by omega) (by omega)
    have hc : ((modexp a (p - 2) p : Int) : ZMod p) = 0 := by
      rw [modexp_cast]
      have hz : ((a : Int) : ZMod p) = 0 :=
        (ZMod.intCast_zmod_eq_zero_iff_dvd a p).mpr (Int.dvd_of_emod_eq_zero ha)
      rw [hz, zero_pow (by omega)]
    have hd := (ZMod.intCast_zmod_eq_zero_iff_dvd _ p).mp hc
    unfold modinv
    have hm := Int.emod_eq_zero_of_dvd hd
    rw [Int.emod_eq_of_lt h0 h1] at hm
    exact hm

/-- Witness of C11 (amended) at `p = 7`, `a = 14`. -/
theorem inverse_fails_modinv_returns_zero_witness :
    Int.gcd 14 ((7 : Nat) : Int) ≠ 1 ∧ 2 < 7 ∧ (14 : Int) % ((7 : Nat) : Int) = 0 ∧
      inverse 14 7 = Except.error Error.NoInverseError ∧ modinv 14 7 = 0 :=
  ⟨by decide, by decide, by decide,
    (inverse_fails_modinv_returns_zero 7 14).1 (by decide),
    (inverse_fails_modinv_returns_zero 7 14).2 (by decide) (by decide)⟩

/-- C13: for every prime `p > 2` and all `u`, `k`, `A`: if the final `w2` of the
ladder loop is `0` mod `p`, then `ladder(u, k)` returns `0`; `ladder` is a total
function, so no error is raised. -/
theorem ladder_zero_of_w2_zero (M : MontCurve) (_hp : Nat.Prime M.p) (hp2 : 2 < M.p)
    (u : Int) (k : Nat)
    (hw : (ladderLoop M u k (bitlen M.p) ⟨1, 0, u, 1⟩).w2 % (M.p : Int) = 0) :
    ladder M u k = 0 := by
  unfold ladder
  dsimp only
  generalize ladderLoop M u k (bitlen M.p) ⟨1, 0, u, 1⟩ = st at hw ⊢
  apply Int.emod_eq_zero_of_dvd
  apply (ZMod.intCast_zmod_eq_zero_iff_dvd _ _).mp
  have hz : ((st.w2 : Int) : ZMod M.p) = 0 :=
    (ZMod.intCast_zmod_eq_zero_iff_dvd _ _).mpr (Int.dvd_of_emod_eq_zero hw)
  rw [Int.cast_mul, modexp_cast, hz, zero_pow (by omega), mul_zero]

/-- Witness of C13: on the specified Montgomery curve the input
`u = 76600469441198017145391791613091732004`, `k = 11` of challenge_4.c, line 160,
ends with `w2 = 0` mod `p`. -/
theorem ladder_zero_of_w2_zero_witness :
    Nat.Prime M60.p ∧ 2 < M60.p ∧
    (ladderLoop M60 76600469441198017145391791613091732004 11 (bitlen M60.p)
      ⟨1, 0, 76600469441198017145391791613091732004, 1⟩).w2 % (M60.p : Int) = 0 ∧
    ladder M60 76600469441198017145391791613091732004 11 = 0 :=
  ⟨prime_233970423115425145524320034830162017933, by decide!, by decide!,
    ladder_zero_of_w2_zero M60 prime_233970423115425145524320034830162017933 (by decide!)
      76600469441198017145391791613091732004 11 (by decide!)⟩

/-- In a lawful group the folds of an element of the carrier stay in the
carrier. -/
theorem kfold_mem {α : Type} {G : GroupOps α} {S : α → Prop} (hG : G.LawfulOn S)
    (x : α) (hx : S x) (i : Nat) : S (kfold G x i) := by
  induction i with
  | zero => exact hG.id_mem
  | succ i ih => exact hG.closed _ _ ih hx

/-- In a lawful group the fold of `i + j` copies is the combine of the folds of
`i` and of `j` copies. -/
theorem kfold_add {α : Type} {G : GroupOps α} {S : α → Prop} (hG : G.LawfulOn S)
    (x : α) (hx : S x) (i j : Nat) :
    kfold G x (i + j) = G.combine (kfold G x i) (kfold G x j) := by
  induction j with
  | zero =>
    simp only [Nat.add_zero, kfold]
    exact (hG.id_right _ (kfold_mem hG x hx i)).symm
  | succ j ih =>
    rw [← Nat.add_assoc]
    simp only [kfold]
    rw [ih, hG.assoc _ _ _ (kfold_mem hG x hx i) (kfold_mem hG x hx j) hx]

/-- C15: in every group whose combine is associative with the identity as
neutral element (on its carrier `S`), the generic `scale(x, k)` is the `k`-fold
combine of `x` with itself; in the multiplicative integers mod `p` (`p > 1`) it
is `x^k mod p`; and `scale(x, 0)` is the identity. -/
theorem scale_eq_kfold {α : Type} (G : GroupOps α) (S : α → Prop) (hG : G.LawfulOn S)
    (x : α) (hx : S x) (k p : Nat) (hp : 1 < p) (z : Int) :
    scale G x k = kfold G x k ∧ scale (mulGroup p) z k = z ^ k % (p : Int) ∧
      scale G x 0 = G.identity := by
  refine ⟨?_, modexp_eq_pow_emod z k p hp, scale_zero G x⟩
  have h := scale_rel G
    (fun (y : α) (m : Multiplicative Nat) => y = kfold G x (Multiplicative.toAdd m))
    (show G.identity = kfold G x 0 from rfl)
    (fun y w a b hy hw => by
      subst hy
      subst hw
      exact (kfold_add hG x hx _ _).symm)
    x (Multiplicative.ofAdd 1) (by simp only [toAdd_ofAdd, kfold]; exact (hG.id_left x hx).symm) k
  simpa using h

/-- Witness of C15 in the multiplicative integers mod 7 at `x = 3`, `k = 5`. -/
theorem scale_eq_kfold_witness :
    (mulGroup 7).LawfulOn (fun x : Int => 0 ≤ x ∧ x < ((7 : Nat) : Int)) ∧
    ((0 : Int) ≤ 3 ∧ (3 : Int) < ((7 : Nat) : Int)) ∧ 1 < 7 ∧
    (scale (mulGroup 7) 3 5 = kfold (mulGroup 7) 3 5 ∧
      scale (mulGroup 7) 3 5 = 3 ^ 5 % ((7 : Nat) : Int) ∧
      scale (mulGroup 7) 3 0 = (mulGroup 7).identity) :=
  ⟨mulGroup_lawful 7 (by norm_num), by decide, by decide,
    scale_eq_kfold (mulGroup 7) (fun x : Int => 0 ≤ x ∧ x < ((7 : Nat) : Int))
      (mulGroup_lawful 7 (by norm_num)) 3 (by decide) 5 7 (by decide) 3⟩

/-! ## The CRT combiner on sequences -/

/-- On nonnegative inputs the extended Euclidean algorithm returns `1` exactly
for coprime inputs. -/
theorem xgcd_eq_one_iff (a b : Int) (ha : 0 ≤ a) (hb : 0 ≤ b) :
    (xgcd a b).1 = 1 ↔ Int.gcd a b = 1 := by
  obtain ⟨d1, d2, d3, d4⟩ := xgcd_spec a b ha hb
  constructor
  · intro h1
    rw [h1] at d4
    exact Int.isCoprime_iff_gcd_eq_one.mp ⟨_, _, d4.symm⟩
  · intro hc
    have h := Int.dvd_gcd d1 d2
    rw [hc] at h
    exact Int.eq_one_of_dvd_one d3 (by simpa using h)

/-- Merging two constraints with nonnegative moduli succeeds with the product
modulus when the moduli are coprime and fails with `NonCoprimeModuliError`
otherwise. -/
theorem crt_merge_cases (c1 c2 : ResidueConstraint) (h1 : 0 ≤ c1.modulus)
    (h2 : 0 ≤ c2.modulus) :
    (Int.gcd c1.modulus c2.modulus = 1 →
      ∃ x : Int, crt_merge c1 c2 = Except.ok ⟨c1.modulus * c2.modulus, x⟩) ∧
    (Int.gcd c1.modulus c2.modulus ≠ 1 →
      crt_merge c1 c2 = Except.error Error.NonCoprimeModuliError) := by
  have hiff := xgcd_eq_one_iff c1.modulus c2.modulus h1 h2
  constructor
  · intro hc
    refine ⟨(c1.residue * (xgcd c1.modulus c2.modulus).2.2 * c2.modulus
      + c2.residue * (xgcd c1.modulus c2.modulus).2.1 * c1.modulus)
        % (c1.modulus * c2.modulus), ?_⟩
    simp [crt_merge, hiff.mpr hc]
  · intro hc
    have hne : (xgcd c1.modulus c2.modulus).1 ≠ 1 := fun h => hc (hiff.mp h)
    simp [crt_merge, hne]

/-- The fold of the combiner over constraints with nonnegative moduli: it
succeeds with the product of all moduli when the accumulated modulus is coprime
to every remaining modulus and the remaining moduli are pairwise coprime, and
fails with `NonCoprimeModuliError` otherwise. -/
theorem crt_fold_cases :
    ∀ (cs : List ResidueConstraint) (acc : ResidueConstraint), 0 ≤ acc.modulus →
      (∀ c ∈ cs, 0 ≤ c.modulus) →
      (((∀ c ∈ cs, Int.gcd acc.modulus c.modulus = 1) ∧
          cs.Pairwise (fun c d => Int.gcd c.modulus d.modulus = 1)) →
        ∃ x : Int, crt_fold acc cs
          = Except.ok ⟨acc.modulus * (cs.map (fun c => c.modulus)).prod, x⟩) ∧
      (¬ ((∀ c ∈ cs, Int.gcd acc.modulus c.modulus = 1) ∧
          cs.Pairwise (fun c d => Int.gcd c.modulus d.modulus = 1)) →
        crt_fold acc cs = Except.error Error.NonCoprimeModuliError) := by
  intro cs
  induction cs with
  | nil =>
    intro acc _ _
    constructor
    · intro _
      exact ⟨acc.residue, by simp [crt_fold]⟩
    · intro h
      exact absurd ⟨by simp, List.Pairwise.nil⟩ h
  | cons c cs ih =>
    intro acc hacc hpos
    have hc0 : 0 ≤ c.modulus := hpos c (List.mem_cons_self _ _)
    have hpos' : ∀ d ∈ cs, 0 ≤ d.modulus := fun d hd => hpos d (List.mem_cons_of_mem _ hd)
    obtain ⟨hok, herr⟩ := crt_merge_cases acc c hacc hc0
    have hmul : ∀ d : ResidueConstraint, Int.gcd (acc.modulus * c.modulus) d.modulus = 1 ↔
        (Int.gcd acc.modulus d.modulus = 1 ∧ Int.gcd c.modulus d.modulus = 1) := by
      intro d
      rw [← Int.isCoprime_iff_gcd_eq_one, ← Int.isCoprime_iff_gcd_eq_one,
        ← Int.isCoprime_iff_gcd_eq_one]
      exact IsCoprime.mul_left_iff
    by_cases hg : Int.gcd acc.modulus c.modulus = 1
    · obtain ⟨x, hx⟩ := hok hg
      have hfold : crt_fold acc (c :: cs) = crt_fold ⟨acc.modulus * c.modulus, x⟩ cs := by
        simp [crt_fold, hx]
      obtain ⟨ih1, ih2⟩ := ih ⟨acc.modulus * c.modulus, x⟩ (mul_nonneg hacc hc0) hpos'
      have hcond : ((∀ d ∈ c :: cs, Int.gcd acc.modulus d.modulus = 1) ∧
            (c :: cs).Pairwise (fun c d => Int.gcd c.modulus d.modulus = 1)) ↔
          ((∀ d ∈ cs, Int.gcd (acc.modulus * c.modulus) d.modulus = 1) ∧
            cs.Pairwise (fun c d => Int.gcd c.modulus d.modulus = 1)) := by
        rw [List.pairwise_cons, List.forall_mem_cons]
        constructor
        · rintro ⟨⟨-, ha⟩, hcd, hp⟩
          exact ⟨fun d hd => (hmul d).mpr ⟨ha d hd, hcd d hd⟩, hp⟩
        · rintro ⟨ha, hp⟩
          exact ⟨⟨hg, fun d hd => ((hmul d).mp (ha d hd)).1⟩,
            fun d hd => ((hmul d).mp (ha d hd)).2, hp⟩
      rw [hfold, hcond]
      constructor
      · intro h
        obtain ⟨y, hy⟩ := ih1 h
        refine ⟨y, ?_⟩
        rw [hy, List.map_cons, List.prod_cons, mul_assoc]
      · exact ih2
    · have hfold : crt_fold acc (c :: cs) = Except.error Error.NonCoprimeModuliError := by
        simp [crt_fold, herr hg]
      rw [hfold]
      constructor
      · intro h
        exact absurd (h.1 c (List.mem_cons_self _ _)) hg
      · intro _
        rfl

/-- C12: for every input sequence of constraints (moduli nonnegative) in which
two moduli, at positions `i < j`, have a common factor `d > 1`, the CRT combiner
fails with `NonCoprimeModuliError`; for every pairwise-coprime sequence it
succeeds and the combined modulus is the product of all the moduli. -/
theorem crt_combine_coprimality (cs : List ResidueConstraint)
    (hpos : ∀ c ∈ cs, 0 ≤ c.modulus) :
    ((∃ (i j : Fin cs.length) (d : Int), i < j ∧ 1 < d ∧ d ∣ (cs.get i).modulus ∧
        d ∣ (cs.get j).modulus) →
      crt_combine cs = Except.error Error.NonCoprimeModuliError) ∧
    (cs.Pairwise (fun c d => Int.gcd c.modulus d.modulus = 1) →
      ∃ x : Int, crt_combine cs = Except.ok ⟨(cs.map (fun c => c.modulus)).prod, x⟩) := by
  obtain ⟨h1, h2⟩ := crt_fold_cases cs ⟨1, 0⟩ (by norm_num) hpos
  have hone : ∀ c ∈ cs, Int.gcd (1 : Int) c.modulus = 1 := fun c _ => by simp
  constructor
  · rintro ⟨i, j, d, hij, hd, hdi, hdj⟩
    apply h2
    rintro ⟨-, hp⟩
    have hget := List.pairwise_iff_get.mp hp i j hij
    have hdvd : d ∣ ((Int.gcd (cs.get i).modulus (cs.get j).modulus : Nat) : Int) :=
      Int.dvd_gcd hdi hdj
    rw [hget] at hdvd
    have := Int.le_of_dvd (by norm_num) hdvd
    omega
  · intro hp
    obtain ⟨x, hx⟩ := h1 ⟨hone, hp⟩
    exact ⟨x, by simpa [crt_combine] using hx⟩

/-- Witness of C12: the moduli 3, 6 share the factor 3 and the combiner fails;
the moduli 3, 5, 7 are pairwise coprime and the combined modulus is 105. -/
theorem crt_combine_coprimality_witness :
    ((∀ c ∈ ([⟨3, 2⟩, ⟨6, 5⟩] : List ResidueConstraint), 0 ≤ c.modulus) ∧
      ((1 : Int) < 3 ∧ (3 : Int) ∣ 3 ∧ (3 : Int) ∣ 6) ∧
      crt_combine [⟨3, 2⟩, ⟨6, 5⟩] = Except.error Error.NonCoprimeModuliError) ∧
    ((∀ c ∈ ([⟨3, 2⟩, ⟨5, 3⟩, ⟨7, 2⟩] : List ResidueConstraint), 0 ≤ c.modulus) ∧
      ([⟨3, 2⟩, ⟨5, 3⟩, ⟨7, 2⟩] : List ResidueConstraint).Pairwise
        (fun c d => Int.gcd c.modulus d.modulus = 1) ∧
      ∃ x : Int, crt_combine [⟨3, 2⟩, ⟨5, 3⟩, ⟨7, 2⟩] = Except.ok ⟨105, x⟩) :=
  ⟨⟨by decide, by decide,
      (crt_combine_coprimality [⟨3, 2⟩, ⟨6, 5⟩] (by decide)).1
        ⟨⟨0, by decide⟩, ⟨1, by decide⟩, 3, by decide, by decide, by decide, by decide⟩⟩,
    ⟨by decide, by decide,
      (crt_combine_coprimality [⟨3, 2⟩, ⟨5, 3⟩, ⟨7, 2⟩] (by decide)).2 (by decide)⟩⟩

/-! ## Hamming distance, independence of b, and the tame invariant -/

/-- The halving loop counts the bit positions below `n` at which `x < 2^n` has
a one. -/
theorem popcountLoop_eq_countP :
    ∀ (n fuel x : Nat), x < 2 ^ n → x ≤ fuel →
      popcountLoop fuel x = (List.range n).countP (fun j => x.testBit j) := by
  intro n
  induction n with
  | zero =>
    intro fuel x hx _
    have hx0 : x = 0 := by simpa using hx
    subst hx0
    cases fuel <;> simp [popcountLoop]
  | succ n ih =>
    intro fuel x hx hf
    rw [List.range_succ_eq_map, List.countP_cons, List.countP_map]
    by_cases hx0 : x = 0
    · subst hx0
      cases fuel <;> simp [popcountLoop]
    · obtain ⟨f, rfl⟩ := Nat.exists_eq_succ_of_ne_zero (by omega : fuel ≠ 0)
      simp only [popcountLoop, if_neg hx0]
      rw [ih f (x / 2) (by rw [pow_succ] at hx; omega) (by omega)]
      have hfun : ((fun j => x.testBit j) ∘ Nat.succ) = fun j => (x / 2).testBit j := by
        funext j
        simp [Nat.testBit_succ]
      rw [hfun, Nat.testBit_zero, Nat.add_comm]
      congr 1
      rcases Nat.mod_two_eq_zero_or_one x with h | h <;> simp [h]

/-- C14: for every two byte strings of equal length, `hamming_distance` returns
the number of bit positions in which they differ: the number of pairs of a
byte index `i` and a bit index `j < 8` at which the bits of the two bytes
differ. For "this is a test" and "wokka wokka!!!" it returns 37. -/
theorem hamming_distance_counts_differing_bits (s t : List Nat)
    (_hlen : s.length = t.length) (hs : ∀ x ∈ s, x < 256) (ht : ∀ x ∈ t, x < 256) :
    hamming_distance s t s.length
        = ((List.range s.length).map (fun i =>
            (List.range 8).countP
              (fun j => (s.getD i 0).testBit j != (t.getD i 0).testBit j))).sum ∧
      hamming_distance (text_to_bytes "this is a test") (text_to_bytes "wokka wokka!!!") 14
        = 37 := by
  refine ⟨?_, by decide⟩
  have hget : ∀ (l : List Nat), (∀ x ∈ l, x < 256) → ∀ i, l.getD i 0 < 2 ^ 8 := by
    intro l hl i
    rcases Nat.lt_or_ge i l.length with h | h
    · rw [List.getD_eq_getElem l 0 h]
      exact hl _ (List.getElem_mem _)
    · rw [List.getD_eq_default l 0 h]
      norm_num
  unfold hamming_distance
  congr 1
  apply List.map_congr_left
  intro i _
  unfold popcount
  rw [popcountLoop_eq_countP 8 _ _ (Nat.xor_lt_two_pow (hget s hs i) (hget t ht i)) le_rfl]
  congr 1
  funext j
  rw [Nat.testBit_xor]

/-- Witness of C14 at the two texts of challenge_6.c. -/
theorem hamming_distance_counts_differing_bits_witness :
    (text_to_bytes "this is a test").length = (text_to_bytes "wokka wokka!!!").length ∧
    (∀ x ∈ text_to_bytes "this is a test", x < 256) ∧
    (∀ x ∈ text_to_bytes "wokka wokka!!!", x < 256) ∧
    hamming_distance (text_to_bytes "this is a test") (text_to_bytes "wokka wokka!!!")
        (text_to_bytes "this is a test").length
      = ((List.range (text_to_bytes "this is a test").length).map (fun i =>
          (List.range 8).countP
            (fun j => ((text_to_bytes "this is a test").getD i 0).testBit j
              != ((text_to_bytes "wokka wokka!!!").getD i 0).testBit j))).sum :=
  ⟨by decide, by decide, by decide,
    (hamming_distance_counts_differing_bits (text_to_bytes "this is a test")
      (text_to_bytes "wokka wokka!!!") (by decide) (by decide) (by decide)).1⟩

/-- C17: the result of `add` does not depend on the curve coefficient `b`, for
all inputs on or off either curve; the same holds for `scale`. -/
theorem add_independent_of_b (a : Int) (p : Nat) (b b' : Int) (P1 P2 : Point) (k : Nat) :
    add ⟨a, b, p⟩ P1 P2 = add ⟨a, b', p⟩ P1 P2 ∧
      scale (curveGroup ⟨a, b, p⟩) P1 k = scale (curveGroup ⟨a, b', p⟩) P1 k := by
  have hadd : add ⟨a, b, p⟩ = add ⟨a, b', p⟩ := by
    funext Q1 Q2
    cases Q1 <;> cases Q2 <;> rfl
  have hgrp : curveGroup ⟨a, b, p⟩ = curveGroup ⟨a, b', p⟩ := by
    unfold curveGroup
    rw [hadd]
  exact ⟨by rw [hadd], by rw [hgrp]⟩

/-- C20: tame-phase invariant. In a lawful group, for every element `g`, jump
function `f`, upper bound `b` and iteration count `N`, the state `(xT, yT)`
after the tame loop started at `(0, scale(g, b))` satisfies
`yT = scale(g, b + xT)`. -/
theorem tame_invariant {α : Type} (G : GroupOps α) (S : α → Prop) (hG : G.LawfulOn S)
    (g : α) (hg : S g) (f : α → Nat) (b N : Nat) :
    (tameLoop G g f N (0, scale G g b)).2
      = scale G g (b + (tameLoop G g f N (0, scale G g b)).1) :=
  tameLoop_inv hG g hg f b N (0, scale G g b) rfl

/-- Witness of C20 in the multiplicative integers mod 7 with `g = 3`,
`f(y) = 2^(y mod 2)`, `b = 5` and `N = 4`. -/
theorem tame_invariant_witness :
    (mulGroup 7).LawfulOn (fun x : Int => 0 ≤ x ∧ x < ((7 : Nat) : Int)) ∧
    ((0 : Int) ≤ 3 ∧ (3 : Int) < ((7 : Nat) : Int)) ∧
    (tameLoop (mulGroup 7) 3 (fun y => 2 ^ (y % 2).toNat) 4 (0, scale (mulGroup 7) 3 5)).2
      = scale (mulGroup 7) 3
          (5 + (tameLoop (mulGroup 7) 3 (fun y => 2 ^ (y % 2).toNat) 4
            (0, scale (mulGroup 7) 3 5)).1) :=
  ⟨mulGroup_lawful 7 (by norm_num), by decide,
    tame_invariant (mulGroup 7) (fun x : Int => 0 ≤ x ∧ x < ((7 : Nat) : Int))
      (mulGroup_lawful 7 (by norm_num)) 3 (by decide) (fun y => 2 ^ (y % 2).toNat) 5 4⟩

/-! ## Curve membership is preserved by the group law -/

open WeierstrassCurve.Affine

/-- Reduced integer coordinates passing `on_curve` satisfy the equation of the
curve over `ZMod p`. -/
theorem equation_of_on_curve (E : Curve) (x y : Int) (h : on_curve E x y = true) :
    E.toW.Equation ((x : Int) : ZMod E.p) ((y : Int) : ZMod E.p) := by
  rw [equation_iff]
  simp only [Curve.toW, zero_mul, add_zero, mul_zero, sub_zero, zero_add]
  unfold on_curve at h
  rw [decide_eq_true_iff] at h
  have h2 := (ZMod.intCast_eq_intCast_iff _ _ _).mpr h
  push_cast at h2
  rw [h2]

/-- A solution of the equation of the curve over `ZMod p`, read back as reduced
integers, is a valid point. -/
theorem valid_of_equation (E : Curve) [Fact (Nat.Prime E.p)] (x y : ZMod E.p)
    (h : E.toW.Equation x y) : (Point.Affine (x.val : Int) (y.val : Int)).valid E := by
  have hp : Nat.Prime E.p := Fact.out
  haveI : NeZero E.p := ⟨hp.ne_zero⟩
  refine ⟨Int.natCast_nonneg _, by exact_mod_cast ZMod.val_lt x, Int.natCast_nonneg _,
    by exact_mod_cast ZMod.val_lt y, ?_⟩
  rw [equation_iff] at h
  simp only [Curve.toW, zero_mul, add_zero, mul_zero, sub_zero, zero_add] at h
  unfold on_curve
  rw [decide_eq_true_iff]
  apply (ZMod.intCast_eq_intCast_iff _ _ _).mp
  push_cast
  rw [ZMod.natCast_zmod_val, ZMod.natCast_zmod_val]
  exact h

/-- The source addition maps valid points to valid points. -/
theorem add_valid (E : Curve) [Fact (Nat.Prime E.p)] (hp2 : E.p ≠ 2) (P1 P2 : Point)
    (h1 : P1.valid E) (h2 : P2.valid E) : (add E P1 P2).valid E := by
  have hp : Nat.Prime E.p := Fact.out
  haveI : NeZero E.p := ⟨hp.ne_zero⟩
  rcases P1 with _ | ⟨x1, y1⟩
  · simpa [add] using h2
  rcases P2 with _ | ⟨x2, y2⟩
  · simpa [add] using h1
  obtain ⟨hx10, hx11, hy10, hy11, hc1⟩ := h1
  obtain ⟨hx20, hx21, hy20, hy21, hc2⟩ := h2
  have e1 := equation_of_on_curve E x1 y1 hc1
  have e2 := equation_of_on_curve E x2 y2 hc2
  have rx1 : (((x1 : Int) : ZMod E.p).val : Int) = x1 := by
    rw [val_cast_emod, Int.emod_eq_of_lt hx10 hx11]
  have ry1 : (((y1 : Int) : ZMod E.p).val : Int) = y1 := by
    rw [val_cast_emod, Int.emod_eq_of_lt hy10 hy11]
  have rx2 : (((x2 : Int) : ZMod E.p).val : Int) = x2 := by
    rw [val_cast_emod, Int.emod_eq_of_lt hx20 hx21]
  have ry2 : (((y2 : Int) : ZMod E.p).val : Int) = y2 := by
    rw [val_cast_emod, Int.emod_eq_of_lt hy20 hy21]
  by_cases hA : ((x1 : Int) : ZMod E.p) = ((x2 : Int) : ZMod E.p) ∧
      ((y1 : Int) : ZMod E.p) = E.toW.negY ((x2 : Int) : ZMod E.p) ((y2 : Int) : ZMod E.p)
  · have h := add_of_opposite E _ _ _ _ hA.1 hA.2
    rw [rx1, ry1, rx2, ry2] at h
    rw [h]
    trivial
  · have h := add_of_generic E hp2 e1 e2 hA
    rw [rx1, ry1, rx2, ry2] at h
    rw [h]
    exact valid_of_equation E _ _ (equation_add e1 e2 (fun hx hy => hA ⟨hx, hy⟩))

/-- The source scalar multiplication maps valid points to valid points. -/
theorem scale_valid (E : Curve) [Fact (Nat.Prime E.p)] (hp2 : E.p ≠ 2) (P : Point)
    (h : P.valid E) (k : Nat) : (scale (curveGroup E) P k).valid E :=
  scale_rel (curveGroup E) (fun (Q : Point) (_ : Unit) => Q.valid E) trivial
    (fun Q1 Q2 _ _ h1 h2 => add_valid E hp2 Q1 Q2 h1 h2) P () h k

/-- The images of the points of the curve over `ZMod p` form a lawful group
under the source addition. -/
theorem curveGroup_lawful (E : Curve) [Fact (Nat.Prime E.p)] (hp2 : E.p ≠ 2) :
    (curveGroup E).LawfulOn (fun P => ∃ Q : E.toW.Point, ofPoint E Q = P) := by
  refine ⟨⟨0, rfl⟩, ?_, ?_, ?_, ?_⟩
  · rintro _ _ ⟨Q1, rfl⟩ ⟨Q2, rfl⟩
    exact ⟨Q1 + Q2, ofPoint_add E hp2 Q1 Q2⟩
  · rintro _ _ _ ⟨Q1, rfl⟩ ⟨Q2, rfl⟩ ⟨Q3, rfl⟩
    show add E (add E (ofPoint E Q1) (ofPoint E Q2)) (ofPoint E Q3)
      = add E (ofPoint E Q1) (add E (ofPoint E Q2) (ofPoint E Q3))
    rw [← ofPoint_add E hp2, ← ofPoint_add E hp2, ← ofPoint_add E hp2, ← ofPoint_add E hp2,
      add_assoc]
  · rintro _ ⟨Q, rfl⟩
    show add E (ofPoint E 0) (ofPoint E Q) = ofPoint E Q
    rw [← ofPoint_add E hp2, zero_add]
  · rintro _ ⟨Q, rfl⟩
    show add E (ofPoint E Q) (ofPoint E 0) = ofPoint E Q
    rw [← ofPoint_add E hp2, add_zero]

/-- C16: curve membership is preserved by the group law. For every prime
`p > 3`, every curve `(a, b, p)` and all points `P1`, `P2` that are the identity
or on the curve, `add(P1, P2)` is the identity or an affine point `(x3, y3)`
with `y3^2 = x3^3 + a*x3 + b` mod `p`; hence `scale(P1, k)` is the identity or
on the curve for every `k`. -/
theorem add_preserves_membership (E : Curve) (hp : Nat.Prime E.p) (hp3 : 3 < E.p)
    (P1 P2 : Point) (h1 : P1.valid E) (h2 : P2.valid E) (k : Nat) :
    (add E P1 P2 = Point.Identity ∨
        ∃ x3 y3 : Int, add E P1 P2 = Point.Affine x3 y3 ∧
          y3 ^ 2 % (E.p : Int) = (x3 ^ 3 + E.a * x3 + E.b) % (E.p : Int)) ∧
      (scale (curveGroup E) P1 k = Point.Identity ∨
        ∃ x3 y3 : Int, scale (curveGroup E) P1 k = Point.Affine x3 y3 ∧
          y3 ^ 2 % (E.p : Int) = (x3 ^ 3 + E.a * x3 + E.b) % (E.p : Int)) := by
  haveI : Fact (Nat.Prime E.p) := ⟨hp⟩
  have hp2 : E.p ≠ 2 := by omega
  have key : ∀ Q : Point, Q.valid E → Q = Point.Identity ∨
      ∃ x3 y3 : Int, Q = Point.Affine x3 y3 ∧
        y3 ^ 2 % (E.p : Int) = (x3 ^ 3 + E.a * x3 + E.b) % (E.p : Int) := by
    intro Q hQ
    rcases Q with _ | ⟨x, y⟩
    · exact Or.inl rfl
    · refine Or.inr ⟨x, y, rfl, ?_⟩
      have hc := hQ.2.2.2.2
      unfold on_curve at hc
      exact of_decide_eq_true hc
  exact ⟨key _ (add_valid E hp2 P1 P2 h1 h2), key _ (scale_valid E hp2 P1 h1 k)⟩

/-- Witness of C16 on the curve `y^2 = x^3 + x + 1` over GF(5) at the points
`(0, 1)` and `(2, 1)`, with `k = 3`. -/
theorem add_preserves_membership_witness :
    Nat.Prime 5 ∧ 3 < 5 ∧ (Point.Affine 0 1).valid ⟨1, 1, 5⟩ ∧
    (Point.Affine 2 1).valid ⟨1, 1, 5⟩ ∧
    ((add ⟨1, 1, 5⟩ (Point.Affine 0 1) (Point.Affine 2 1) = Point.Identity ∨
        ∃ x3 y3 : Int, add ⟨1, 1, 5⟩ (Point.Affine 0 1) (Point.Affine 2 1) = Point.Affine x3 y3 ∧
          y3 ^ 2 % ((5 : Nat) : Int) = (x3 ^ 3 + 1 * x3 + 1) % ((5 : Nat) : Int)) ∧
      (scale (curveGroup ⟨1, 1, 5⟩) (Point.Affine 0 1) 3 = Point.Identity ∨
        ∃ x3 y3 : Int, scale (curveGroup ⟨1, 1, 5⟩) (Point.Affine 0 1) 3 = Point.Affine x3 y3 ∧
          y3 ^ 2 % ((5 : Nat) : Int) = (x3 ^ 3 + 1 * x3 + 1) % ((5 : Nat) : Int))) :=
  ⟨by norm_num, by decide, by decide, by decide,
    add_preserves_membership ⟨1, 1, 5⟩ (by norm_num) (by decide) (Point.Affine 0 1)
      (Point.Affine 2 1) (by decide) (by decide) 3⟩

/-! ## Residue recovery of the confinement attack -/

/-- In a lawful group, `scale(x, k)` is the identity exactly when the `k`-th
power of `x` in the carrier monoid is one. -/
theorem scale_eq_identity_iff {α : Type} {G : GroupOps α} {S : α → Prop} (hG : G.LawfulOn S)
    (x : α) (hx : S x) (k : Nat) :
    scale G x k = G.identity ↔ hG.monoid.npow k ⟨x, hx⟩ = hG.monoid.one := by
  rw [scale_eq_npow hG x hx k]
  exact ⟨fun h => Subtype.ext h, fun h => congrArg Subtype.val h⟩

/-- An element of order exactly `q > 0` has order `q` in the carrier monoid. -/
theorem orderOf_of_has_order {α : Type} {G : GroupOps α} {S : α → Prop} (hG : G.LawfulOn S)
    (x : α) (hx : S x) (q : Nat) (hq : 0 < q) (ho : has_order G x q) :
    @orderOf _ hG.monoid ⟨x, hx⟩ = q := by
  letI : Monoid { x : α // S x } := hG.monoid
  rw [orderOf_eq_iff hq]
  refine ⟨(scale_eq_identity_iff hG x hx q).mp ho.1, ?_⟩
  intro m hm hm0 hpow
  exact ho.2 m hm hm0 ((scale_eq_identity_iff hG x hx m).mpr hpow)

/-- For an element of order exactly `q > 0`, `scale(x, s mod q) = scale(x, s)`. -/
theorem scale_mod_order {α : Type} {G : GroupOps α} {S : α → Prop} (hG : G.LawfulOn S)
    (x : α) (hx : S x) (q : Nat) (hq : 0 < q) (ho : has_order G x q) (s : Nat) :
    scale G x (s % q) = scale G x s := by
  letI : Monoid { x : α // S x } := hG.monoid
  rw [scale_eq_npow hG x hx, scale_eq_npow hG x hx]
  have h := pow_mod_orderOf (⟨x, hx⟩ : { x : α // S x }) s
  rw [orderOf_of_has_order hG x hx q hq ho] at h
  exact congrArg Subtype.val h

/-- For an element of order exactly `q > 0`, `scale(x, ·)` is injective on
`[0, q)`. -/
theorem scale_inj_of_has_order {α : Type} {G : GroupOps α} {S : α → Prop} (hG : G.LawfulOn S)
    (x : α) (hx : S x) (q : Nat) (hq : 0 < q) (ho : has_order G x q) (i j : Nat)
    (hi : i < q) (hj : j < q) (h : scale G x i = scale G x j) : i = j := by
  letI : Monoid { x : α // S x } := hG.monoid
  rw [scale_eq_npow hG x hx, scale_eq_npow hG x hx] at h
  have hinj := pow_injOn_Iio_orderOf (x := (⟨x, hx⟩ : { x : α // S x }))
  rw [orderOf_of_has_order hG x hx q hq ho] at hinj
  exact hinj hi hj (Subtype.ext h)

/-- The search loop returns the first matching candidate. -/
theorem bruteLoop_first {α : Type} [DecidableEq α] (G : GroupOps α) (h target : α) (t : Nat)
    (ht : scale G h t = target) :
    ∀ (fuel r : Nat), r ≤ t → t < r + fuel → (∀ j, r ≤ j → j < t → scale G h j ≠ target) →
      bruteLoop G h target fuel r = some t := by
  intro fuel
  induction fuel with
  | zero =>
    intro r h1 h2 _
    omega
  | succ fuel ih =>
    intro r h1 h2 hne
    unfold bruteLoop
    by_cases hr : r = t
    · subst hr
      rw [if_pos ht]
    · rw [if_neg (hne r le_rfl (by omega))]
      exact ih (r + 1) (by omega) (by omega) (fun j hj1 hj2 => hne j (by omega) hj2)

/-- C18: residue recovery of the confinement attack. In a lawful group, for
every element `h` of exact prime order `q` and every victim secret `s`, there is
exactly one `r` in `[0, q)` with `scale(h, r) = scale(h, s)`, and the
brute-force search returns it: `r = s mod q`. -/
theorem residue_recovery {α : Type} [DecidableEq α] (G : GroupOps α) (S : α → Prop)
    (hG : G.LawfulOn S) (h : α) (hh : S h) (q : Nat) (hq : Nat.Prime q)
    (ho : has_order G h q) (s : Nat) :
    (∃! r : Nat, r < q ∧ scale G h r = scale G h s) ∧
      brute_force G h (scale G h s) q = some (s % q) := by
  have hq0 : 0 < q := hq.pos
  have hmod : s % q < q := Nat.mod_lt s hq0
  have hs := scale_mod_order hG h hh q hq0 ho s
  constructor
  · refine ⟨s % q, ⟨hmod, hs⟩, ?_⟩
    rintro r ⟨hr, hrs⟩
    exact scale_inj_of_has_order hG h hh q hq0 ho r (s % q) hr hmod (hrs.trans hs.symm)
  · unfold brute_force
    apply bruteLoop_first G h (scale G h s) (s % q) hs q 0 (Nat.zero_le _) (by omega)
    intro j _ hj hjs
    have := scale_inj_of_has_order hG h hh q hq0 ho j (s % q) (by omega) hmod (hjs.trans hs.symm)
    omega

/-- Witness of C18 in the multiplicative integers mod 7 with `h = 2` of order
`3` and the secret `s = 5`. -/
theorem residue_recovery_witness :
    (mulGroup 7).LawfulOn (fun x : Int => 0 ≤ x ∧ x < ((7 : Nat) : Int)) ∧
    ((0 : Int) ≤ 2 ∧ (2 : Int) < ((7 : Nat) : Int)) ∧ Nat.Prime 3 ∧
    has_order (mulGroup 7) 2 3 ∧
    ((∃! r : Nat, r < 3 ∧ scale (mulGroup 7) 2 r = scale (mulGroup 7) 2 5) ∧
      brute_force (mulGroup 7) 2 (scale (mulGroup 7) 2 5) 3 = some (5 % 3)) :=
  ⟨mulGroup_lawful 7 (by norm_num), by decide, by norm_num, by decide,
    residue_recovery (mulGroup 7) (fun x : Int => 0 ≤ x ∧ x < ((7 : Nat) : Int))
      (mulGroup_lawful 7 (by norm_num)) 2 (by decide) 3 (by norm_num) (by decide) 5⟩

/-! ## Small-order element construction -/

/-- The nonzero residues mod a prime `p` with multiplication mod `p` are lawful. -/
theorem mulGroup_units_lawful (p : Nat) (hp : Nat.Prime p) :
    (mulGroup p).LawfulOn (fun x : Int => 0 < x ∧ x < (p : Int)) := by
  have hL := mulGroup_lawful p hp.one_lt
  have hp0 : (0 : Int) < (p : Int) := by exact_mod_cast hp.pos
  refine ⟨⟨hL.id_mem.1.lt_of_ne (by simp [mulGroup]), hL.id_mem.2⟩, ?_, ?_, ?_, ?_⟩
  · intro x y hx hy
    have hc := hL.closed x y ⟨hx.1.le, hx.2⟩ ⟨hy.1.le, hy.2⟩
    refine ⟨lt_of_le_of_ne hc.1 ?_, hc.2⟩
    intro h0
    have hd : (p : Int) ∣ x * y := Int.dvd_of_emod_eq_zero h0.symm
    rcases (Nat.prime_iff_prime_int.mp hp).dvd_or_dvd hd with h | h
    · have := Int.le_of_dvd hx.1 h
      omega
    · have := Int.le_of_dvd hy.1 h
      omega
  · intro x y z hx hy hz
    exact hL.assoc x y z ⟨hx.1.le, hx.2⟩ ⟨hy.1.le, hy.2⟩ ⟨hz.1.le, hz.2⟩
  · intro x hx
    exact hL.id_left x ⟨hx.1.le, hx.2⟩
  · intro x hx
    exact hL.id_right x ⟨hx.1.le, hx.2⟩

/-- Every nonzero residue mod a prime `p` has a two-sided inverse. -/
theorem mulGroup_units_inv (p : Nat) (hp : Nat.Prime p) (x : Int)
    (hx : 0 < x ∧ x < (p : Int)) :
    ∃ y : Int, (0 < y ∧ y < (p : Int)) ∧ (mulGroup p).combine x y = (mulGroup p).identity ∧
      (mulGroup p).combine y x = (mulGroup p).identity := by
  haveI : Fact (Nat.Prime p) := ⟨hp⟩
  haveI : NeZero p := ⟨hp.ne_zero⟩
  have hx0 : ((x : Int) : ZMod p) ≠ 0 := by
    intro h0
    have hd := (ZMod.intCast_zmod_eq_zero_iff_dvd _ _).mp h0
    have := Int.le_of_dvd hx.1 hd
    omega
  have hy0 : (((x : Int) : ZMod p))⁻¹ ≠ 0 := inv_ne_zero hx0
  have hval : 0 < ((((x : Int) : ZMod p))⁻¹).val := by
    rcases Nat.eq_zero_or_pos ((((x : Int) : ZMod p))⁻¹).val with h | h
    · exact absurd ((ZMod.val_eq_zero _).mp h) hy0
    · exact h
  have hmul : (x * (((((x : Int) : ZMod p))⁻¹).val : Int)) % (p : Int) = 1 := by
    have h1 : ((1 : Int) % (p : Int)) = 1 :=
      Int.emod_eq_of_lt (by norm_num) (by exact_mod_cast hp.one_lt)
    rw [← h1]
    apply (ZMod.intCast_eq_intCast_iff _ _ _).mp
    push_cast
    rw [ZMod.natCast_zmod_val, mul_inv_cancel₀ hx0]
  refine ⟨(((((x : Int) : ZMod p))⁻¹).val : Int),
    ⟨by exact_mod_cast hval, by exact_mod_cast ZMod.val_lt _⟩, ?_, ?_⟩
  · simpa [mulGroup] using hmul
  · simp only [mulGroup]
    rw [mul_comm]
    exact hmul

/-- There are `p - 1` nonzero residues mod `p`. -/
theorem card_units_range (p : Nat) : Nat.card { x : Int // 0 < x ∧ x < (p : Int) } = p - 1 := by
  show Nat.card (Set.Ioo (0 : Int) (p : Int)) = p - 1
  rw [Nat.card_eq_fintype_card, ← Set.toFinset_card, Set.toFinset_Ioo, Int.card_Ioo]
  omega

/-- In a lawful group with two-sided inverses and `n` elements, the `n`-th
multiple of every element is the identity. -/
theorem scale_card {α : Type} {G : GroupOps α} {S : α → Prop} (hG : G.LawfulOn S)
    (hinv : ∀ x, S x → ∃ y, S y ∧ G.combine x y = G.identity ∧ G.combine y x = G.identity)
    (n : Nat) (hcard : Nat.card { x : α // S x } = n) (x : α) (hx : S x) :
    scale G x n = G.identity := by
  letI : Monoid { x : α // S x } := hG.monoid
  have hu : ∀ a : { x : α // S x }, IsUnit a := by
    intro a
    obtain ⟨y, hy, h1, h2⟩ := hinv a.1 a.2
    exact ⟨⟨a, ⟨y, hy⟩, Subtype.ext h1, Subtype.ext h2⟩, rfl⟩
  letI : Group { x : α // S x } := groupOfIsUnit hu
  have h : (⟨x, hx⟩ : { x : α // S x }) ^ Nat.card { x : α // S x } = 1 := pow_card_eq_one'
  rw [hcard] at h
  rw [scale_eq_npow hG x hx n]
  exact congrArg Subtype.val h

/-- In a lawful group, `scale(scale(x, i), j) = scale(x, i * j)`. -/
theorem scale_scale {α : Type} {G : GroupOps α} {S : α → Prop} (hG : G.LawfulOn S)
    (x : α) (hx : S x) (i j : Nat) : scale G (scale G x i) j = scale G x (i * j) := by
  letI : Monoid { x : α // S x } := hG.monoid
  rw [scale_eq_npow hG (scale G x i) (scale_mem hG x hx i) j, scale_eq_npow hG x hx (i * j)]
  have h : (⟨scale G x i, scale_mem hG x hx i⟩ : { x : α // S x }) = ⟨x, hx⟩ ^ i :=
    Subtype.ext (scale_eq_npow hG x hx i)
  rw [h]
  exact congrArg Subtype.val (pow_mul (⟨x, hx⟩ : { x : α // S x }) i j).symm

/-- In a lawful group, an element other than the identity whose `q`-th multiple
is the identity, `q` prime, has order exactly `q`. -/
theorem has_order_of_prime {α : Type} {G : GroupOps α} {S : α → Prop} (hG : G.LawfulOn S)
    (x : α) (hx : S x) (q : Nat) (hq : Nat.Prime q) (h1 : scale G x q = G.identity)
    (hne : x ≠ G.identity) : has_order G x q := by
  letI : Monoid { x : α // S x } := hG.monoid
  haveI : Fact (Nat.Prime q) := ⟨hq⟩
  have ho : orderOf (⟨x, hx⟩ : { x : α // S x }) = q :=
    orderOf_eq_prime ((scale_eq_identity_iff hG x hx q).mp h1)
      (fun h => hne (congrArg Subtype.val h))
  refine ⟨h1, ?_⟩
  intro k hk hk0 hkid
  have hpow := (scale_eq_identity_iff hG x hx k).mp hkid
  have hd : orderOf (⟨x, hx⟩ : { x : α // S x }) ∣ k := orderOf_dvd_of_pow_eq_one hpow
  rw [ho] at hd
  have := Nat.le_of_dvd hk0 hd
  omega

/-- The retry loop only returns multiples `scale(h, n / q)` of candidates that
are not the identity. -/
theorem find_order_q_some {α : Type} [DecidableEq α] (G : GroupOps α) (n q : Nat) :
    ∀ (cs : List α) (e : α), find_order_q G n q cs = some e →
      ∃ c ∈ cs, e = scale G c (n / q) ∧ e ≠ G.identity := by
  intro cs
  induction cs with
  | nil =>
    intro e h
    simp [find_order_q] at h
  | cons c rest ih =>
    intro e h
    unfold find_order_q at h
    by_cases hc : scale G c (n / q) = G.identity
    · rw [if_pos hc] at h
      obtain ⟨d, hd, h1, h2⟩ := ih e h
      exact ⟨d, List.mem_cons_of_mem _ hd, h1, h2⟩
    · rw [if_neg hc] at h
      have he : scale G c (n / q) = e := Option.some.inj h
      exact ⟨c, List.mem_cons_self _ _, he.symm, by rw [← he]; exact hc⟩

/-- The retry loop returns as soon as a candidate survives. -/
theorem find_order_q_isSome {α : Type} [DecidableEq α] (G : GroupOps α) (n q : Nat) :
    ∀ (cs : List α), (∃ c ∈ cs, scale G c (n / q) ≠ G.identity) →
      ∃ e, find_order_q G n q cs = some e := by
  intro cs
  induction cs with
  | nil =>
    rintro ⟨c, hc, _⟩
    simp at hc
  | cons c rest ih =>
    rintro ⟨d, hd, hne⟩
    unfold find_order_q
    by_cases hc : scale G c (n / q) = G.identity
    · rw [if_pos hc]
      rcases List.mem_cons.mp hd with h | h
      · subst h
        exact absurd hc hne
      · exact ih ⟨d, h, hne⟩
    · rw [if_neg hc]
      exact ⟨_, rfl⟩

/-- C19: small-order element construction. In a finite group of order `n`
(a lawful group with two-sided inverses whose carrier has `n` elements), for
every prime `q` dividing `n` and every element `h`, `scale(h, n / q)` is either
the identity or an element of order exactly `q`; so whatever the retry loop
that rejects only the identity returns has order exactly `q`, and it returns
as soon as one of the drawn candidates is not rejected. -/
theorem small_order_construction {α : Type} [DecidableEq α] (G : GroupOps α) (S : α → Prop)
    (hG : G.LawfulOn S)
    (hinv : ∀ x, S x → ∃ y, S y ∧ G.combine x y = G.identity ∧ G.combine y x = G.identity)
    (n : Nat) (hcard : Nat.card { x : α // S x } = n) (q : Nat) (hq : Nat.Prime q)
    (hqn : q ∣ n) (h : α) (hh : S h) (cs : List α) (hcs : ∀ c ∈ cs, S c) :
    (scale G h (n / q) = G.identity ∨ has_order G (scale G h (n / q)) q) ∧
      (∀ e, find_order_q G n q cs = some e → has_order G e q) ∧
      ((∃ c ∈ cs, scale G c (n / q) ≠ G.identity) → ∃ e, find_order_q G n q cs = some e) := by
  have key : ∀ x, S x → scale G x (n / q) ≠ G.identity → has_order G (scale G x (n / q)) q := by
    intro x hx hne
    apply has_order_of_prime hG _ (scale_mem hG x hx _) q hq _ hne
    rw [scale_scale hG x hx, Nat.div_mul_cancel hqn]
    exact scale_card hG hinv n hcard x hx
  refine ⟨?_, ?_, find_order_q_isSome G n q cs⟩
  · by_cases hid : scale G h (n / q) = G.identity
    · exact Or.inl hid
    · exact Or.inr (key h hh hid)
  · intro e he
    obtain ⟨c, hc, h1, h2⟩ := find_order_q_some G n q cs e he
    subst h1
    exact key c (hcs c hc) h2

/-- Witness of C19 in the multiplicative group of the nonzero residues mod 7,
of order `n = 6`, with `q = 3`, `h = 3` and the candidates `6, 3`: the first
candidate lands on the identity and is rejected, the second gives `2`, of
order 3. -/
theorem small_order_construction_witness :
    (mulGroup 7).LawfulOn (fun x : Int => 0 < x ∧ x < ((7 : Nat) : Int)) ∧
    (∀ x : Int, (0 < x ∧ x < ((7 : Nat) : Int)) →
      ∃ y : Int, (0 < y ∧ y < ((7 : Nat) : Int)) ∧
        (mulGroup 7).combine x y = (mulGroup 7).identity ∧
        (mulGroup 7).combine y x = (mulGroup 7).identity) ∧
    Nat.card { x : Int // 0 < x ∧ x < ((7 : Nat) : Int) } = 6 ∧ Nat.Prime 3 ∧ 3 ∣ 6 ∧
    ((0 : Int) < 3 ∧ (3 : Int) < ((7 : Nat) : Int)) ∧
    (∀ c ∈ [(6 : Int), 3], 0 < c ∧ c < ((7 : Nat) : Int)) ∧
    find_order_q (mulGroup 7) 6 3 [6, 3] = some 2 ∧
    ((scale (mulGroup 7) 3 (6 / 3) = (mulGroup 7).identity ∨
        has_order (mulGroup 7) (scale (mulGroup 7) 3 (6 / 3)) 3) ∧
      (∀ e, find_order_q (mulGroup 7) 6 3 [6, 3] = some e → has_order (mulGroup 7) e 3) ∧
      ((∃ c ∈ [(6 : Int), 3], scale (mulGroup 7) c (6 / 3) ≠ (mulGroup 7).identity) →
        ∃ e, find_order_q (mulGroup 7) 6 3 [6, 3] = some e)) :=
  ⟨mulGroup_units_lawful 7 (by norm_num), mulGroup_units_inv 7 (by norm_num),
    card_units_range 7, by norm_num, by decide, by decide, by decide, by decide,
    small_order_construction (mulGroup 7) (fun x : Int => 0 < x ∧ x < ((7 : Nat) : Int))
      (mulGroup_units_lawful 7 (by norm_num)) (mulGroup_units_inv 7 (by norm_num)) 6
      (card_units_range 7) 3 (by norm_num) (by decide) 3 (by decide) [6, 3] (by decide)⟩

/-! ## The curve map, the base64 table and the twist point -/

/-- C21: the map `u = x - 178`, `v = y` carries the Weierstrass curve onto the
Montgomery curve. For `p = 233970423115425145524320034830162017933` and all
`x`, `y`: `y^2 = x^3 - 95051*x + 11279326` mod `p` if and only if
`v^2 = u^3 + 534*u^2 + u` mod `p`; the base point
`(182, 85518893674295321206118380980485522083)` lies on the Weierstrass curve
and maps to `u = 4`. -/
theorem weierstrass_iff_montgomery (x y : Int) :
    (on_curve E59 x y = true ↔
        on_mont M60 (to_montgomery E59.p (x, y)).1 (to_montgomery E59.p (x, y)).2 = true) ∧
      on_curve E59 182 85518893674295321206118380980485522083 = true ∧
      to_montgomery E59.p (182, 85518893674295321206118380980485522083)
        = (4, 85518893674295321206118380980485522083) := by
  refine ⟨?_, by decide!, by decide!⟩
  have key : (((x - 178) % (E59.p : Int)) ^ 3 + 534 * ((x - 178) % (E59.p : Int)) ^ 2
      + (x - 178) % (E59.p : Int)) % (E59.p : Int)
      = (x ^ 3 + (-95051) * x + 11279326) % (E59.p : Int) := by
    apply (ZMod.intCast_eq_intCast_iff _ _ _).mp
    push_cast
    ring
  unfold on_curve on_mont to_montgomery
  rw [decide_eq_true_iff, decide_eq_true_iff]
  show y ^ 2 % (E59.p : Int) = (x ^ 3 + (-95051) * x + 11279326) % (E59.p : Int) ↔
    (1 * y ^ 2) % (E59.p : Int) = (((x - 178) % (E59.p : Int)) ^ 3
      + 534 * ((x - 178) % (E59.p : Int)) ^ 2 + (x - 178) % (E59.p : Int)) % (E59.p : Int)
  rw [key, one_mul]

/-- C25: the table `indexbase` decodes the standard base64 alphabet: the
alphabet has 64 characters, for every `i` in `[0, 64)` the entry at the code
of the `i`-th character is `i`, and every one of the 256 entries lies in
`[0, 63]`. -/
theorem indexbase_decodes_alphabet :
    base64_alphabet.length = 64 ∧
      (∀ i : Fin 64, indexbase (base64_alphabet.getD i.val (Char.ofNat 0)).toNat = (i.val : Int)) ∧
      (∀ c : Fin 256, 0 ≤ indexbase c.val ∧ indexbase c.val ≤ 63) := by
  refine ⟨by decide, by decide!, by decide!⟩

/-- C26: for `u = 76600469441198017145391791613091732004`, `A = 534` and
`p = 233970423115425145524320034830162017933`, the value `u^3 + A*u^2 + u`
mod `p` is not a quadratic residue: `is_square` returns false, the value is
nonzero, so `u` lies on the quadratic twist, and no `v` makes `(u, v)` a point
of the Montgomery curve. -/
theorem twist_point_not_on_curve :
    is_square ((76600469441198017145391791613091732004 ^ 3
        + M60.A * 76600469441198017145391791613091732004 ^ 2
        + 76600469441198017145391791613091732004) % (M60.p : Int)) M60.p = false ∧
      (76600469441198017145391791613091732004 ^ 3
        + M60.A * 76600469441198017145391791613091732004 ^ 2
        + 76600469441198017145391791613091732004) % (M60.p : Int) ≠ 0 ∧
      ∀ v : Int, on_mont M60 76600469441198017145391791613091732004 v = false := by
  have hsq : is_square ((76600469441198017145391791613091732004 ^ 3
        + M60.A * 76600469441198017145391791613091732004 ^ 2
        + 76600469441198017145391791613091732004) % (M60.p : Int)) M60.p = false := by
    decide!
  have hne : (76600469441198017145391791613091732004 ^ 3
        + M60.A * 76600469441198017145391791613091732004 ^ 2
        + 76600469441198017145391791613091732004) % (M60.p : Int) ≠ 0 := by
    decide!
  refine ⟨hsq, hne, ?_⟩
  intro v
  rw [Bool.eq_false_iff]
  intro hon
  have hp : Nat.Prime M60.p := prime_233970423115425145524320034830162017933
  haveI : Fact (Nat.Prime M60.p) := ⟨hp⟩
  unfold on_mont at hon
  rw [decide_eq_true_iff] at hon
  have hcast := (ZMod.intCast_eq_intCast_iff _ _ _).mpr hon
  have hB : M60.B = 1 := rfl
  rw [hB, one_mul] at hcast
  have hmod : (((76600469441198017145391791613091732004 ^ 3
        + M60.A * 76600469441198017145391791613091732004 ^ 2
        + 76600469441198017145391791613091732004) % (M60.p : Int) : Int) : ZMod M60.p)
      = (((v ^ 2 : Int)) : ZMod M60.p) := by
    rw [ZMod.intCast_mod]
    exact hcast.symm
  have hv : ((v : Int) : ZMod M60.p) ≠ 0 := by
    intro h0
    apply hne
    have hz : (((76600469441198017145391791613091732004 ^ 3
        + M60.A * 76600469441198017145391791613091732004 ^ 2
        + 76600469441198017145391791613091732004) % (M60.p : Int) : Int) : ZMod M60.p) = 0 := by
      rw [hmod, Int.cast_pow, h0]
      exact zero_pow (by norm_num)
    have hd := (ZMod.intCast_zmod_eq_zero_iff_dvd _ _).mp hz
    rw [← Int.emod_emod_of_dvd _ (dvd_refl (M60.p : Int))]
    exact Int.emod_eq_zero_of_dvd hd
  have htrue : is_square ((76600469441198017145391791613091732004 ^ 3
        + M60.A * 76600469441198017145391791613091732004 ^ 2
        + 76600469441198017145391791613091732004) % (M60.p : Int)) M60.p = true := by
    rw [is_square_iff, hmod, Int.cast_pow, ← pow_mul]
    have he : 2 * ((M60.p - 1) / 2) = M60.p - 1 := by decide!
    rw [he]
    exact ZMod.pow_card_sub_one_eq_one hv
  rw [hsq] at htrue
  exact Bool.false_ne_true htrue

/-! ## Euler's criterion, totality of the addition, termination of the kangaroo -/

/-- Euler's criterion for reduced nonzero `a` and an odd prime `p`: `is_square`
is true exactly when `a` is the square of a reduced `y`. -/
theorem is_square_iff_exists (p : Nat) [Fact (Nat.Prime p)] (hp2 : p ≠ 2) (a : Int)
    (ha0 : 0 < a) (ha1 : a < (p : Int)) :
    is_square a p = true ↔ ∃ y : Int, 0 ≤ y ∧ y < (p : Int) ∧ y ^ 2 % (p : Int) = a := by
  have hp : Nat.Prime p := Fact.out
  haveI : NeZero p := ⟨hp.ne_zero⟩
  have hodd : p % 2 = 1 := hp.eq_two_or_odd.resolve_left hp2
  have hne : ((a : Int) : ZMod p) ≠ 0 := by
    intro h0
    have hd := (ZMod.intCast_zmod_eq_zero_iff_dvd _ _).mp h0
    have := Int.le_of_dvd ha0 hd
    omega
  have hexp : (p - 1) / 2 = p / 2 := by omega
  rw [is_square_iff, hexp, ← ZMod.euler_criterion p hne]
  constructor
  · rintro ⟨r, hr⟩
    refine ⟨(r.val : Int), Int.natCast_nonneg _, by exact_mod_cast ZMod.val_lt r, ?_⟩
    rw [← Int.emod_eq_of_lt ha0.le ha1]
    apply (ZMod.intCast_eq_intCast_iff _ _ _).mp
    push_cast
    rw [ZMod.natCast_zmod_val, hr]
    ring
  · rintro ⟨y, _, _, hy⟩
    refine ⟨((y : Int) : ZMod p), ?_⟩
    have h := congrArg (fun z : Int => ((z : Int) : ZMod p)) hy
    simp only [ZMod.intCast_mod] at h
    rw [← h]
    push_cast
    ring

/-- Euler's criterion rejects zero: `is_square(0, p)` is false for every prime
`p > 2`. -/
theorem is_square_zero (p : Nat) [Fact (Nat.Prime p)] (hp2 : p ≠ 2) : is_square 0 p = false := by
  have hp : Nat.Prime p := Fact.out
  rw [Bool.eq_false_iff]
  intro h
  rw [is_square_iff] at h
  have hpos : (p - 1) / 2 ≠ 0 := by
    have := hp.two_le
    omega
  rw [Int.cast_zero, zero_pow hpos] at h
  exact zero_ne_one h

/-- C22, counterexample: for the odd prime `p = 3` and `a = 0` in `[0, p)`,
`y = 0` has `y^2 ≡ a`, yet `is_square(0, 3)` is false. -/
theorem is_square_misses_zero :
    Nat.Prime 3 ∧
      ¬ (is_square 0 3 = true ↔
          ∃ y : Int, 0 ≤ y ∧ y < ((3 : Nat) : Int) ∧ y ^ 2 % ((3 : Nat) : Int) = 0) := by
  refine ⟨by norm_num, ?_⟩
  intro h
  have h1 : is_square 0 3 = true := h.mpr ⟨0, by decide, by decide, by decide⟩
  exact absurd h1 (by decide)

/-- C22, amended: for every odd prime `p` and every `a` in `[1, p)`,
`is_square(a, p)`, computed by Euler's criterion, is true exactly when some `y`
in GF(p) has `y^2 ≡ a` mod `p`; for `a = 0`, which is the square of `0`,
`is_square` returns false. -/
theorem is_square_iff_residue (p : Nat) (hp : Nat.Prime p) (hp2 : p ≠ 2) (a : Int)
    (ha : 1 ≤ a ∧ a < (p : Int)) :
    (is_square a p = true ↔
        ∃ y : Int, 0 ≤ y ∧ y < (p : Int) ∧ y ^ 2 % (p : Int) = a) ∧
      is_square 0 p = false := by
  haveI : Fact (Nat.Prime p) := ⟨hp⟩
  exact ⟨is_square_iff_exists p hp2 a (by omega) ha.2, is_square_zero p hp2⟩

/-- Witness of C22 at `p = 7`, `a = 2`. -/
theorem is_square_iff_residue_witness :
    Nat.Prime 7 ∧ 7 ≠ 2 ∧ ((1 : Int) ≤ 2 ∧ (2 : Int) < ((7 : Nat) : Int)) ∧
      ((is_square 2 7 = true ↔
          ∃ y : Int, 0 ≤ y ∧ y < ((7 : Nat) : Int) ∧ y ^ 2 % ((7 : Nat) : Int) = 2) ∧
        is_square 0 7 = false) :=
  ⟨by norm_num, by decide, by decide,
    is_square_iff_residue 7 (by norm_num) (by decide) 2 (by decide)⟩

/-- For a prime `p` and `d` not divisible by `p`, the extended Euclidean
`inverse` succeeds and returns the value of the inversion by exponentiation. -/
theorem inverse_eq_modinv (p : Nat) [Fact (Nat.Prime p)] (d : Int)
    (hd : d % (p : Int) ≠ 0) : inverse d p = Except.ok (modinv d p) := by
  have hp : Nat.Prime p := Fact.out
  haveI : NeZero p := ⟨hp.ne_zero⟩
  have hp0 : (0 : Int) < (p : Int) := by exact_mod_cast hp.pos
  have hne : ((d : Int) : ZMod p) ≠ 0 := by
    intro h0
    exact hd (Int.emod_eq_zero_of_dvd ((ZMod.intCast_zmod_eq_zero_iff_dvd _ _).mp h0))
  have hnd : ¬ (p : Int) ∣ d % (p : Int) := by
    intro h
    apply hd
    have := Int.emod_eq_zero_of_dvd h
    rwa [Int.emod_emod_of_dvd _ (dvd_refl _)] at this
  have hgcd : Int.gcd (d % (p : Int)) (p : Int) = 1 := by
    rw [Int.gcd_comm]
    apply Nat.Coprime.gcd_eq_one
    rw [Int.natAbs_ofNat]
    exact (Nat.Prime.coprime_iff_not_dvd hp).mpr (fun h => hnd (Int.natCast_dvd.mpr h))
  have hg1 := (xgcd_eq_one_iff (d % (p : Int)) (p : Int) (Int.emod_nonneg _ hp0.ne') hp0.le).mpr
    hgcd
  obtain ⟨_, _, _, d4⟩ := xgcd_spec (d % (p : Int)) (p : Int) (Int.emod_nonneg _ hp0.ne') hp0.le
  have hval : (xgcd (d % (p : Int)) (p : Int)).2.1 % (p : Int) = modinv d p := by
    have hred : 0 ≤ modinv d p ∧ modinv d p < (p : Int) := by
      unfold modinv
      rcases Nat.eq_zero_or_pos (p - 2) with h | h
      · rw [h]
        have h1 : modexp d 0 p = 1 := scale_zero (mulGroup p) d
        rw [h1]
        exact ⟨by norm_num, by exact_mod_cast hp.one_lt⟩
      · exact modexp_reduced d (p - 2) p h hp.pos
    rw [← Int.emod_eq_of_lt hred.1 hred.2]
    apply (ZMod.intCast_eq_intCast_iff _ _ _).mp
    have hs : (((xgcd (d % (p : Int)) (p : Int)).2.1 : Int) : ZMod p) * ((d : Int) : ZMod p) = 1 := by
      have h := congrArg (fun z : Int => ((z : Int) : ZMod p)) d4
      simp only [hg1] at h
      push_cast at h
      rw [ZMod.natCast_self, mul_zero, add_zero] at h
      exact h.symm
    have hm : ((modinv d p : Int) : ZMod p) * ((d : Int) : ZMod p) = 1 := by
      unfold modinv
      rw [modexp_cast, ← pow_succ]
      have e : p - 2 + 1 = p - 1 := by have := hp.two_le; omega
      rw [e]
      exact ZMod.pow_card_sub_one_eq_one hne
    rw [eq_inv_of_mul_eq_one_left hs, eq_inv_of_mul_eq_one_left hm]
  simp only [inverse, hg1, if_true, hval]

/-- For reduced `y` with `2*y ≡ 0` mod `p`, the opposite `(p - y) mod p` is `y`. -/
theorem neg_eq_self_of_two_mul (p : Nat) (y : Int) (hy0 : 0 ≤ y) (hy1 : y < (p : Int))
    (h : (2 * y) % (p : Int) = 0) : ((p : Int) - y) % (p : Int) = y := by
  obtain ⟨k, hk⟩ := Int.dvd_of_emod_eq_zero h
  have hk1 : k < 2 := by
    by_contra hge
    have : (p : Int) * 2 ≤ (p : Int) * k := by
      apply mul_le_mul_of_nonneg_left (by omega) (by omega)
    omega
  have hk0 : 0 ≤ k := by
    by_contra hlt
    have : (p : Int) * k ≤ (p : Int) * (-1) := by
      apply mul_le_mul_of_nonneg_left (by omega) (by omega)
    omega
  rcases (by omega : k = 0 ∨ k = 1) with rfl | rfl
  · have hy : y = 0 := by omega
    subst hy
    simp
  · have hy : (p : Int) - y = y := by omega
    rw [hy]
    exact Int.emod_eq_of_lt hy0 hy1

/-- Two valid affine points with the same `x` are equal or opposite. -/
theorem eq_or_opposite_of_same_x (E : Curve) (hp : Nat.Prime E.p) (x y1 y2 : Int)
    (h1 : (Point.Affine x y1).valid E) (h2 : (Point.Affine x y2).valid E) :
    y1 = y2 ∨ y1 = ((E.p : Int) - y2) % (E.p : Int) := by
  obtain ⟨_, _, hy10, hy11, hc1⟩ := h1
  obtain ⟨_, _, hy20, hy21, hc2⟩ := h2
  unfold on_curve at hc1 hc2
  rw [decide_eq_true_iff] at hc1 hc2
  have hsq : (y1 ^ 2) % (E.p : Int) = (y2 ^ 2) % (E.p : Int) := hc1.trans hc2.symm
  have hd : (E.p : Int) ∣ (y1 - y2) * (y1 + y2) := by
    have h := Int.emod_emod_of_dvd (y1 ^ 2 - y2 ^ 2) (dvd_refl (E.p : Int))
    have h0 : (y1 ^ 2 - y2 ^ 2) % (E.p : Int) = 0 := by
      rw [Int.sub_emod, hsq, sub_self, Int.zero_emod]
    have h3 := Int.dvd_of_emod_eq_zero h0
    have e : y1 ^ 2 - y2 ^ 2 = (y1 - y2) * (y1 + y2) := by ring
    rwa [e] at h3
  rcases (Nat.prime_iff_prime_int.mp hp).dvd_or_dvd hd with h | h
  · left
    have h0 := Int.eq_zero_of_abs_lt_dvd h (by rw [abs_lt]; constructor <;> omega)
    omega
  · right
    obtain ⟨k, hk⟩ := h
    have hk1 : k < 2 := by
      by_contra hge
      have : (E.p : Int) * 2 ≤ (E.p : Int) * k := by
        apply mul_le_mul_of_nonneg_left (by omega) (by omega)
      omega
    have hk0 : 0 ≤ k := by
      by_contra hlt
      have : (E.p : Int) * k ≤ (E.p : Int) * (-1) := by
        apply mul_le_mul_of_nonneg_left (by omega) (by omega)
      omega
    rcases (by omega : k = 0 ∨ k = 1) with rfl | rfl
    · have e1 : y1 = 0 := by omega
      have e2 : y2 = 0 := by omega
      subst e1
      subst e2
      simp
    · have e : y1 = (E.p : Int) - y2 := by omega
      rw [e]
      exact (Int.emod_eq_of_lt (by omega) (by omega)).symm

/-- On valid affine points, every value whose inverse `add` asks for is
nonzero mod `p`. -/
theorem add_denominator_ne_zero (E : Curve) (hp : Nat.Prime E.p) (x1 y1 x2 y2 : Int)
    (h1 : (Point.Affine x1 y1).valid E) (h2 : (Point.Affine x2 y2).valid E) (d : Int)
    (hd : add_denominator E (Point.Affine x1 y1) (Point.Affine x2 y2) = some d) :
    d % (E.p : Int) ≠ 0 := by
  unfold add_denominator at hd
  rw [if_neg (by simp), if_neg (by simp)] at hd
  by_cases hinv : Point.Affine x1 y1 = invert E (Point.Affine x2 y2)
  · rw [if_pos hinv] at hd
    simp at hd
  rw [if_neg hinv] at hd
  simp only at hd
  intro hz
  by_cases heq : Point.Affine x1 y1 = Point.Affine x2 y2
  · rw [if_pos heq] at hd
    have hd2 : 2 * y1 = d := Option.some.inj hd
    rw [← hd2] at hz
    apply hinv
    have hx : x1 = x2 := (Point.Affine.inj heq).1
    have hy : y1 = y2 := (Point.Affine.inj heq).2
    subst hx
    subst hy
    simp only [invert]
    rw [neg_eq_self_of_two_mul E.p y1 h1.2.2.1 h1.2.2.2.1 hz]
  · rw [if_neg heq] at hd
    have hd2 : x2 - x1 = d := Option.some.inj hd
    rw [← hd2] at hz
    have hx0 := Int.eq_zero_of_abs_lt_dvd (Int.dvd_of_emod_eq_zero hz)
      (by
        have a1 := h1.1
        have a2 := h1.2.1
        have b1 := h2.1
        have b2 := h2.2.1
        rw [abs_lt]
        constructor <;> omega)
    have hx : x1 = x2 := by omega
    subst hx
    rcases eq_or_opposite_of_same_x E hp x1 y1 y2 h1 h2 with h | h
    · exact heq (by rw [h])
    · apply hinv
      simp only [invert]
      rw [← h]

/-- C23: `add` is total on curve points. For every prime `p`, every curve
`(a, b, p)` and all affine on-curve `P1`, `P2` with coordinates in `[0, p)`,
every value whose inverse `add(P1, P2)` asks for is nonzero mod `p`; for
`P1 = P2 = (x, 0)` no inverse is asked for; and the addition performed with the
failing `inverse` returns the point `add(P1, P2)` without `NoInverseError`. -/
theorem add_total_on_curve (E : Curve) (hp : Nat.Prime E.p) (x1 y1 x2 y2 : Int)
    (h1 : (Point.Affine x1 y1).valid E) (h2 : (Point.Affine x2 y2).valid E) :
    (∀ d : Int, add_denominator E (Point.Affine x1 y1) (Point.Affine x2 y2) = some d →
        d % (E.p : Int) ≠ 0) ∧
      (x1 = x2 → y1 = 0 → y2 = 0 →
        add_denominator E (Point.Affine x1 y1) (Point.Affine x2 y2) = none) ∧
      add_checked E (Point.Affine x1 y1) (Point.Affine x2 y2)
        = Except.ok (add E (Point.Affine x1 y1) (Point.Affine x2 y2)) := by
  haveI : Fact (Nat.Prime E.p) := ⟨hp⟩
  have hden := add_denominator_ne_zero E hp x1 y1 x2 y2 h1 h2
  refine ⟨hden, ?_, ?_⟩
  · rintro rfl rfl rfl
    unfold add_denominator
    rw [if_neg (by simp), if_neg (by simp), if_pos (by simp [invert])]
  · have e1 : Point.Affine x1 y1 ≠ Point.Identity := by simp
    have e2 : Point.Affine x2 y2 ≠ Point.Identity := by simp
    unfold add_denominator at hden
    unfold add_checked add
    rw [if_neg e1, if_neg e2] at hden
    rw [if_neg e1, if_neg e2, if_neg e1, if_neg e2]
    by_cases hinv : Point.Affine x1 y1 = invert E (Point.Affine x2 y2)
    · rw [if_pos hinv, if_pos hinv]
    rw [if_neg hinv] at hden
    rw [if_neg hinv, if_neg hinv]
    simp only at hden ⊢
    by_cases heq : Point.Affine x1 y1 = Point.Affine x2 y2
    · rw [if_pos heq] at hden
      simp only [if_pos heq, inverse_eq_modinv E.p (2 * y1) (hden _ rfl)]
    · rw [if_neg heq] at hden
      simp only [if_neg heq, inverse_eq_modinv E.p (x2 - x1) (hden _ rfl)]

/-- Witness of C23 on the curve `y^2 = x^3 + x + 1` over GF(5) at the points
`(0, 1)` and `(2, 1)`. -/
theorem add_total_on_curve_witness :
    Nat.Prime 5 ∧ (Point.Affine 0 1).valid ⟨1, 1, 5⟩ ∧ (Point.Affine 2 1).valid ⟨1, 1, 5⟩ ∧
    ((∀ d : Int, add_denominator ⟨1, 1, 5⟩ (Point.Affine 0 1) (Point.Affine 2 1) = some d →
        d % ((5 : Nat) : Int) ≠ 0) ∧
      ((0 : Int) = 2 → (1 : Int) = 0 → (1 : Int) = 0 →
        add_denominator ⟨1, 1, 5⟩ (Point.Affine 0 1) (Point.Affine 2 1) = none) ∧
      add_checked ⟨1, 1, 5⟩ (Point.Affine 0 1) (Point.Affine 2 1)
        = Except.ok (add ⟨1, 1, 5⟩ (Point.Affine 0 1) (Point.Affine 2 1))) :=
  ⟨by norm_num, by decide, by decide,
    add_total_on_curve ⟨1, 1, 5⟩ (by norm_num) 0 1 2 1 (by decide) (by decide)⟩

/-- With more fuel the wild loop returns the same result. -/
theorem wildLoop_fuel_succ {α : Type} [DecidableEq α] (G : GroupOps α) (g : α) (f : α → Nat)
    (a b xT : Nat) (yT : α) (r : Except Error Int) :
    ∀ (fuel xW : Nat) (yW : α), wildLoop G g f a b xT yT fuel xW yW = some r →
      wildLoop G g f a b xT yT (fuel + 1) xW yW = some r := by
  intro fuel
  induction fuel with
  | zero =>
    intro xW yW h
    simp only [wildLoop] at h ⊢
    by_cases hc : (xW : Int) < (b : Int) - (a : Int) + (xT : Int)
    · rw [if_pos hc] at h
      simp at h
    · rw [if_neg hc] at h
      rw [if_neg hc]
      exact h
  | succ fuel ih =>
    intro xW yW h
    rw [wildLoop] at h ⊢
    by_cases hc : (xW : Int) < (b : Int) - (a : Int) + (xT : Int)
    · rw [if_pos hc] at h ⊢
      simp only at h ⊢
      by_cases hcol : G.combine yW (scale G g (f yW)) = yT
      · rw [if_pos hcol] at h ⊢
        exact h
      · rw [if_neg hcol] at h ⊢
        exact ih _ _ h
    · rw [if_neg hc] at h ⊢
      exact h

/-- With jumps of at least one, the wild loop returns within
`b - a + xT - xW` iterations: an exponent or the no-collision failure. -/
theorem wildLoop_terminates {α : Type} [DecidableEq α] (G : GroupOps α) (g : α) (f : α → Nat)
    (hf : ∀ y, 1 ≤ f y) (a b xT : Nat) (yT : α) :
    ∀ (fuel xW : Nat) (yW : α), (b : Int) - (a : Int) + (xT : Int) - (xW : Int) ≤ (fuel : Int) →
      ∃ r, wildLoop G g f a b xT yT fuel xW yW = some r ∧
        (r = Except.error Error.NoCollisionFoundError ∨ ∃ v : Int, r = Except.ok v) := by
  intro fuel
  induction fuel with
  | zero =>
    intro xW yW hgap
    simp only [wildLoop]
    rw [if_neg (by push_cast at hgap; omega)]
    exact ⟨_, rfl, Or.inl rfl⟩
  | succ fuel ih =>
    intro xW yW hgap
    rw [wildLoop]
    by_cases hc : (xW : Int) < (b : Int) - (a : Int) + (xT : Int)
    · rw [if_pos hc]
      simp only
      by_cases hcol : G.combine yW (scale G g (f yW)) = yT
      · rw [if_pos hcol]
        exact ⟨_, rfl, Or.inr ⟨_, rfl⟩⟩
      · rw [if_neg hcol]
        apply ih
        have := hf yW
        push_cast at hgap ⊢
        omega
    · rw [if_neg hc]
      exact ⟨_, rfl, Or.inl rfl⟩

/-- C24: the kangaroo solver terminates. For every jump function with
`f(y) ≥ 1` for all `y` and all `a ≤ b`, `N`: each iteration of the wild loop
strictly increases `xW`, and after at most `b - a + xT` iterations the solver
has returned either an exponent or the no-collision failure; more iterations
are never run, the result is the same for every larger bound. -/
theorem kangaroo_terminates {α : Type} [DecidableEq α] (G : GroupOps α) (g : α) (f : α → Nat)
    (hf : ∀ y, 1 ≤ f y) (N a b : Nat) (hab : a ≤ b) (y : α) :
    (∀ (xW : Nat) (yW : α), xW < xW + f yW) ∧
      ∃ r, (∀ fuel, b - a + (tameLoop G g f N (0, scale G g b)).1 ≤ fuel →
          kangaroo G g f N a b y fuel = some r) ∧
        (r = Except.error Error.NoCollisionFoundError ∨ ∃ v : Int, r = Except.ok v) := by
  refine ⟨fun xW yW => by have := hf yW; omega, ?_⟩
  obtain ⟨r, hr, hshape⟩ := wildLoop_terminates G g f hf a b
    (tameLoop G g f N (0, scale G g b)).1 (tameLoop G g f N (0, scale G g b)).2
    (b - a + (tameLoop G g f N (0, scale G g b)).1) 0 y (by push_cast [Nat.cast_sub hab]; omega)
  refine ⟨r, ?_, hshape⟩
  intro fuel hfuel
  unfold kangaroo
  simp only
  induction fuel, hfuel using Nat.le_induction with
  | base => exact hr
  | succ n _ ih => exact wildLoop_fuel_succ G g f a b _ _ r n 0 y ih

/-- Witness of C24 in the multiplicative integers mod 7 with `g = 3`,
`f(y) = 2^(y mod 2)`, `N = 4`, `[a, b] = [0, 5]` and `y = 2`. -/
theorem kangaroo_terminates_witness :
    (∀ y : Int, 1 ≤ 2 ^ (y % 2).toNat) ∧ 0 ≤ 5 ∧
    ((∀ (xW : Nat) (yW : Int), xW < xW + 2 ^ (yW % 2).toNat) ∧
      ∃ r, (∀ fuel, 5 - 0 + (tameLoop (mulGroup 7) 3 (fun y => 2 ^ (y % 2).toNat) 4
              (0, scale (mulGroup 7) 3 5)).1 ≤ fuel →
          kangaroo (mulGroup 7) 3 (fun y => 2 ^ (y % 2).toNat) 4 0 5 2 fuel = some r) ∧
        (r = Except.error Error.NoCollisionFoundError ∨ ∃ v : Int, r = Except.ok v)) :=
  ⟨fun _ => Nat.one_le_two_pow, by decide,
    kangaroo_terminates (mulGroup 7) 3 (fun y => 2 ^ (y % 2).toNat)
      (fun _ => Nat.one_le_two_pow) 4 0 5 (by decide) 2⟩

end GroupLaw

end Cryptopals
